import Mathlib

/-!
# Messaging core and helpers of `golanglib`

A shallow embedding of the connection supervisor, the publisher and the
subscriber of `lib/mq/rabbitmq/client.go`, of the batching consumer and the
offset lookup of `lib/mq/kafka/consumer.go`, of the map sorter and the
hashcodes of `lib/utility`, of the table names, the bulk import and the `Where`
builder of `lib/sql`, and of the padding and the Authorization header of
`lib/httpd/auth/signer.go`, with the properties of the specification stated
over it.

Conventions of the embedding:

* a Go callback that may keep state is a state-passing function `σ → arg → Bool × σ`;
* a Go pointer that may be `nil` is an `Option`;
* a Go channel is the list of the values sent and not yet received;
* Go `int32` / `int64` values are `Int`, with explicit wrap-around where the
  code does arithmetic on them;
* calls made on an external collaborator (broker delivery, broker channel,
  consumer-group session) are recorded in a list, oldest first, and what the
  collaborator answers is an argument of the function that calls it;
* a call that is parked at a send on a full channel is kept with the value it
  holds while the other tasks go on (`Tasks`, `execAll`).
-/

namespace Golanglib

/-! ## Outcomes of a call -/

/-- How a call ends: it returns with a new state, it is parked on a channel
send that cannot proceed (carrying the state at the parking point), or it panics. -/
inductive Outcome (α : Type) where
  | ok (a : α)
  | blocked (a : α)
  | panicked
deriving Repr

/-- The state carried by an outcome, if it carries one. -/
def Outcome.state? {α : Type} : Outcome α → Option α
  | .ok a => some a
  | .blocked a => some a
  | .panicked => none

/-! ## RabbitMQ subscriber: `client.doConsume` -/

namespace rabbitmq

/-- The fields of `amqp.Delivery` the consume loop and its handler can see. -/
structure Delivery where
  DeliveryTag : Nat
  Redelivered : Bool
  Body : List Nat
deriving DecidableEq, Repr

/-- A terminal action issued on a delivery: `msg.Ack(multiple)` or
`msg.Reject(requeue)`, recorded with the tag of the delivery it was called on. -/
inductive Settle where
  | Ack (tag : Nat) (multiple : Bool)
  | Reject (tag : Nat) (requeue : Bool)
deriving DecidableEq, Repr

/-- The delivery tag a terminal action was issued on. -/
def Settle.tag : Settle → Nat
  | .Ack t _ => t
  | .Reject t _ => t

/-- The type of `client.handlerFunc`, `func(amqp.Delivery) bool`, with the
state of the application passed explicitly. -/
abbrev HandlerFunc (σ : Type) := σ → Delivery → Bool × σ

/-- What one iteration of the `select` in `doConsume` receives: the `done`
channel fired, the delivery channel yielded a delivery, or the delivery
channel was closed (`ok == false`). -/
inductive Selected where
  | done
  | msg (d : Delivery)
  | closed
deriving DecidableEq, Repr

/-- The body of the `case msg, ok := <-msgs` branch for an open channel:
```go
if !m.handlerFunc(msg) && !msg.Redelivered {
    _ = msg.Reject(true)
} else {
    _ = msg.Ack(false)
}
```
Returns the application state after the handler ran and the action issued. -/
def settleDelivery {σ : Type} (handlerFunc : HandlerFunc σ) (app : σ) (msg : Delivery) :
    σ × Settle :=
  let r := handlerFunc app msg
  if !r.1 && !msg.Redelivered then
    (r.2, Settle.Reject msg.DeliveryTag true)
  else
    (r.2, Settle.Ack msg.DeliveryTag false)

/-- The `for { select { ... } }` loop of `doConsume`, run over the sequence of
things its `select` receives. The loop returns on `done` and on a closed
delivery channel; when the sequence is exhausted the loop is waiting in
`select`. Returns the application state and the terminal actions issued,
oldest first. -/
def doConsumeLoop {σ : Type} (handlerFunc : HandlerFunc σ) (app : σ) :
    List Selected → σ × List Settle
  | [] => (app, [])
  | .done :: _ => (app, [])
  | .closed :: _ => (app, [])
  | .msg d :: rest =>
    let r := settleDelivery handlerFunc app d
    let k := doConsumeLoop handlerFunc r.1 rest
    (k.1, r.2 :: k.2)

/-- The deliveries the loop takes from the stream: those received before the
loop returns. -/
def received : List Selected → List Delivery
  | [] => []
  | .done :: _ => []
  | .closed :: _ => []
  | .msg d :: rest => d :: received rest

/-- The handler's verdict on each of a sequence of deliveries, the handler
being called on them in order. -/
def handlerRuns {σ : Type} (handlerFunc : HandlerFunc σ) (app : σ) :
    List Delivery → List (Delivery × Bool)
  | [] => []
  | d :: rest => (d, (handlerFunc app d).1) :: handlerRuns handlerFunc (handlerFunc app d).2 rest

/-- The number of `Ack` calls in a log issued on the delivery tagged `t`. -/
def ackCount (t : Nat) (log : List Settle) : Nat :=
  (log.filter (fun a => match a with
    | .Ack u _ => u == t
    | .Reject _ _ => false)).length

/-- The number of `Reject` calls in a log issued on the delivery tagged `t`. -/
def rejectCount (t : Nat) (log : List Settle) : Nat :=
  (log.filter (fun a => match a with
    | .Ack _ _ => false
    | .Reject u _ => u == t)).length

/-- The number of deliveries tagged `t` in a sequence of deliveries. -/
def deliveryCount (t : Nat) (ds : List Delivery) : Nat :=
  (ds.filter (fun d => d.DeliveryTag == t)).length

end rabbitmq

/-! ## Kafka batching consumer: `lib/mq/kafka/consumer.go` -/

namespace kafka

/-- The package variable `bufferLength`, the capacity of the dispatch queue. -/
def bufferLength : Nat := 8

/-- The value of an `int32` computation whose mathematical result is `x`. -/
def wrapInt32 (x : Int) : Int := (x + 2 ^ 31) % 2 ^ 32 - 2 ^ 31

/-- The value of an `int64` computation whose mathematical result is `x`. -/
def wrapInt64 (x : Int) : Int := (x + 2 ^ 63) % 2 ^ 64 - 2 ^ 63

/-- The fields of `sarama.ConsumerMessage` the package reads or passes on. -/
structure ConsumerMessage where
  Key : List Nat
  Value : List Nat
  Topic : String
  Partition : Int
  Offset : Int
deriving DecidableEq, Repr

/-- A Go slice `[]*sarama.ConsumerMessage`; `none` is a nil pointer. -/
abbrev Batch := List (Option ConsumerMessage)

/-- The type `ConsumerCallback`, `func([]*sarama.ConsumerMessage) bool`, with
the state of the application passed explicitly. -/
abbrev ConsumerCallback (σ : Type) := σ → Batch → Bool × σ

/-- A call made on a `sarama.ConsumerGroupSession`, recorded with the identity
of the session it was made on. -/
inductive SessionCall where
  | MarkOffset (session : Nat) (topic : String) (partition : Int) (offset : Int)
      (metadata : String)
  | Commit (session : Nat)
deriving DecidableEq, Repr

/-- The struct `batchConsumer`. `callBackBuffer` holds the batches sent on the
channel and not yet received, oldest first; `done` tells whether the `done`
channel has been closed; `Session` is the identity of the stored session. -/
structure batchConsumer (σ : Type) where
  BatchSize : Int
  BatchInterval : Int
  CallBack : Option (ConsumerCallback σ)
  MessageBuffer : Option Batch
  callBackBuffer : List Batch
  Session : Option Nat
  done : Bool
  currentIndex : Int

/-- Go `make([]*sarama.ConsumerMessage, n)`: a slice of `n` nil pointers; panics
(`none`) for a negative length. -/
def makeSlice (n : Int) : Option Batch :=
  if n < 0 then none else some (List.replicate n.toNat none)

/-- Go `s[i] = v`: panics (`none`) when the index is out of range. -/
def setIndex (s : Batch) (i : Int) (v : Option ConsumerMessage) : Option Batch :=
  if 0 ≤ i ∧ i < s.length then some (s.set i.toNat v) else none

/-- Go `s[i]`: panics (`none`) when the index is out of range. -/
def getIndex (s : Batch) (i : Int) : Option (Option ConsumerMessage) :=
  if 0 ≤ i ∧ i < s.length then s.get? i.toNat else none

/-- Go `copy(dst, src)`: the first `min(len(dst), len(src))` elements of `dst`
are overwritten with those of `src`. -/
def copySlice (dst src : Batch) : Batch :=
  src.take (min dst.length src.length) ++ dst.drop (min dst.length src.length)

/-- The function `newBatchConsumer`; the task it starts with `go c.run()` is
modelled by the `dispatch` and `exit` events of `step`. -/
def newBatchConsumer {σ : Type} (batchSize : Int) (batchInterval : Int)
    (callback : Option (ConsumerCallback σ)) : batchConsumer σ :=
  let batchSize := if batchSize < 1 then 1 else batchSize
  { BatchSize := batchSize
    BatchInterval := batchInterval
    CallBack := callback
    MessageBuffer := none
    callBackBuffer := []
    Session := none
    done := false
    currentIndex := 0 }

/-- The method `batchConsumer.sendToCallback`:
```go
batchMessage := make([]*sarama.ConsumerMessage, c.currentIndex)
copy(batchMessage, c.MessageBuffer)
c.callBackBuffer <- batchMessage
c.MessageBuffer = nil
c.currentIndex = 0
```
The send proceeds when the queue holds fewer than `bufferLength` batches;
otherwise the caller is parked at the send. -/
def sendToCallback {σ : Type} (c : batchConsumer σ) : Outcome (batchConsumer σ) :=
  match makeSlice c.currentIndex with
  | none => .panicked
  | some fresh =>
    let batchMessage := copySlice fresh (c.MessageBuffer.getD [])
    if c.callBackBuffer.length < bufferLength then
      .ok { c with
        callBackBuffer := c.callBackBuffer ++ [batchMessage]
        MessageBuffer := none
        currentIndex := 0 }
    else
      .blocked c

/-- The method `batchConsumer.attach`:
```go
if c.CallBack == nil {
    return
}
c.Session = sess
if c.MessageBuffer == nil {
    c.MessageBuffer = make([]*sarama.ConsumerMessage, c.BatchSize)
}
c.MessageBuffer[c.currentIndex] = msg
c.currentIndex++
if c.currentIndex == c.BatchSize || left == 0 {
    c.sendToCallback()
}
``` -/
def attach {σ : Type} (c : batchConsumer σ) (msg : ConsumerMessage) (sess : Nat)
    (left : Int) : Outcome (batchConsumer σ) :=
  match c.CallBack with
  | none => .ok c
  | some _ =>
    let c1 := { c with Session := some sess }
    let made := match c1.MessageBuffer with
      | none => makeSlice c1.BatchSize
      | some b => some b
    match made with
    | none => .panicked
    | some buf =>
      match setIndex buf c1.currentIndex (some msg) with
      | none => .panicked
      | some buf2 =>
        let c2 := { c1 with
          MessageBuffer := some buf2
          currentIndex := wrapInt32 (c1.currentIndex + 1) }
        if c2.currentIndex = c2.BatchSize ∨ left = 0 then sendToCallback c2 else .ok c2

/-- The body of the `case msgs := <-c.callBackBuffer` branch of `batchConsumer.run`:
```go
if c.CallBack(msgs) {
    m := msgs[len(msgs)-1]
    c.Session.MarkOffset(m.Topic, m.Partition, m.Offset+1, "")
    c.Session.Commit()
}
```
Returns the application state after the callback, the verdict of the callback
and the calls made on the session; `none` is a panic (nil callback, empty
batch, nil record or nil session). -/
def runBatch {σ : Type} (c : batchConsumer σ) (app : σ) (msgs : Batch) :
    Option (σ × Bool × List SessionCall) :=
  match c.CallBack with
  | none => none
  | some cb =>
    let r := cb app msgs
    if r.1 then
      match getIndex msgs ((msgs.length : Int) - 1) with
      | none => none
      | some none => none
      | some (some m) =>
        match c.Session with
        | none => none
        | some sess =>
          some (r.2, true,
            [SessionCall.MarkOffset sess m.Topic m.Partition (wrapInt64 (m.Offset + 1)) "",
             SessionCall.Commit sess])
    else
      some (r.2, false, [])

/-- The method `batchConsumer.Close`, `close(c.done)`: closing a closed channel
panics (`none`). -/
def batchConsumer.Close {σ : Type} (c : batchConsumer σ) : Option (batchConsumer σ) :=
  if c.done then none else some { c with done := true }

/-- The records buffered in the window: the first `currentIndex` slots of
`MessageBuffer`. -/
def window {σ : Type} (c : batchConsumer σ) : Batch :=
  (c.MessageBuffer.getD []).take c.currentIndex.toNat

/-! ### One batch consumer and the tasks around it -/

/-- A batch consumer together with the application state its callback works
on, the state of its `run` task, the calls made on sessions so far, and a
history of what happened: the records passed to `attach`, the batches sent on
the dispatch queue (each with the `left` argument of the `attach` call that
sent it) and the batches passed to the callback (each with its verdict). -/
structure System (σ : Type) where
  c : batchConsumer σ
  app : σ
  running : Bool
  calls : List SessionCall
  attached : List ConsumerMessage
  sent : List (Batch × Int)
  handled : List (Batch × Bool)

/-- What can happen to a batch consumer: a partition claim calls `attach`; the
`select` of `run` takes the next batch of the queue; `Close` is called; the
`select` of `run` takes the `done` branch and `run` returns. -/
inductive Event where
  | attach (msg : ConsumerMessage) (sess : Nat) (left : Int)
  | dispatch
  | close
  | exit
deriving DecidableEq, Repr

/-- The system right after `newBatchConsumer`. -/
def System.init {σ : Type} (batchSize batchInterval : Int)
    (callback : Option (ConsumerCallback σ)) (app : σ) : System σ :=
  { c := newBatchConsumer batchSize batchInterval callback
    app := app
    running := true
    calls := []
    attached := []
    sent := []
    handled := [] }

/-- One event. A `dispatch` with an empty queue, or after `run` returned, and
an `exit` before `done` is closed change nothing: the `select` of `run` keeps
waiting. -/
def step {σ : Type} (s : System σ) : Event → Outcome (System σ)
  | .attach msg sess left =>
    match attach s.c msg sess left with
    | .ok c2 =>
      .ok { s with
        c := c2
        attached := s.attached ++ [msg]
        sent := s.sent ++
          (c2.callBackBuffer.drop s.c.callBackBuffer.length).map (fun b => (b, left)) }
    | .blocked c2 => .blocked { s with c := c2, attached := s.attached ++ [msg] }
    | .panicked => .panicked
  | .dispatch =>
    if s.running then
      match s.c.callBackBuffer with
      | [] => .ok s
      | msgs :: rest =>
        match runBatch s.c s.app msgs with
        | none => .panicked
        | some (app2, verdict, calls) =>
          .ok { s with
            c := { s.c with callBackBuffer := rest }
            app := app2
            calls := s.calls ++ calls
            handled := s.handled ++ [(msgs, verdict)] }
    else .ok s
  | .close =>
    match s.c.Close with
    | none => .panicked
    | some c2 => .ok { s with c := c2 }
  | .exit =>
    if s.c.done then .ok { s with running := false } else .ok s

/-- A sequence of events, one after the other, up to the first call that does
not return: the run of `run` and of one partition claim as long as no send is
parked (an `attach` that is parked at the send ends it, in the state in which
the call is parked). How the tasks go on past a parked call, with `run`
taking batches, the call resuming and other claims calling `attach`
meanwhile, is `execAll`. -/
def exec {σ : Type} (s : System σ) : List Event → Outcome (System σ)
  | [] => .ok s
  | e :: es =>
    match step s e with
    | .ok s2 => exec s2 es
    | o => o

/-- The positions marked for one topic and partition in a list of session
calls, oldest first. -/
def markedPositions (topic : String) (partition : Int) : List SessionCall → List Int
  | [] => []
  | .MarkOffset _ t p pos _ :: rest =>
    if t = topic ∧ p = partition then pos :: markedPositions topic partition rest
    else markedPositions topic partition rest
  | .Commit _ :: rest => markedPositions topic partition rest

/-- The non-nil records of a batch. -/
def records (b : Batch) : List ConsumerMessage := b.filterMap id

/-- The offsets of the records of one topic and partition in a list of records. -/
def offsetsOf (topic : String) (partition : Int) (ms : List ConsumerMessage) : List Int :=
  (ms.filter (fun m => m.Topic = topic ∧ m.Partition = partition)).map (fun m => m.Offset)

/-! ### States of a batch consumer between and inside calls -/

/-- The buffer of a batch consumer has the shape `attach` leaves it in: either
`MessageBuffer` is nil and the window is empty, or `MessageBuffer` has
`BatchSize` slots. -/
def bufferOk {σ : Type} (c : batchConsumer σ) : Prop :=
  match c.MessageBuffer with
  | none => c.currentIndex = 0
  | some buf => (buf.length : Int) = c.BatchSize

/-- A state a batch consumer with a callback can be in, inside or between
calls of `attach`: the batch size is a positive `int32`, the window is not
longer than the batch size and the buffer has its shape. -/
def Consistent {σ : Type} (c : batchConsumer σ) : Prop :=
  c.CallBack.isSome = true ∧ 1 ≤ c.BatchSize ∧ c.BatchSize < 2 ^ 31 ∧
    0 ≤ c.currentIndex ∧ c.currentIndex ≤ c.BatchSize ∧ bufferOk c

/-- A state a batch consumer with a callback can be in between two calls of
`attach`: consistent, with room for one more record in the window. -/
def BetweenCalls {σ : Type} (c : batchConsumer σ) : Prop :=
  Consistent c ∧ c.currentIndex < c.BatchSize

/-- The state of `attach` after `c.currentIndex++`, before it decides whether
to flush, for a consumer between calls. -/
def stored {σ : Type} (c : batchConsumer σ) (msg : ConsumerMessage) (sess : Nat) :
    batchConsumer σ :=
  { c with
    Session := some sess
    MessageBuffer :=
      some ((c.MessageBuffer.getD (List.replicate c.BatchSize.toNat none)).set
        c.currentIndex.toNat (some msg))
    currentIndex := c.currentIndex + 1 }

/-- The state `sendToCallback` leaves after the send went through: the window
is at the back of the dispatch queue and the buffer is reset. -/
def flushed {σ : Type} (c : batchConsumer σ) : batchConsumer σ :=
  { c with
    callBackBuffer := c.callBackBuffer ++ [window c]
    MessageBuffer := none
    currentIndex := 0 }

/-- The records passed to `attach` by a sequence of events. -/
def attachedOf : List Event → List ConsumerMessage
  | [] => []
  | .attach msg _ _ :: rest => msg :: attachedOf rest
  | _ :: rest => attachedOf rest

/-- The `left` argument of the last `attach` call in a sequence of events. -/
def lastLeft : List Event → Option Int
  | [] => none
  | e :: rest =>
    match lastLeft rest with
    | some l => some l
    | none =>
      match e with
      | .attach _ _ left => some left
      | _ => none

/-- The number of `Close` calls in a sequence of events. -/
def closeCount : List Event → Nat
  | [] => 0
  | .close :: rest => closeCount rest + 1
  | _ :: rest => closeCount rest

/-- The last record of a batch, if the batch is not empty and its last
pointer is not nil. -/
def lastRecord (b : Batch) : Option ConsumerMessage :=
  b.getLast?.join

/-- The positions `run` marks for one topic and partition when it handles the
given batches with the given verdicts of the callback. -/
def marksOfHandled (topic : String) (partition : Int) : List (Batch × Bool) → List Int
  | [] => []
  | (b, v) :: rest =>
    match v, lastRecord b with
    | true, some m =>
      if m.Topic = topic ∧ m.Partition = partition then
        wrapInt64 (m.Offset + 1) :: marksOfHandled topic partition rest
      else marksOfHandled topic partition rest
    | _, _ => marksOfHandled topic partition rest

/-- What holds of a batch consumer and its history after any sequence of
events. -/
structure Inv {σ : Type} (s : System σ) : Prop where
  consistent : Consistent s.c
  history : (s.sent.map Prod.fst).flatten ++ window s.c = s.attached.map some
  queue : s.sent.map Prod.fst = s.handled.map Prod.fst ++ s.c.callBackBuffer
  session : s.attached ≠ [] → s.c.Session.isSome = true
  sizes : ∀ p ∈ s.sent, 1 ≤ p.1.length ∧ (p.1.length : Int) ≤ s.c.BatchSize ∧
    ((p.1.length : Int) < s.c.BatchSize → p.2 = 0)
  marks : ∀ topic partition,
    markedPositions topic partition s.calls = marksOfHandled topic partition s.handled

/-- All records of a batch belong to one partition. -/
def SinglePartition (b : Batch) : Prop :=
  ∀ m1 ∈ records b, ∀ m2 ∈ records b, m1.Partition = m2.Partition

/-- No position marked for the topic and partition lies beyond a record of
that topic and partition whose batch the callback rejected. -/
def MarksOnlyPastAccepted {σ : Type} (topic : String) (partition : Int) (s : System σ) : Prop :=
  ∀ bv ∈ s.handled, ∀ m ∈ records bv.1, m.Topic = topic → m.Partition = partition →
    ∀ pos ∈ markedPositions topic partition s.calls, m.Offset < pos → bv.2 = true

/-! ### The package-level registries, `ReceiveMessage` and `ConsumeClaim` -/

/-- Go `m[k]` on a map with string keys, given as its list of entries (`none`
is the nil map): the value stored under `k`, if any. -/
def mapGet {V : Type} (m : Option (List (String × V))) (k : String) : Option V :=
  match m with
  | none => none
  | some l => (l.find? (fun p => p.1 = k)).map (fun p => p.2)

/-- Go `m[k] = v`: replaces the value stored under `k` or adds the entry;
panics (`none`) on the nil map. -/
def mapSet {V : Type} (m : Option (List (String × V))) (k : String) (v : V) :
    Option (List (String × V)) :=
  match m with
  | none => none
  | some l =>
    if l.any (fun p => p.1 = k) then some (l.map (fun p => if p.1 = k then (k, v) else p))
    else some (l ++ [(k, v)])

/-- The struct `kafkaConsumerGroupHandler`. -/
structure kafkaConsumerGroupHandler where
  GroupID : String
deriving DecidableEq, Repr

/-- The fields of `sarama.Config` that `ReceiveMessage` sets. -/
structure Config where
  Version : String
  ConsumerReturnErrors : Bool
  ConsumerFetchMax : Int
  ConsumerOffsetsAutoCommitEnable : Bool
  ConsumerOffsetsInitial : Int
deriving DecidableEq, Repr

/-- The configuration `ReceiveMessage` builds when `groupConfig` is nil:
`sarama.NewConfig()` with version `V1_0_0_0`, `Consumer.Return.Errors = true`,
`Consumer.Fetch.Max = batchSize`, `Consumer.Offsets.AutoCommit.Enable = false`
and `Consumer.Offsets.Initial = sarama.OffsetOldest` (which is `-2`). -/
def newGroupConfig (batchSize : Int) : Config :=
  { Version := "V1_0_0_0"
    ConsumerReturnErrors := true
    ConsumerFetchMax := batchSize
    ConsumerOffsetsAutoCommitEnable := false
    ConsumerOffsetsInitial := -2 }

/-- The package variables of `consumer.go`. A consumer group and a cluster
admin are given by an identity; a nil slice is the empty list. -/
structure Globals (σ : Type) where
  groupers : Option (List (String × Nat))
  groupAddress : List String
  groupConfig : Option Config
  groupHandlers : Option (List (String × kafkaConsumerGroupHandler))
  groupConsumers : Option (List (String × batchConsumer σ))
  groupCluster : Option Nat

/-- The package variables before any call. -/
def Globals.initial {σ : Type} : Globals σ :=
  { groupers := none
    groupAddress := []
    groupConfig := none
    groupHandlers := none
    groupConsumers := none
    groupCluster := none }

/-- What the collaborators of `ReceiveMessage` answer: the `address` list of the
`kafka` configuration section (`none` when the section is missing), the result
of `sarama.NewConsumerGroup`, and the error of `grouper.Consume` (`none` is nil). -/
structure ReceiveEnv where
  kafkaAddress : Option (List String)
  newConsumerGroup : Except String Nat
  consume : Option String

/-- The initialisation block of `ReceiveMessage`, `if groupers == nil { ... }`.
Returns the package variables and the error returned from inside the block, if
any. The goroutine that waits for the interrupt signal is not modelled. -/
def receiveInit {σ : Type} (env : ReceiveEnv) (g : Globals σ) (batchSize : Int) :
    Globals σ × Option String :=
  if g.groupers.isSome then (g, none)
  else
    let r : Globals σ × Option String :=
      if g.groupAddress.length = 0 then
        match env.kafkaAddress with
        | some a =>
          if a.length = 0 then ({ g with groupAddress := a }, some "kafka address not config")
          else ({ g with groupAddress := a }, none)
        | none => (g, some "kafka not config")
      else (g, none)
    match r.2 with
    | some e => (r.1, some e)
    | none =>
      let g1 := r.1
      let g2 := if g1.groupConfig.isNone then { g1 with groupConfig := some (newGroupConfig batchSize) }
        else g1
      let g3 := if g2.groupHandlers.isNone then { g2 with groupHandlers := some [] } else g2
      let g4 := if g3.groupConsumers.isNone then { g3 with groupConsumers := some [] } else g3
      ({ g4 with groupers := some [] }, none)

/-- The function `ReceiveMessage`. Returns the package variables and the error
returned (`none` is nil); the outer `none` is a panic (a write to a nil map).
The goroutine that logs the errors of the consumer group is not modelled,
`grouper.Consume` is given by its result, and a consumer group stored in
`groupers` is never nil, so that `!ok || grouper == nil` is `!ok`. -/
def ReceiveMessage {σ : Type} (env : ReceiveEnv) (g : Globals σ) (topic groupId : String)
    (batchSize : Int) (batchInterval : Int) (callback : Option (ConsumerCallback σ)) :
    Option (Globals σ × Option String) :=
  match receiveInit env g batchSize with
  | (g1, some e) => some (g1, some e)
  | (g1, none) =>
    let grouped : Option (Globals σ × Option String) :=
      match mapGet g1.groupers groupId with
      | some _ => some (g1, none)
      | none =>
        match env.newConsumerGroup with
        | .error e => some (g1, some e)
        | .ok grouper =>
          match mapSet g1.groupers groupId grouper,
              mapSet g1.groupHandlers groupId { GroupID := groupId } with
          | some gs, some hs => some ({ g1 with groupers := some gs, groupHandlers := some hs }, none)
          | _, _ => none
    match grouped with
    | none => none
    | some (g2, some e) => some (g2, some e)
    | some (g2, none) =>
      let registered : Option (Globals σ) :=
        match mapGet g2.groupConsumers (groupId ++ topic) with
        | some _ => some g2
        | none =>
          match mapSet g2.groupConsumers (groupId ++ topic)
              (newBatchConsumer batchSize batchInterval callback) with
          | some cs => some { g2 with groupConsumers := some cs }
          | none => none
      match registered with
      | none => none
      | some g3 => some (g3, env.consume)

/-- One iteration of the loop of `kafkaConsumerGroupHandler.ConsumeClaim`:
```go
left := len(claim.Messages())
if c, ok := groupConsumers[h.GroupID+msg.Topic]; ok {
    c.attach(msg, sess, left)
}
```
for the record `msg` just received from the claim, `left` being the number of
records the claim has buffered at that moment. The registry holds pointers:
`attach` changes the consumer in place, which is its entry being replaced. -/
def consumeClaimIter {σ : Type} (h : kafkaConsumerGroupHandler) (sess : Nat)
    (g : Globals σ) (msg : ConsumerMessage) (left : Int) : Outcome (Globals σ) :=
  match mapGet g.groupConsumers (h.GroupID ++ msg.Topic) with
  | some c =>
    match attach c msg sess left with
    | .ok c2 => .ok { g with groupConsumers := mapSet g.groupConsumers (h.GroupID ++ msg.Topic) c2 }
    | .blocked c2 =>
      .blocked { g with groupConsumers := mapSet g.groupConsumers (h.GroupID ++ msg.Topic) c2 }
    | .panicked => .panicked
  | none => .ok g

/-- The method `kafkaConsumerGroupHandler.ConsumeClaim`, over the records the
claim delivers, each with the number of records buffered behind it. -/
def ConsumeClaim {σ : Type} (h : kafkaConsumerGroupHandler) (sess : Nat) (g : Globals σ) :
    List (ConsumerMessage × Int) → Outcome (Globals σ)
  | [] => .ok g
  | (msg, left) :: rest =>
    match consumeClaimIter h sess g msg left with
    | .ok g2 => ConsumeClaim h sess g2 rest
    | o => o

/-! ### Sample inputs -/

/-- A record of the given topic, partition and offset. -/
def sampleRecord (topic : String) (partition offset : Int) : ConsumerMessage :=
  { Key := [], Value := [], Topic := topic, Partition := partition, Offset := offset }

/-- A callback that accepts every batch. -/
def acceptAll : ConsumerCallback Unit := fun app _ => (true, app)

/-- A callback that rejects every batch. -/
def rejectAll : ConsumerCallback Unit := fun app _ => (false, app)

/-- A callback that rejects the first batch it is given and accepts the later
ones; its state is the number of batches it was given. -/
def rejectFirst : ConsumerCallback Nat := fun n _ => (decide (0 < n), n + 1)

/-- Collaborators of `ReceiveMessage` that all succeed: one broker address,
a consumer group of the given identity, no error from `Consume`. -/
def sampleEnv (grouper : Nat) : ReceiveEnv :=
  { kafkaAddress := some ["127.0.0.1:9092"], newConsumerGroup := .ok grouper, consume := none }

/-- Five records of one partition attached with batch size 3 and no record
left behind the fifth. -/
def fiveRecords : List Event :=
  [.attach (sampleRecord "t" 0 1) 7 4, .attach (sampleRecord "t" 0 2) 7 3,
   .attach (sampleRecord "t" 0 3) 7 2, .attach (sampleRecord "t" 0 4) 7 1,
   .attach (sampleRecord "t" 0 5) 7 0]

/-- Two batches of one record each, of the same partition and with increasing
offsets, both handled by `run`. -/
def twoBatches : List Event :=
  [.attach (sampleRecord "t" 0 0) 7 0, .attach (sampleRecord "t" 0 1) 7 0, .dispatch, .dispatch]

/-- The state after `fiveRecords` on a fresh consumer of batch size 3 whose
callback accepts every batch: two batches wait in the dispatch queue. -/
def afterFiveRecords : System Unit :=
  ((exec (System.init 3 0 (some acceptAll) ()) fiveRecords).state?).getD
    (System.init 3 0 (some acceptAll) ())

/-- The state after `twoBatches` on a fresh consumer of batch size 1 whose
callback rejects the first batch and accepts the second. -/
def afterTwoBatches : System Nat :=
  ((exec (System.init 1 0 (some rejectFirst) 0) twoBatches).state?).getD
    (System.init 1 0 (some rejectFirst) 0)

/-- Topic `t` is registered for group `g` with batch size 3; then the claim of
partition 0 delivers a record with one more record buffered behind it, and
the claim of partition 1 delivers a record with nothing buffered behind it.
The result is the dispatch queue of the consumer registered under `gt`. -/
def twoClaims : Option (List Batch) :=
  (ReceiveMessage (sampleEnv 1) Globals.initial "t" "g" 3 0 (some acceptAll)).bind fun r =>
    (consumeClaimIter { GroupID := "g" } 7 r.1 (sampleRecord "t" 0 10) 1).state?.bind fun g2 =>
      (consumeClaimIter { GroupID := "g" } 7 g2 (sampleRecord "t" 1 20) 0).state?.bind fun g3 =>
        (mapGet g3.groupConsumers "gt").map fun c => c.callBackBuffer

/-- Topic `bc` is registered for group `a` with batch size 3 and a callback
that accepts, then topic `c` for group `ab` with batch size 5 and a callback
that rejects. The result is the package variables after both calls. -/
def twoRegistrations : Option (Globals Unit) :=
  (ReceiveMessage (sampleEnv 1) Globals.initial "bc" "a" 3 0 (some acceptAll)).bind fun r =>
    (ReceiveMessage (sampleEnv 2) r.1 "c" "ab" 5 0 (some rejectAll)).map fun r2 => r2.1

/-- After `twoRegistrations`, the claim of group `ab` delivers a record of
topic `c` with nothing buffered behind it. The result is the consumers of the
registry after that, each as its key, its batch size, the verdict of its
callback on an empty batch, and its dispatch queue. -/
def routedAfterTwoRegistrations : Option (List (String × Int × Option Bool × List Batch)) :=
  twoRegistrations.bind fun g =>
    (consumeClaimIter { GroupID := "ab" } 7 g (sampleRecord "c" 0 0) 0).state?.map fun g2 =>
      (g2.groupConsumers.getD []).map fun p =>
        (p.1, p.2.BatchSize, p.2.CallBack.map (fun cb => (cb () []).1), p.2.callBackBuffer)

end kafka

end Golanglib

/-! ## RabbitMQ connection supervisor, publisher and subscriber: `lib/mq/rabbitmq/client.go` -/

namespace Golanglib

namespace rabbitmq

/-- How a call that works on a state ends: it returns a result, it is parked
on a channel operation that cannot proceed, or it panics with a message. Each
case carries the state at that point. -/
inductive Exit (ω ρ : Type) where
  | ret (w : ω) (r : ρ)
  | parked (w : ω)
  | panic (w : ω) (msg : String)

/-- The state an exit carries. -/
def Exit.world {ω ρ : Type} : Exit ω ρ → ω
  | .ret w _ => w
  | .parked w => w
  | .panic w _ => w

/-- The result of a call that returned. -/
def Exit.result? {ω ρ : Type} : Exit ω ρ → Option ρ
  | .ret _ r => some r
  | .parked _ => none
  | .panic _ _ => none

/-- The message of a call that panicked. -/
def Exit.panicMsg? {ω ρ : Type} : Exit ω ρ → Option String
  | .ret _ _ => none
  | .parked _ => none
  | .panic _ msg => some msg

/-- Whether the call is parked on a channel operation. -/
def Exit.isParked {ω ρ : Type} : Exit ω ρ → Bool
  | .ret _ _ => false
  | .parked _ => true
  | .panic _ _ => false

/-- One second as a `time.Duration` (nanoseconds). -/
def second : Int := 1000000000

/-- The constant `reconnectDelay`, `2 * time.Second`. -/
def reconnectDelay : Int := 2 * second

/-- The constant `maxWaitNum`. -/
def maxWaitNum : Int := 10

/-- The constant `exchangeType`. -/
def exchangeType : String := "topic"

/-- The constant `delayQueueName`. -/
def delayQueueName : String := "DelayQueueTemp"

/-- The deadline of `waitConn`, `reconnectDelay*maxWaitNum`. -/
def waitDeadline : Int := reconnectDelay * maxWaitNum

/-- The capacity of `connectMsg`, `make(chan bool, 1)`. -/
def connectMsgCap : Nat := 1

/-- The runtime panic of a method called through a nil pointer. -/
def nilPointerPanic : String := "invalid memory address or nil pointer dereference"

/-- Go `strconv.Itoa`: the decimal string of an integer. -/
def Itoa (n : Int) : String :=
  if n < 0 then "-" ++ Nat.repr n.natAbs else Nat.repr n.natAbs

/-- A call made on the broker client library (or on the clock), recorded with
its arguments. -/
inductive AmqpCall where
  | Dial (addr vHost connName : String) (heartbeat : Int)
  | OpenChannel (conn : Nat)
  | NotifyClose (channel : Nat)
  | ExchangeDeclare (name kind : String) (durable autoDelete internal noWait : Bool)
  | QueueDeclare (name : String) (durable autoDelete exclusive noWait : Bool)
      (args : List (String × String))
  | QueueBind (name key exchange : String) (noWait : Bool)
  | Qos (prefetchCount prefetchSize : Int) (global : Bool)
  | Consume (queue consumer : String) (autoAck exclusive noLocal noWait : Bool)
  | Publish (exchange key : String) (mandatory immediate : Bool) (body : List Nat)
      (expiration : String)
  | ChannelClose (channel : Nat)
  | ConnClose (conn : Nat)
  | Sleep (d : Int)
deriving DecidableEq, Repr

/-- The struct `client`. A connection and a channel are given by an identity.
`connectMsg` holds the signals sent and not yet received, and
`connectMsgClosed` tells whether that channel was closed; `done` tells whether
the `done` channel was closed; `notifyClose` is nil (`none`), open with no
notification (`some false`), or notified and closed by the library after the
connection was lost (`some true`); `connIsClosed` is what `m.conn.IsClosed()`
answers. The mutex `lock` is taken by `handleReconnect` only and is left out. -/
structure client (σ : Type) where
  conn : Option Nat
  channel : Option Nat
  isConnected : Bool
  connectMsg : List Bool
  connectMsgClosed : Bool
  done : Bool
  notifyClose : Option Bool
  handlerFunc : Option (HandlerFunc σ)
  exchangeName : String
  queueName : String
  routingKey : String
  connName : String
  addr : String
  vHost : String
  heartbeat : Int
  connIsClosed : Bool

/-- A client together with the application state its handler works on, the
calls made on the broker client library so far and the terminal actions issued
on deliveries so far, oldest first. -/
structure World (σ : Type) where
  m : client σ
  app : σ
  calls : List AmqpCall
  settles : List Settle

/-- The function `NewClient`; the task it starts with `go c.handleReconnect()`
is modelled by `handleReconnect`. -/
def NewClient {σ : Type} (addr vHost connName : String) (heartbeat : Int) : client σ :=
  { conn := none
    channel := none
    isConnected := false
    connectMsg := []
    connectMsgClosed := false
    done := false
    notifyClose := none
    handlerFunc := none
    exchangeName := ""
    queueName := ""
    routingKey := ""
    connName := connName
    addr := addr
    vHost := vHost
    heartbeat := heartbeat
    connIsClosed := false }

/-- The world right after `NewClient`. -/
def World.new {σ : Type} (addr vHost connName : String) (heartbeat : Int) (app : σ) : World σ :=
  { m := NewClient addr vHost connName heartbeat, app := app, calls := [], settles := [] }

/-- The function `failOnError`:
```go
if err != nil {
    panic(fmt.Sprintf("%s: %s", msg, err))
}
```
Returns the panic message, or `none` when it returns normally. An error is
given by its text. -/
def failOnError (err : Option String) (msg : String) : Option String :=
  match err with
  | some e => some (msg ++ ": " ++ e)
  | none => none

/-- The method `client.waitConn`:
```go
if m.isConnected {
    return true, nil
}
cxt, cancel := context.WithTimeout(context.Background(), reconnectDelay*maxWaitNum)
select {
case <-cxt.Done():
    err = errors.New("Wait connect timeout.")
    return
case isConn = <-m.connectMsg:
    cancel()
    if !isConn {
        err = errors.New("Client has closed.")
    }
    return
}
```
A buffered signal is received at once, and so is the zero value `false` of a
closed channel. With an empty open channel the caller waits, and `late` tells
how the wait ends: `none` when the deadline `waitDeadline` elapses first,
`some b` when a sender hands the signal `b` over first. -/
def waitConn {σ : Type} (m : client σ) (late : Option Bool) :
    client σ × Bool × Option String :=
  if m.isConnected then (m, true, none)
  else
    match m.connectMsg with
    | b :: rest =>
      ({ m with connectMsg := rest }, b, if !b then some "Client has closed." else none)
    | [] =>
      if m.connectMsgClosed then (m, false, some "Client has closed.")
      else
        match late with
        | none => (m, false, some "Wait connect timeout.")
        | some b => (m, b, if !b then some "Client has closed." else none)

/-- How a send on `connectMsg` ends. -/
inductive Sent (σ : Type) where
  | ok (m : client σ)
  | blocked
  | closed

/-- Go `m.connectMsg <- b`. Sending on a closed channel panics. With a receiver
parked in `waitConn` and nothing buffered the signal is handed over; otherwise
it is buffered if the channel has room, and the sender is parked if not. -/
def sendSignal {σ : Type} (m : client σ) (b : Bool) (receiverWaiting : Bool) : Sent σ :=
  if m.connectMsgClosed then .closed
  else if receiverWaiting ∧ m.connectMsg = [] then .ok m
  else if m.connectMsg.length < connectMsgCap then .ok { m with connectMsg := m.connectMsg ++ [b] }
  else .blocked

/-- What the broker client library and the environment answer during one
`doConsume`: how a wait in `waitConn` ends, the errors of the declarations
(`none` is nil), the queue returned by `QueueDeclare`, and the deliveries
channel returned by `Consume`, given as what the `select` of the loop receives. -/
structure ConsumeAnswers where
  wait : Option Bool
  exchangeDeclare : Option String
  queueDeclare : Except String String
  queueBind : Option String
  qos : Option String
  consume : Except String (List Selected)

/-- Whether the consume loop returns on the given sequence: it does on `done`
and on a closed deliveries channel. -/
def loopReturns : List Selected → Bool
  | [] => false
  | .done :: _ => true
  | .closed :: _ => true
  | .msg _ :: rest => loopReturns rest

/-- The error of a result of the library, `none` for nil. -/
def errorOf {α : Type} : Except String α → Option String
  | .error e => some e
  | .ok _ => none

/-- The method `client.doConsume`: wait for the connection, declare the
exchange, the queue and the binding, set the prefetch, register the consumer
(each failure goes to `failOnError`), then run the loop `doConsumeLoop`. The
call is parked when the loop is left waiting in its `select`. -/
def doConsume {σ : Type} (w : World σ) (ans : ConsumeAnswers) : Exit (World σ) Unit :=
  let r := waitConn w.m ans.wait
  let w1 : World σ := { w with m := r.1 }
  match (if !r.2.1 then failOnError r.2.2 "mq连接超时" else none) with
  | some p => .panic w1 p
  | none =>
    match w1.m.channel with
    | none => .panic w1 nilPointerPanic
    | some _ =>
      let w2 : World σ := { w1 with calls := w1.calls ++
        [AmqpCall.ExchangeDeclare w1.m.exchangeName exchangeType true false false false] }
      match failOnError ans.exchangeDeclare "Failed to register an Exchange" with
      | some p => .panic w2 p
      | none =>
        let w3 : World σ := { w2 with calls := w2.calls ++
          [AmqpCall.QueueDeclare w2.m.queueName true false false false []] }
        match failOnError (errorOf ans.queueDeclare) "Failed to register an Queue" with
        | some p => .panic w3 p
        | none =>
          let queueName := match ans.queueDeclare with
            | .ok q => q
            | .error _ => ""
          let w4 : World σ := { w3 with calls := w3.calls ++
            [AmqpCall.QueueBind queueName w3.m.routingKey w3.m.exchangeName false] }
          match failOnError ans.queueBind "Failed to register an Queue" with
          | some p => .panic w4 p
          | none =>
            let w5 : World σ := { w4 with calls := w4.calls ++
              [AmqpCall.Qos 1 0 true,
               AmqpCall.Consume queueName w4.m.connName false false false false] }
            match failOnError (errorOf ans.consume) "Failed to register a consumer" with
            | some p => .panic w5 p
            | none =>
              let msgs := match ans.consume with
                | .ok evs => evs
                | .error _ => []
              match w5.m.handlerFunc with
              | none =>
                match received msgs with
                | [] => if loopReturns msgs then .ret w5 () else .parked w5
                | _ :: _ => .panic w5 nilPointerPanic
              | some h =>
                let k := doConsumeLoop h w5.app msgs
                let w6 : World σ := { w5 with app := k.1, settles := w5.settles ++ k.2 }
                if loopReturns msgs then .ret w6 () else .parked w6

/-- What the broker client library and the environment answer during one
`doConn`: the results of `amqp.DialConfig` and `conn.Channel`, whether a
receiver is parked in `waitConn` when the signal is sent, and the answers for
the `doConsume` that follows when a handler is set. -/
structure ConnAnswers where
  dial : Except String Nat
  openChannel : Except String Nat
  receiverWaiting : Bool
  consume : ConsumeAnswers

/-- The method `client.doConn`:
```go
conn, err := amqp.DialConfig(m.addr, ...)
if err != nil {
    return false, err
}
channel, err := conn.Channel()
if err != nil {
    return false, err
}
m.notifyClose = make(chan *amqp.Error)
channel.NotifyClose(m.notifyClose)
m.conn = conn
m.channel = channel
m.isConnected = true
m.connectMsg <- true
if m.handlerFunc != nil {
    m.doConsume()
}
return true, nil
``` -/
def doConn {σ : Type} (w : World σ) (ans : ConnAnswers) :
    Exit (World σ) (Bool × Option String) :=
  let w1 : World σ := { w with calls := w.calls ++
    [AmqpCall.Dial w.m.addr w.m.vHost w.m.connName w.m.heartbeat] }
  match ans.dial with
  | .error e => .ret w1 (false, some e)
  | .ok conn =>
    let w2 : World σ := { w1 with calls := w1.calls ++ [AmqpCall.OpenChannel conn] }
    match ans.openChannel with
    | .error e => .ret w2 (false, some e)
    | .ok channel =>
      let w3 : World σ := { w2 with
        m := { w2.m with
          notifyClose := some false
          conn := some conn
          channel := some channel
          isConnected := true
          connIsClosed := false }
        calls := w2.calls ++ [AmqpCall.NotifyClose channel] }
      match sendSignal w3.m true ans.receiverWaiting with
      | .closed => .panic w3 "send on closed channel"
      | .blocked => .parked w3
      | .ok m4 =>
        let w4 : World σ := { w3 with m := m4 }
        match w4.m.handlerFunc with
        | none => .ret w4 (true, none)
        | some _ =>
          match doConsume w4 ans.consume with
          | .ret w5 _ => .ret w5 (true, none)
          | .parked w5 => .parked w5
          | .panic w5 msg => .panic w5 msg

/-- The method `client.Subscribe`: store the topology and the handler, and
consume at once when connected. -/
def Subscribe {σ : Type} (w : World σ) (exchangeName queueName routingKey : String)
    (handlerFunc : Option (HandlerFunc σ)) (ans : ConsumeAnswers) :
    Exit (World σ) (Option String) :=
  let w1 : World σ := { w with
    m := { w.m with
      exchangeName := exchangeName
      routingKey := routingKey
      queueName := queueName
      handlerFunc := handlerFunc } }
  if w1.m.isConnected then
    match doConsume w1 ans with
    | .ret w2 _ => .ret w2 none
    | .parked w2 => .parked w2
    | .panic w2 msg => .panic w2 msg
  else .ret w1 none

/-- What the broker client library and the environment answer during one
`Publish` or `PublishDelay`: how a wait in `waitConn` ends, the error of
`ExchangeDeclare`, the result of `QueueDeclare` (the name of the queue
returned) and the error of `channel.Publish`. -/
structure PublishAnswers where
  wait : Option Bool
  exchangeDeclare : Option String
  queueDeclare : Except String String
  publish : Option String

/-- The method `client.Publish`, for a serializer `marshal` that returns the
bytes and the error of `json.Marshal`:
```go
if ok, err := m.waitConn(); !ok {
    return err
}
if m.conn == nil {
    panic("No connection is initialized.")
}
err := m.channel.ExchangeDeclare(exchangeName, exchangeType, true, false, false, false, nil)
if err != nil {
    return err
}
body, _ := json.Marshal(message)
err = m.channel.Publish(exchangeName, routingKey, false, false, amqp.Publishing{Body: body})
return err
``` -/
def Publish {σ μ : Type} (marshal : μ → List Nat × Option String) (w : World σ) (message : μ)
    (exchangeName routingKey : String) (ans : PublishAnswers) :
    Exit (World σ) (Option String) :=
  let r := waitConn w.m ans.wait
  let w1 : World σ := { w with m := r.1 }
  if !r.2.1 then .ret w1 r.2.2
  else
    match w1.m.conn with
    | none => .panic w1 "No connection is initialized."
    | some _ =>
      match w1.m.channel with
      | none => .panic w1 nilPointerPanic
      | some _ =>
        let w2 : World σ := { w1 with calls := w1.calls ++
          [AmqpCall.ExchangeDeclare exchangeName exchangeType true false false false] }
        match ans.exchangeDeclare with
        | some e => .ret w2 (some e)
        | none =>
          let body := (marshal message).1
          let w3 : World σ := { w2 with calls := w2.calls ++
            [AmqpCall.Publish exchangeName routingKey false false body ""] }
          .ret w3 ans.publish

/-- The method `client.PublishDelay`: as `Publish`, with the delay queue
declared between the exchange declaration and the send:
```go
queue, err := m.channel.QueueDeclare(delayQueueName, true, false, false, false,
    map[string]interface{}{
        "x-dead-letter-exchange":    exchangeName,
        "x-dead-letter-routing-key": routingKey,
    })
if err != nil {
    return err
}
body, _ := json.Marshal(message)
err = m.channel.Publish("", queue.Name, false, false,
    amqp.Publishing{Body: body, Expiration: strconv.Itoa(delay)})
return err
``` -/
def PublishDelay {σ μ : Type} (marshal : μ → List Nat × Option String) (w : World σ)
    (message : μ) (exchangeName routingKey : String) (delay : Int) (ans : PublishAnswers) :
    Exit (World σ) (Option String) :=
  let r := waitConn w.m ans.wait
  let w1 : World σ := { w with m := r.1 }
  if !r.2.1 then .ret w1 r.2.2
  else
    match w1.m.conn with
    | none => .panic w1 "No connection is initialized."
    | some _ =>
      match w1.m.channel with
      | none => .panic w1 nilPointerPanic
      | some _ =>
        let w2 : World σ := { w1 with calls := w1.calls ++
          [AmqpCall.ExchangeDeclare exchangeName exchangeType true false false false] }
        match ans.exchangeDeclare with
        | some e => .ret w2 (some e)
        | none =>
          let w3 : World σ := { w2 with calls := w2.calls ++
            [AmqpCall.QueueDeclare delayQueueName true false false false
              [("x-dead-letter-exchange", exchangeName),
               ("x-dead-letter-routing-key", routingKey)]] }
          match ans.queueDeclare with
          | .error e => .ret w3 (some e)
          | .ok queueName =>
            let body := (marshal message).1
            let w4 : World σ := { w3 with calls := w3.calls ++
              [AmqpCall.Publish "" queueName false false body (Itoa delay)] }
            .ret w4 ans.publish

/-- What the broker client library and the environment answer during one
`Close`: the errors of `channel.Close` and `conn.Close`, and whether a receiver
is parked in `waitConn` when the signal is sent. -/
structure CloseAnswers where
  channelClose : Option String
  connClose : Option String
  receiverWaiting : Bool

/-- The method `client.Close`:
```go
err := m.channel.Close()
err = m.conn.Close()
close(m.done)
m.isConnected = false
m.connectMsg <- false
close(m.connectMsg)
return err
```
Closing a closed channel panics. -/
def client.Close {σ : Type} (w : World σ) (ans : CloseAnswers) :
    Exit (World σ) (Option String) :=
  match w.m.channel with
  | none => .panic w nilPointerPanic
  | some channel =>
    let w1 : World σ := { w with calls := w.calls ++ [AmqpCall.ChannelClose channel] }
    match w1.m.conn with
    | none => .panic w1 nilPointerPanic
    | some conn =>
      let w2 : World σ := { w1 with calls := w1.calls ++ [AmqpCall.ConnClose conn] }
      if w2.m.done then .panic w2 "close of closed channel"
      else
        let w3 : World σ := { w2 with m := { w2.m with done := true, isConnected := false } }
        match sendSignal w3.m false ans.receiverWaiting with
        | .closed => .panic w3 "send on closed channel"
        | .blocked => .parked w3
        | .ok m4 =>
          if m4.connectMsgClosed then .panic { w3 with m := m4 } "close of closed channel"
          else .ret { w3 with m := { m4 with connectMsgClosed := true } } ans.connClose

/-- A case of the `select` of `handleReconnect`. -/
inductive ReconnectCase where
  | done
  | notifyClose
deriving DecidableEq, Repr

/-- The cases of the `select` of `handleReconnect` that can fire: `done` when
the `done` channel is closed, `notifyClose` when that channel is not nil and
was notified. A receive from a nil channel never fires. -/
def readyCases {σ : Type} (m : client σ) : List ReconnectCase :=
  (if m.done then [ReconnectCase.done] else []) ++
    (if m.notifyClose = some true then [ReconnectCase.notifyClose] else [])

/-- The case a `select` takes: none when no case can fire (the task waits),
the preferred one when it can fire, else the first that can. -/
def selectCase (ready : List ReconnectCase) (pick : ReconnectCase) : Option ReconnectCase :=
  if pick ∈ ready then some pick else ready.head?

/-- What happens around one round of the loop of `handleReconnect`: the
answers for the `doConn` of the round, whether the broker drops the connection
while the task sleeps or waits (the library then notifies and closes
`notifyClose` and `IsClosed` answers true), and the case the `select` takes
among those that can fire. -/
structure Round where
  conn : ConnAnswers
  lost : Bool
  pick : ReconnectCase

/-- The broker drops the connection. -/
def connectionLost {σ : Type} (m : client σ) : client σ :=
  { m with
    notifyClose := m.notifyClose.map (fun _ => true)
    connIsClosed := true }

/-- The method `client.handleReconnect`, one round of its loop for each element
of the given list:
```go
for {
    if !m.isConnected || m.conn.IsClosed() {
        m.lock.Lock()
        if !m.isConnected || m.conn.IsClosed() {
            if ok, _ := m.doConn(); !ok {
            }
        }
        m.lock.Unlock()
    }
    time.Sleep(reconnectDelay)
    select {
    case <-m.done:
        return
    case <-m.notifyClose:
        m.channel.Close()
        m.conn.Close()
        m.isConnected = false
    }
}
```
The task is parked when it is inside a parked `doConn`, when no case of the
`select` can fire, and when the list is exhausted. -/
def handleReconnect {σ : Type} (w : World σ) : List Round → Exit (World σ) Unit
  | [] => .parked w
  | r :: rest =>
    let attempted : Exit (World σ) Unit :=
      if !w.m.isConnected || w.m.connIsClosed then
        match doConn w r.conn with
        | .ret w1 _ => .ret w1 ()
        | .parked w1 => .parked w1
        | .panic w1 msg => .panic w1 msg
      else .ret w ()
    match attempted with
    | .parked w1 => .parked w1
    | .panic w1 msg => .panic w1 msg
    | .ret w1 _ =>
      let w2 : World σ := { w1 with
        m := if r.lost then connectionLost w1.m else w1.m
        calls := w1.calls ++ [AmqpCall.Sleep reconnectDelay] }
      match selectCase (readyCases w2.m) r.pick with
      | none => .parked w2
      | some .done => .ret w2 ()
      | some .notifyClose =>
        match w2.m.channel, w2.m.conn with
        | some channel, some conn =>
          handleReconnect
            { w2 with
              m := { w2.m with isConnected := false, connIsClosed := true }
              calls := w2.calls ++ [AmqpCall.ChannelClose channel, AmqpCall.ConnClose conn] }
            rest
        | _, _ => .panic w2 nilPointerPanic

/-- The number of `amqp.DialConfig` calls in a list of calls: the number of
connect attempts. -/
def dialCount : List AmqpCall → Nat
  | [] => 0
  | .Dial _ _ _ _ :: rest => dialCount rest + 1
  | _ :: rest => dialCount rest

/-! ### Sample inputs -/

/-- Answers of a broker on which every step of `doConsume` succeeds and whose
deliveries channel yields nothing yet. -/
def okConsume : ConsumeAnswers :=
  { wait := none
    exchangeDeclare := none
    queueDeclare := .ok "q"
    queueBind := none
    qos := none
    consume := .ok [] }

/-- Answers of a reachable broker: the dial and the channel succeed, and no
receiver is parked in `waitConn`. -/
def okConn (conn channel : Nat) : ConnAnswers :=
  { dial := .ok conn, openChannel := .ok channel, receiverWaiting := false, consume := okConsume }

/-- Answers of a reachable broker while a receiver is parked in `waitConn`. -/
def okConnWaited (conn channel : Nat) : ConnAnswers :=
  { dial := .ok conn, openChannel := .ok channel, receiverWaiting := true, consume := okConsume }

/-- Answers of an unreachable broker: the dial fails. -/
def failDial : ConnAnswers :=
  { dial := .error "dial tcp: connection refused"
    openChannel := .ok 0
    receiverWaiting := false
    consume := okConsume }

/-- Answers of a broker that accepts the dial and refuses the channel. -/
def failChannel : ConnAnswers :=
  { dial := .ok 1
    openChannel := .error "channel/connection is not open"
    receiverWaiting := false
    consume := okConsume }

/-- Answers of a broker on which every step of a publish succeeds; the delay
queue comes back under its own name. -/
def okPublish : PublishAnswers :=
  { wait := none, exchangeDeclare := none, queueDeclare := .ok "DelayQueueTemp", publish := none }

/-- Answers of a `Close` on which both closes succeed, with no receiver parked. -/
def okClose : CloseAnswers :=
  { channelClose := none, connClose := none, receiverWaiting := false }

/-- A serializer that fails on every message, as `json.Marshal` does on a
channel value: no bytes and an error. -/
def failingMarshal : Unit → List Nat × Option String :=
  fun _ => ([], some "json: unsupported type: chan int")

/-- A serializer that succeeds: the bytes of `{}` and no error. -/
def okMarshal : Unit → List Nat × Option String :=
  fun _ => ([123, 125], none)

/-- A fresh client whose first connect succeeded while no receiver was parked:
it is connected and its signal is buffered. -/
def connectedWorld : World Unit :=
  (doConn (World.new "amqp://broker" "/" "demo" 10 ()) (okConn 1 1)).world

/-- A fresh client whose first connect succeeded while a receiver was parked
in `waitConn`: it is connected and nothing is buffered. -/
def connectedWorldWaited : World Unit :=
  (doConn (World.new "amqp://broker" "/" "demo" 10 ()) (okConnWaited 1 1)).world

/-- A fresh client connects, the broker drops the connection, and the next
dial fails. -/
def dropThenFail : List Round :=
  [{ conn := okConn 1 1, lost := true, pick := .notifyClose },
   { conn := failDial, lost := false, pick := .notifyClose }]

/-- A fresh client connects, the broker drops the connection, and the next
dial and channel succeed. -/
def dropThenReconnect : List Round :=
  [{ conn := okConn 1 1, lost := true, pick := .notifyClose },
   { conn := okConn 2 2, lost := false, pick := .notifyClose }]

/-- The broker is unreachable at the first dial and reachable afterwards. -/
def failThenReachable : List Round :=
  [{ conn := failDial, lost := false, pick := .notifyClose },
   { conn := okConn 1 1, lost := false, pick := .notifyClose },
   { conn := okConn 2 2, lost := false, pick := .notifyClose }]

end rabbitmq

/-! ## Offset lookup: `GetMessageLastOffset` of `lib/mq/kafka/consumer.go` -/

namespace kafka

/-- What the collaborators of `GetMessageLastOffset` answer: the `address` list
of the `kafka` configuration section (`none` when the section is missing), the
result of `sarama.NewClusterAdmin`, the result of `ListConsumerGroupOffsets`
for a group, topic and partition (the offset of the block of the topic and
partition, `none` when `GetBlock` returns nil), and the error of
`groupCluster.Close` (`none` is nil). -/
structure OffsetEnv where
  kafkaAddress : Option (List String)
  newClusterAdmin : Except String Nat
  listOffsets : String → String → Int → Except String (Option Int)
  close : Option String

/-- The function `GetMessageLastOffset`. Returns the package variables, the
offset and the error returned (`none` is nil). The part this file follows most
closely:
```go
offResp, err := groupCluster.ListConsumerGroupOffsets(groupId, topicPartitions)
if err != nil {
    err = groupCluster.Close()
    if err == nil {
        groupCluster = nil
    }
    return -1, err
}
resp := offResp.GetBlock(topic, partition)
if resp == nil {
    return -1, errors.New("kafka not Block info")
}
return resp.Offset, nil
``` -/
def GetMessageLastOffset {σ : Type} (env : OffsetEnv) (g : Globals σ)
    (topic groupId : String) (partition : Int) : Globals σ × Int × Option String :=
  let addressed : Globals σ × Option String :=
    if g.groupAddress.length = 0 then
      match env.kafkaAddress with
      | some a =>
        if a.length = 0 then ({ g with groupAddress := a }, some "kafka address not config")
        else ({ g with groupAddress := a }, none)
      | none => (g, some "kafka not config")
    else (g, none)
  match addressed with
  | (g1, some e) => (g1, -1, some e)
  | (g1, none) =>
    let clustered : Globals σ × Option String :=
      match g1.groupCluster with
      | some _ => (g1, none)
      | none =>
        match env.newClusterAdmin with
        | .ok admin => ({ g1 with groupCluster := some admin }, none)
        | .error e => ({ g1 with groupCluster := none }, some e)
    match clustered with
    | (g2, some e) => (g2, -1, some e)
    | (g2, none) =>
      match env.listOffsets groupId topic partition with
      | .error _ =>
        match env.close with
        | none => ({ g2 with groupCluster := none }, -1, none)
        | some e => (g2, -1, some e)
      | .ok none => (g2, -1, some "kafka not Block info")
      | .ok (some offset) => (g2, offset, none)

/-- The error of the offset query for a group, topic and partition, `none`
for nil. -/
def errorOf_listOffsets (env : OffsetEnv) (groupId topic : String) (partition : Int) :
    Option String :=
  match env.listOffsets groupId topic partition with
  | .error e => some e
  | .ok _ => none

/-- Collaborators of `GetMessageLastOffset` for a reachable cluster whose
offset query fails and whose admin handle closes cleanly. -/
def failingQuery : OffsetEnv :=
  { kafkaAddress := some ["127.0.0.1:9092"]
    newClusterAdmin := .ok 1
    listOffsets := fun _ _ _ => .error "kafka: broker not connected"
    close := none }

end kafka

end Golanglib

/-! ## Further sample inputs for the offset lookup -/

namespace Golanglib

namespace kafka

/-- Collaborators of `GetMessageLastOffset` for a reachable cluster whose
offset query fails and whose admin handle fails to close as well. -/
def failingQueryAndClose : OffsetEnv :=
  { kafkaAddress := some ["127.0.0.1:9092"]
    newClusterAdmin := .ok 1
    listOffsets := fun _ _ _ => .error "kafka: broker not connected"
    close := some "kafka: tried to use a client that was closed" }

/-- The package variables after topic `t` was registered for group `g` with
batch size 3 and a callback that accepts. -/
def registeredOnce : Globals Unit :=
  ((ReceiveMessage (sampleEnv 1) Globals.initial "t" "g" 3 0 (some acceptAll)).map
    (fun r => r.1)).getD Globals.initial

end kafka

end Golanglib

/-! ## Utilities: `lib/utility/mapsort.go` and `lib/utility/hashcode.go` -/

namespace Golanglib

namespace utility

/-- A Go string as a key: its bytes. Go compares strings byte by byte. -/
abbrev Key := List Nat

/-- The struct `MapItem`. -/
structure MapItem (α : Type) where
  Key : Key
  Val : α
deriving DecidableEq, Repr

/-- The struct `MapSorter`. -/
structure MapSorter (α : Type) where
  OrderBy : String
  Items : List (MapItem α)

/-- The function `NewMapSorter`. The map is given as the list of its entries
in the order in which `for k, v := range m` visits them. -/
def NewMapSorter {α : Type} (m : List (Key × α)) (o : String) : MapSorter α :=
  { OrderBy := o, Items := m.map (fun kv => { Key := kv.1, Val := kv.2 }) }

/-- Go `strings.Compare`: 0 for equal strings, -1 when the first is the
smaller one, 1 otherwise. -/
def stringsCompare (a b : Key) : Int :=
  if a = b then 0 else if a < b then -1 else 1

/-- The comparison of `MapSorter.Less`, on the two items compared:
```go
if ms.OrderBy == "asc" {
    return strings.Compare(ms.Items[i].Key, ms.Items[j].Key) <= 0
}
return strings.Compare(ms.Items[i].Key, ms.Items[j].Key) > 0
``` -/
def lessItem {α : Type} (orderBy : String) (a b : MapItem α) : Bool :=
  if orderBy = "asc" then decide (stringsCompare a.Key b.Key ≤ 0)
  else decide (stringsCompare a.Key b.Key > 0)

/-- The method `MapSorter.Len`. -/
def MapSorter.Len {α : Type} (ms : MapSorter α) : Nat := ms.Items.length

/-- The method `MapSorter.Less`; an index out of range panics (`none`). -/
def MapSorter.Less {α : Type} (ms : MapSorter α) (i j : Nat) : Option Bool :=
  match ms.Items.get? i, ms.Items.get? j with
  | some a, some b => some (lessItem ms.OrderBy a b)
  | _, _ => none

/-- The method `MapSorter.Swap`; an index out of range panics (`none`). -/
def MapSorter.Swap {α : Type} (ms : MapSorter α) (i j : Nat) : Option (MapSorter α) :=
  match ms.Items.get? i, ms.Items.get? j with
  | some a, some b => some { ms with Items := (ms.Items.set i b).set j a }
  | _, _ => none

/-- The inner loop of `insertionSort` of the Go library, run on the sorter
through its methods, from position `j` down:
```go
for j := i; j > a && data.Less(j, j-1); j-- {
    data.Swap(j, j-1)
}
```
with `a = 0`; `none` is a panic of `Less` or `Swap`. -/
def insertionInner {α : Type} (ms : MapSorter α) : Nat → Option (MapSorter α)
  | 0 => some ms
  | j + 1 =>
    match ms.Less (j + 1) j with
    | none => none
    | some false => some ms
    | some true =>
      match ms.Swap (j + 1) j with
      | none => none
      | some ms2 => insertionInner ms2 j

/-- The outer loop of `insertionSort` of the Go library,
`for i := a + 1; i < b; i++`, from position `i` with `n` iterations left. -/
def insertionOuter {α : Type} : Nat → Nat → MapSorter α → Option (MapSorter α)
  | 0, _, ms => some ms
  | n + 1, i, ms =>
    match insertionInner ms i with
    | none => none
    | some ms2 => insertionOuter n (i + 1) ms2

/-- Modelled from the Go library: `sort.Sort(ms)`, as `n := data.Len()`
followed by the insertion sort `insertionSort(data, 0, n)` that the library
runs on short slices. The sorter is read and changed only through `ms.Len`,
`ms.Less` and `ms.Swap`; the items of `ms` share their backing array with the
sorter passed, so the result is the sorter after the swaps. `none` is a
panic. -/
def sortSort {α : Type} (ms : MapSorter α) : Option (MapSorter α) :=
  insertionOuter (ms.Len - 1) 1 ms

/-- The function `MapSortByKey`; `none` is a panic:
```go
ms := NewMapSorter(list, orderBy)
sort.Sort(ms)
return ms.Items
``` -/
def MapSortByKey {α : Type} (list : List (Key × α)) (orderBy : String) :
    Option (List (MapItem α)) :=
  (sortSort (NewMapSorter list orderBy)).map (fun ms => ms.Items)

/-- What the inner loop of the insertion sort does to the items, read off the
list: the item `x` at position `i` and the items before it, nearest first;
`x` moves towards the front while it is less than its neighbour. -/
def sink {α : Type} (less : α → α → Bool) (x : α) : List α → List α
  | [] => [x]
  | y :: before => if less x y then y :: sink less x before else x :: y :: before

/-- What the outer loop of the insertion sort does to the items, read off the
list: the items already placed (last first) and the items still to place. -/
def insertionLoop {α : Type} (less : α → α → Bool) : List α → List α → List α
  | placed, [] => placed.reverse
  | placed, x :: rest => insertionLoop less (sink less x placed) rest

/-- The conversion of an integer to `int32`. -/
def toInt32 (x : Int) : Int := (x + 2 ^ 31) % 2 ^ 32 - 2 ^ 31

/-- The function `GetStringCode`, for a given `crc32.ChecksumIEEE` (a `uint32`):
```go
v := int32(crc32.ChecksumIEEE([]byte(str)))
if v >= 0 {
    return v
}
if -v >= 0 {
    return -v
}
return 0
``` -/
def GetStringCode (ChecksumIEEE : List Nat → Nat) (str : List Nat) : Int :=
  let v := toInt32 ((ChecksumIEEE str % 2 ^ 32 : Nat) : Int)
  if v ≥ 0 then v
  else if toInt32 (-v) ≥ 0 then toInt32 (-v)
  else 0

/-- A value passed to `GetHashcode` as `interface{}`: an integer of one of the
integer types, a `time.Time` (given by `t.Unix()`), a `reflect.Value` (with
what `IsValid` and `CanInterface` answer, the value it wraps and its `%v`
text), or a value of any other type (given by its `%v` text). -/
inductive GoValue where
  | int (n : Int)
  | int8 (n : Int)
  | int16 (n : Int)
  | int32 (n : Int)
  | int64 (n : Int)
  | uint (n : Int)
  | uint8 (n : Int)
  | uint16 (n : Int)
  | uint32 (n : Int)
  | uint64 (n : Int)
  | time (unix : Int)
  | reflectValue (valid canInterface : Bool) (inner : GoValue) (formatted : List Nat)
  | other (formatted : List Nat)
deriving DecidableEq, Repr

/-- The function `GetHashcode`, for a given `crc32.ChecksumIEEE`: the integer
types convert to `int32`, a valid `reflect.Value` is unwrapped, and everything
else goes through `GetStringCode(fmt.Sprintf("%v", v))`. -/
def GetHashcode (ChecksumIEEE : List Nat → Nat) : GoValue → Int
  | .int n => toInt32 n
  | .int8 n => toInt32 n
  | .int16 n => toInt32 n
  | .int32 n => n
  | .int64 n => toInt32 n
  | .uint n => toInt32 n
  | .uint8 n => toInt32 n
  | .uint16 n => toInt32 n
  | .uint32 n => toInt32 n
  | .uint64 n => toInt32 n
  | .time unix => toInt32 unix
  | .reflectValue valid canInterface inner formatted =>
    if valid && canInterface then GetHashcode ChecksumIEEE inner
    else GetStringCode ChecksumIEEE formatted
  | .other formatted => GetStringCode ChecksumIEEE formatted

/-- A map with the keys `b`, `a` and `c`, visited in that order. -/
def sampleMap : List (Key × Nat) := [([98], 2), ([97], 1), ([99], 3)]

end utility

end Golanglib


/-! ## Table names and bulk import: lib/sql/db.go -/

namespace Golanglib

namespace sql

/-- How a call ends: with a value, with a Go `error`, or in a run-time panic. -/
inductive Res (α : Type) where
  | ok (a : α)
  | err (msg : String)
  | panic (msg : String)
  deriving DecidableEq, Repr

/-- The struct `Policy`; `Count` is a Go `int`. -/
structure Policy where
  Column : String
  Count : Int
  deriving DecidableEq, Repr

/-- The struct `SplitTableConf`. -/
structure SplitTableConf where
  TableName : String
  Policies : List Policy
  deriving DecidableEq, Repr

/-- The fields of `DbContext` the table-name functions and `ImportData` read. -/
structure DbContext where
  Driver : String
  TableConfs : List SplitTableConf
  deriving DecidableEq, Repr

/-- What the functions see of an entity (a struct, or a pointer to one):
`dtx.db.TableName(entity)` and `reflect.ValueOf(entity).FieldByName(column)`,
which is a `reflect.Value`. -/
structure Entity where
  TableName : String
  FieldByName : String → utility.GoValue

/-- Go `a % b` on `int32`: the remainder truncated towards zero, a panic when
`b` is zero. -/
def remInt32 (a b : Int) : Option Int :=
  if b = 0 then none else some (Int.tmod a b)

/-- The loop `for _, p := range c.Policies` of `GetTableName`, from the table
name built so far. -/
def tableNameLoop (ChecksumIEEE : List Nat → Nat) (entity : Entity) :
    List Policy → String → Res String
  | [], tableName => .ok tableName
  | p :: ps, tableName =>
    let hashValue := utility.GetHashcode ChecksumIEEE (entity.FieldByName p.Column)
    if hashValue = 0 then .err ("必须提供字段参数:" ++ p.Column)
    else if p.Count > 1 then
      match remInt32 hashValue (utility.toInt32 p.Count) with
      | none => .panic "runtime error: integer divide by zero"
      | some h => tableNameLoop ChecksumIEEE entity ps (tableName ++ "_" ++ rabbitmq.Itoa h)
    else tableNameLoop ChecksumIEEE entity ps (tableName ++ "_" ++ rabbitmq.Itoa hashValue)

/-- The method `DbContext.GetTableName`: the first configuration whose table
name is the entity's decides; without one the table name is returned as is. -/
def GetTableName (ChecksumIEEE : List Nat → Nat) (dtx : DbContext) (entity : Entity) :
    Res String :=
  match dtx.TableConfs.find? (fun c => c.TableName = entity.TableName) with
  | none => .ok entity.TableName
  | some c => tableNameLoop ChecksumIEEE entity c.Policies entity.TableName

/-- The loop `for _, n := range tables[len(tables)-1]` of `GetAllTableName`
for one policy, from the names collected so far in `temp`. -/
def allNamesOfPolicy (ChecksumIEEE : List Nat → Nat) (entity : Entity) (p : Policy) :
    List String → List String → Res (List String)
  | [], temp => .ok temp
  | n :: ns, temp =>
    if p.Count = 0 then
      let hashValue := utility.GetHashcode ChecksumIEEE (entity.FieldByName p.Column)
      if hashValue = 0 then .err ("必须提供字段参数:" ++ p.Column)
      else allNamesOfPolicy ChecksumIEEE entity p ns (temp ++ [n ++ "_" ++ rabbitmq.Itoa hashValue])
    else
      allNamesOfPolicy ChecksumIEEE entity p ns
        (temp ++ (List.range p.Count.toNat).map (fun i => n ++ "_" ++ rabbitmq.Itoa (i : Int)))

/-- The loop `for _, p := range c.Policies` of `GetAllTableName`, from the last
list of names. -/
def allNamesLoop (ChecksumIEEE : List Nat → Nat) (entity : Entity) :
    List Policy → List String → Res (List String)
  | [], last => .ok last
  | p :: ps, last =>
    match allNamesOfPolicy ChecksumIEEE entity p last [] with
    | .ok temp => allNamesLoop ChecksumIEEE entity ps temp
    | .err e => .err e
    | .panic e => .panic e

/-- The method `DbContext.GetAllTableName`. -/
def GetAllTableName (ChecksumIEEE : List Nat → Nat) (dtx : DbContext) (entity : Entity) :
    Res (List String) :=
  match dtx.TableConfs.find? (fun c => c.TableName = entity.TableName) with
  | none => .ok [entity.TableName]
  | some c => allNamesLoop ChecksumIEEE entity c.Policies [entity.TableName]

/-- An entity of table `t` whose column `ID` holds the given value. -/
def entityWithID (v : utility.GoValue) : Entity :=
  { TableName := "t", FieldByName := fun _ => .reflectValue true true v [] }

/-- A context that splits table `t` on column `ID` into `count` tables. -/
def splitOnID (count : Int) : DbContext :=
  { Driver := "mysql",
    TableConfs := [{ TableName := "t", Policies := [{ Column := "ID", Count := count }] }] }

end sql

end Golanglib

/-! ## Bulk import: `DbContext.ImportData` -/

namespace Golanglib

namespace sql

/-- A call made on the database engine or on its session, recorded with its
arguments; `Insert` records `session.Table(k)` followed by
`session.Insert(beans)`. -/
inductive SessionCall where
  | InsertOne (table : String) (bean : Entity)
  | NewSession
  | Begin
  | Exec (sql : String)
  | Insert (table : String) (beans : List Entity)
  | Rollback
  | Commit
  | Close

/-- What the database answers: the error of `session.Begin` and of
`session.Commit` (`none` for nil), the results of `InsertOne` and `Insert`, and
the order in which `range group` visits the entries of the map. -/
structure ImportAnswers where
  begin : Option String
  insertOne : String → Entity → Except String Int
  insert : String → List Entity → Except String Int
  commit : Option String
  rangeOrder : List (String × List Entity) → List (String × List Entity)

/-- How `ImportData` ends: it returns `(n, err)`, panics, or is still looping
when the fuel of the model runs out. -/
inductive ImportExit where
  | returned (result : Except String Int)
  | panicked
  | outOfFuel

/-- The statements `temp = append(group[tbn], bean); group[tbn] = temp`, on the
entries of the map in the order in which their keys were first stored. -/
def groupAppend (group : List (String × List Entity)) (tbn : String) (bean : Entity) :
    List (String × List Entity) :=
  if group.any (fun p => p.1 = tbn) then
    group.map (fun p => if p.1 = tbn then (p.1, p.2 ++ [bean]) else p)
  else group ++ [(tbn, [bean])]

/-- The grouping loop of `ImportData`: the map built from the entities, or the
failure of `GetTableName` that ends the call. -/
def groupEntities (ChecksumIEEE : List Nat → Nat) (dtx : DbContext) :
    List Entity → List (String × List Entity) → Res (List (String × List Entity))
  | [], group => .ok group
  | bean :: rest, group =>
    match GetTableName ChecksumIEEE dtx bean with
    | .ok tbn => groupEntities ChecksumIEEE dtx rest (groupAppend group tbn bean)
    | .err e => .err ("GetTableName err:" ++ e)
    | .panic e => .panic e

/-- Go `v[lo:hi]`; `none` is the panic for bounds out of range. -/
def goSlice (v : List Entity) (lo hi : Int) : Option (List Entity) :=
  if 0 ≤ lo ∧ lo ≤ hi ∧ hi ≤ (v.length : Int) then
    some ((v.drop lo.toNat).take (hi - lo).toNat)
  else none

/-- How the loops over the groups end: all groups done (with the running chunk
size, the count and the calls made), an insert failed (after the rollback), a
slice expression panicked, or the fuel ran out. -/
inductive LoopExit where
  | next (bnum n : Int) (calls : List SessionCall)
  | failed (msg : String) (calls : List SessionCall)
  | panicked (calls : List SessionCall)
  | outOfFuel (calls : List SessionCall)

/-- The loop `for j := 0; j < _vlen; j += _bnum` over group `k`, from index `j`
with running chunk size `bnum` and count `n`; `int` and `int64` arithmetic
wraps. -/
def chunkLoop (ans : ImportAnswers) (k : String) (v : List Entity) :
    Nat → Int → Int → Int → List SessionCall → LoopExit
  | 0, _, _, _, calls => .outOfFuel calls
  | fuel + 1, j, bnum, n, calls =>
    if j < (v.length : Int) then
      let bnum1 :=
        if kafka.wrapInt64 (j + bnum) > (v.length : Int) then kafka.wrapInt64 ((v.length : Int) - j)
        else bnum
      match goSlice v j (kafka.wrapInt64 (j + bnum1)) with
      | none => .panicked calls
      | some beans =>
        match ans.insert k beans with
        | .error e =>
          .failed ("session.Insert err:" ++ e) (calls ++ [.Insert k beans, .Rollback])
        | .ok r =>
          chunkLoop ans k v fuel (kafka.wrapInt64 (j + bnum1)) bnum1 (kafka.wrapInt64 (n + r))
            (calls ++ [.Insert k beans])
    else .next bnum n calls

/-- The `SET IDENTITY_INSERT` statement run before a group, if any. -/
def identityOn (isIdentityInsert : Bool) (dtx : DbContext) (k : String) : List SessionCall :=
  if isIdentityInsert ∧ dtx.Driver = "mssql" then [.Exec ("SET IDENTITY_INSERT " ++ k ++ " on")]
  else []

/-- The `SET IDENTITY_INSERT` statement deferred for a group, if any. -/
def identityOff (isIdentityInsert : Bool) (dtx : DbContext) (k : String) : List SessionCall :=
  if isIdentityInsert ∧ dtx.Driver = "mssql" then [.Exec ("SET IDENTITY_INSERT " ++ k ++ " off")]
  else []

/-- The loop `for k, v := range group`, over the entries in the order of the
iteration; `fuel` bounds the iterations of each inner loop. The deferred calls
are collected last registered first. -/
def groupLoop (ans : ImportAnswers) (isIdentityInsert : Bool) (dtx : DbContext) (fuel : Nat) :
    List (String × List Entity) → Int → Int → List SessionCall → List SessionCall →
      LoopExit × List SessionCall
  | [], bnum, n, calls, deferred => (.next bnum n calls, deferred)
  | (k, v) :: rest, bnum, n, calls, deferred =>
    match chunkLoop ans k v fuel 0 bnum n (calls ++ identityOn isIdentityInsert dtx k) with
    | .next bnum1 n1 calls1 =>
      groupLoop ans isIdentityInsert dtx fuel rest bnum1 n1 calls1
        (identityOff isIdentityInsert dtx k ++ deferred)
    | other => (other, identityOff isIdentityInsert dtx k ++ deferred)

/-- The chunk size `ImportData` starts with. -/
def effectiveBatch (batchNum : Int) : Int := if batchNum > 0 then batchNum else 1000

/-- The method `DbContext.ImportData`: how it ends and the calls it made on the
database, in order (the deferred calls last). -/
def ImportData (ChecksumIEEE : List Nat → Nat) (ans : ImportAnswers) (fuel : Nat)
    (dtx : DbContext) (isIdentityInsert : Bool) (batchNum : Int) (entities : List Entity) :
    ImportExit × List SessionCall :=
  match entities with
  | [] => (.returned (.error "参数不能为空"), [])
  | [bean] =>
    match GetTableName ChecksumIEEE dtx bean with
    | .err e => (.returned (.error ("GetTableName err:" ++ e)), [])
    | .panic _ => (.panicked, [])
    | .ok tbName => (.returned (ans.insertOne tbName bean), [.InsertOne tbName bean])
  | _ =>
    match groupEntities ChecksumIEEE dtx entities [] with
    | .err e => (.returned (.error e), [])
    | .panic _ => (.panicked, [])
    | .ok group =>
      match ans.begin with
      | some e => (.returned (.error ("session.Begin err:" ++ e)), [.NewSession, .Begin, .Close])
      | none =>
        match groupLoop ans isIdentityInsert dtx fuel (ans.rangeOrder group)
            (effectiveBatch batchNum) 0 [.NewSession, .Begin] [.Close] with
        | (.failed msg calls, deferred) => (.returned (.error msg), calls ++ deferred)
        | (.panicked calls, deferred) => (.panicked, calls ++ deferred)
        | (.outOfFuel calls, _) => (.outOfFuel, calls)
        | (.next _ n calls, deferred) =>
          match ans.commit with
          | some e =>
            (.returned (.error ("session.Commit err:" ++ e)),
              calls ++ [.Commit, .Rollback] ++ deferred)
          | none => (.returned (.ok n), calls ++ [.Commit] ++ deferred)

/-- The slices passed to `session.Insert` for table `k`, in order. -/
def insertedInto (k : String) : List SessionCall → List (List Entity)
  | [] => []
  | .Insert t beans :: rest => if t = k then beans :: insertedInto k rest else insertedInto k rest
  | _ :: rest => insertedInto k rest

/-- All slices passed to `session.Insert`, in order. -/
def inserted : List SessionCall → List (List Entity)
  | [] => []
  | .Insert _ beans :: rest => beans :: inserted rest
  | _ :: rest => inserted rest

/-- Answers of a database on which everything succeeds; `Insert` returns the
number of beans and the map is visited in the order given by `order`. -/
def okAnswers (order : List (String × List Entity) → List (String × List Entity)) :
    ImportAnswers :=
  { begin := none, insertOne := fun _ _ => .ok 1,
    insert := fun _ beans => .ok (beans.length : Int), commit := none, rangeOrder := order }

/-- Five entities: three of table `a`, two of table `b`. -/
def fiveEntities : List Entity :=
  [{ TableName := "a", FieldByName := fun _ => .int 1 },
   { TableName := "b", FieldByName := fun _ => .int 2 },
   { TableName := "a", FieldByName := fun _ => .int 3 },
   { TableName := "a", FieldByName := fun _ => .int 4 },
   { TableName := "b", FieldByName := fun _ => .int 5 }]

/-- A context without split-table configuration. -/
def plainContext : DbContext := { Driver := "mysql", TableConfs := [] }

end sql

end Golanglib

/-! ## The `Where` builder: lib/sql/builder.go -/

namespace Golanglib

namespace sql

/-- What reflection sees of an argument passed as `interface{}`: the nil
interface, a slice with its elements, a pointer (`none` for the nil pointer),
or any other value. -/
inductive Arg (ι : Type) where
  | nil
  | scalar (v : ι)
  | slice (elems : List (Arg ι))
  | ptr (pointee : Option (Arg ι))

/-- The struct `Where`: the text written to `Sql` so far and `Args`. -/
structure Where (ι : Type) where
  Sql : String
  Args : List (Arg ι)

/-- The function `NewWhere`. -/
def NewWhere (ι : Type) : Where ι := { Sql := "", Args := [] }

/-- Go `strings.Trim(s, " ")`. -/
def trimSpaces (s : String) : String :=
  String.mk ((s.data.dropWhile (fun c => c = ' ')).reverse.dropWhile (fun c => c = ' ')).reverse

/-- The method `Where.AppendIf`; `strings.ToUpper` is a parameter. -/
def Where.AppendIf {ι : Type} (ToUpper : String → String) (w : Where ι) (cond : Bool)
    (whereStr : String) (args : List (Arg ι)) : Where ι :=
  if cond then
    let sql1 :=
      if w.Sql.utf8ByteSize > 0 then
        if ¬ (ToUpper (trimSpaces whereStr)).startsWith "AND" then w.Sql ++ " AND " else w.Sql
      else w.Sql ++ " WHERE "
    { Sql := sql1 ++ whereStr, Args := w.Args ++ args }
  else w

/-- The value `v` of `InIf` after `if v.Kind() == reflect.Ptr { v = v.Elem() }`;
`none` is the invalid `reflect.Value`. -/
def reflectIndirect {ι : Type} : Arg ι → Option (Arg ι)
  | .nil => none
  | .ptr pointee => pointee
  | other => some other

/-- The list `_args` of `InIf`: the elements of the slice when the only
argument is a slice or a pointer to one, the arguments otherwise. -/
def expandArgs {ι : Type} (args : List (Arg ι)) : List (Arg ι) :=
  match args with
  | [a] =>
    match reflectIndirect a with
    | some (.slice elems) => elems
    | _ => args
  | _ => args

/-- The loop `for i, _ := range _args` of `InIf`, from index `i`, writing to
the text `sql`. -/
def writePlaceholders {α : Type} (sql : String) : Nat → List α → String
  | _, [] => sql
  | i, _ :: rest => writePlaceholders (sql ++ (if i = 0 then "?" else ",?")) (i + 1) rest

/-- The method `Where.InIf`. -/
def Where.InIf {ι : Type} (w : Where ι) (cond : Bool) (col : String) (args : List (Arg ι)) :
    Where ι :=
  if cond then
    let args1 := expandArgs args
    let sql1 := if w.Sql.utf8ByteSize > 0 then w.Sql ++ " AND " else w.Sql ++ " WHERE "
    let sql2 := writePlaceholders ((sql1 ++ col) ++ " IN (") 0 args1
    { Sql := sql2 ++ " ) ", Args := w.Args ++ args1 }
  else w

/-- The method `Where.ExprIf`. -/
def Where.ExprIf {ι : Type} (w : Where ι) (cond : Bool) (col symbol : String)
    (args : List (Arg ι)) : Where ι :=
  if cond then
    let sql1 := if w.Sql.utf8ByteSize > 0 then w.Sql ++ " AND " else w.Sql ++ " WHERE "
    { Sql := sql1 ++ (" " ++ col ++ " " ++ symbol ++ " ?"), Args := w.Args ++ args }
  else w

/-- The method `Where.Build`. -/
def Where.Build {ι : Type} (w : Where ι) : String × List (Arg ι) := (w.Sql, w.Args)

end sql

/-! ## Authorization header and padding: lib/httpd/auth/signer.go -/

namespace auth

/-- The constant `Algorithm`, `SDK-HMAC-SHA256`, as its characters. -/
def Algorithm : List Char :=
  ['S', 'D', 'K', '-', 'H', 'M', 'A', 'C', '-', 'S', 'H', 'A', '2', '5', '6']

/-- Go `strings.Join(elems, sep)` for a one-character separator. -/
def Join (elems : List (List Char)) (sep : Char) : List Char := [sep].intercalate elems

/-- Go `strings.Split(s, sep)` for a one-character separator. -/
def Split (s : List Char) (sep : Char) : List (List Char) := s.splitOn sep

/-- Go `strings.Index(s, sep)` for a one-character separator: the position of
its first occurrence, or -1. -/
def Index (s : List Char) (sep : Char) : Int :=
  if sep ∈ s then ((s.takeWhile (fun c => c ≠ sep)).length : Int) else -1

/-- Go `strings.Trim(s, cutset)` for a cutset of one character. -/
def Trim (s : List Char) (cut : Char) : List Char :=
  ((s.dropWhile (fun c => c = cut)).reverse.dropWhile (fun c => c = cut)).reverse

/-- The function `AuthHeaderValue`: the format
`%s Access=%s, SignedHeaders=%s, Signature=%s`. -/
def AuthHeaderValue (signature accessKey : List Char) (signedHeaders : List (List Char)) :
    List Char :=
  Algorithm ++ [' ', 'A', 'c', 'c', 'e', 's', 's', '='] ++ accessKey ++
    [',', ' ', 'S', 'i', 'g', 'n', 'e', 'd', 'H', 'e', 'a', 'd', 'e', 'r', 's', '='] ++
    Join signedHeaders ';' ++
    [',', ' ', 'S', 'i', 'g', 'n', 'a', 't', 'u', 'r', 'e', '='] ++ signature

/-- The method `Signer.GetAuthHeader`, on the value of the request's
`Authorization` header: `(appKey, signedHeaders, token)` or the error. -/
def GetAuthHeader (authHeader : List Char) :
    Except String (List Char × List (List Char) × List Char) :=
  if authHeader = [] then .error "请求身份信息无效"
  else
    let spaceIdx := Index authHeader ' '
    if spaceIdx = -1 then .error "请求身份信息无效"
    else
      let algo := authHeader.take spaceIdx.toNat
      if algo ≠ Algorithm then .error "鉴权方式不支持"
      else
        let subAuth := authHeader.drop (spaceIdx + 1).toNat
        let arrAuth := Split subAuth ','
        if arrAuth.length ≠ 3 then .error "请求头信息不合法"
        else
          let appKey1 := Split (arrAuth.getD 0 []) '='
          let signed1 := Split (arrAuth.getD 1 []) '='
          let token1 := Split (arrAuth.getD 2 []) '='
          if appKey1.length ≠ 2 ∨ signed1.length ≠ 2 ∨ token1.length ≠ 2 then
            .error "请求头信息不合法"
          else
            .ok (Trim (appKey1.getD 1 []) ' ', Split (Trim (signed1.getD 1 []) ' ') ';',
              Trim (token1.getD 1 []) ' ')

/-- Go `byte(x)` of an `int`: the low eight bits. -/
def toByte (x : Int) : Nat := (x % 256).toNat

/-- The function `PKCS7Padding`; `none` is a panic (division by zero for a
block size of 0, a negative count in `bytes.Repeat`). -/
def PKCS7Padding (src : List Nat) (blockSize : Int) : Option (List Nat) :=
  if blockSize = 0 then none
  else
    let padding := blockSize - Int.tmod (src.length : Int) blockSize
    if padding < 0 then none
    else some (src ++ List.replicate padding.toNat (toByte padding))

/-- The function `PKCS7UnPadding`; `none` is the panic of `src[length-1]` on
an empty slice. -/
def PKCS7UnPadding (src : List Nat) : Option (List Nat) :=
  match src.getLast? with
  | none => none
  | some last =>
    let unpadding : Int := (last : Int)
    if unpadding > (src.length : Int) then some src
    else some (src.take ((src.length : Int) - unpadding).toNat)

/-- An access key, a signature and two signed header names. -/
def sampleKey : List Char := ['k', 'e', 'y', '1']

/-- A signature. -/
def sampleSignature : List Char := ['a', 'b', '0', '9']

/-- Two signed header names. -/
def sampleHeaders : List (List Char) := [['h', 'o', 's', 't'], ['x', '-', 'd']]

end auth

end Golanglib

/-! ## Several partition claims on one batch consumer -/

namespace Golanglib

namespace kafka

/-- The slice `batchMessage` that `sendToCallback` holds when it reaches the
send: `make([]*sarama.ConsumerMessage, c.currentIndex)` with the buffer copied
into it. A later write to `MessageBuffer` does not change it. -/
def batchMessageOf {σ : Type} (c : batchConsumer σ) : Batch :=
  copySlice ((makeSlice c.currentIndex).getD []) (c.MessageBuffer.getD [])

/-- A batch consumer with its `run` task, its history, and the calls of
`attach` that are parked at the send `c.callBackBuffer <- batchMessage`,
oldest first, each with the `batchMessage` it holds and its `left` argument.
`ConsumeClaim` runs once per partition claim, each in a task of its own, and
all claims of a topic call `attach` on the same consumer, which has no lock:
while a call is parked, `run` and the other claims go on. -/
structure Tasks (σ : Type) where
  sys : System σ
  parked : List (Batch × Int)

/-- What can happen next: one of the events of `step` (a claim calls `attach`
and runs it up to its return or up to the send at which it parks; `run` takes
a batch; `Close`; `run` returns), or the oldest parked call is resumed. -/
inductive Move where
  | event (e : Event)
  | resume
deriving DecidableEq, Repr

/-- The tasks right after `newBatchConsumer`: no call is parked. -/
def Tasks.init {σ : Type} (batchSize batchInterval : Int)
    (callback : Option (ConsumerCallback σ)) (app : σ) : Tasks σ :=
  { sys := System.init batchSize batchInterval callback app, parked := [] }

/-- The `left` argument of a call of `attach`; 0 for the other events, which
are never parked. -/
def Event.leftArg : Event → Int
  | .attach _ _ left => left
  | _ => 0

/-- The tasks after the oldest parked call `p` went through the send: its
`batchMessage` is at the back of the dispatch queue and the two statements
after the send have run,
```go
c.MessageBuffer = nil
c.currentIndex = 0
```
The calls in `rest` stay parked. -/
def completeSend {σ : Type} (t : Tasks σ) (p : Batch × Int) (rest : List (Batch × Int)) :
    Tasks σ :=
  { sys :=
      { t.sys with
        c := { t.sys.c with
          callBackBuffer := t.sys.c.callBackBuffer ++ [p.1]
          MessageBuffer := none
          currentIndex := 0 }
        sent := t.sys.sent ++ [p] }
    parked := rest }

/-- One move; `none` is a panic. An `attach` that finds the queue full parks
with its `batchMessage` and leaves the consumer as it is at the send: the
record stored, `currentIndex` incremented, nothing reset. A `resume` with room
in the queue completes the oldest parked call: its send goes through when it
is resumed. Without room, or with no call parked, `resume` changes nothing.
An `attach` move made while a call is parked is a call of another claim: it
runs on the consumer as the parked call left it. -/
def stepAll {σ : Type} (t : Tasks σ) : Move → Option (Tasks σ)
  | .event e =>
    match step t.sys e with
    | .ok s2 => some { t with sys := s2 }
    | .blocked s2 =>
      some { sys := s2, parked := t.parked ++ [(batchMessageOf s2.c, e.leftArg)] }
    | .panicked => none
  | .resume =>
    match t.parked with
    | [] => some t
    | p :: rest =>
      if t.sys.c.callBackBuffer.length < bufferLength then some (completeSend t p rest)
      else some t

/-- A sequence of moves, one after the other; `none` when one of them panics. -/
def execAll {σ : Type} (t : Tasks σ) : List Move → Option (Tasks σ)
  | [] => some t
  | m :: ms =>
    match stepAll t m with
    | some t2 => execAll t2 ms
    | none => none

/-- The events of a sequence of moves. -/
def eventsOf : List Move → List Event
  | [] => []
  | .event e :: rest => e :: eventsOf rest
  | .resume :: rest => eventsOf rest

/-- Whether a move is a call of `attach`. -/
def Move.isAttach : Move → Bool
  | .event (.attach _ _ _) => true
  | _ => false

/-- Whether the calls of `attach` in a sequence of moves do not overlap: no
call starts while another call is parked at the send. This is how a single
partition claim calls `attach`. -/
def noOverlap {σ : Type} (t : Tasks σ) : List Move → Bool
  | [] => true
  | m :: ms =>
    (!m.isAttach || t.parked.isEmpty) &&
      (match stepAll t m with
        | some t2 => noOverlap t2 ms
        | none => true)

/-- What holds of the tasks after any sequence of moves on a consumer with a
callback, overlapping calls included: the consumer is consistent, the batches
sent are those handled followed by those in the queue, and every batch sent
or held by a parked call has between 1 and `BatchSize` records, fewer than
`BatchSize` only when the call that made it had `left = 0`. -/
structure Sound {σ : Type} (t : Tasks σ) : Prop where
  consistent : Consistent t.sys.c
  queue : t.sys.sent.map Prod.fst = t.sys.handled.map Prod.fst ++ t.sys.c.callBackBuffer
  sizes : ∀ p ∈ t.sys.sent ++ t.parked, 1 ≤ p.1.length ∧ (p.1.length : Int) ≤ t.sys.c.BatchSize ∧
    ((p.1.length : Int) < t.sys.c.BatchSize → p.2 = 0)

/-- What holds of the tasks after a sequence of moves whose calls of `attach`
do not overlap: the history is consistent, the buffer is nil exactly when the
window is empty, and either no call is parked and the window has room, or one
call is parked and holds the window. -/
def Orderly {σ : Type} (t : Tasks σ) : Prop :=
  Inv t.sys ∧ (t.sys.c.MessageBuffer = none ↔ t.sys.c.currentIndex = 0) ∧
    ((t.parked = [] ∧ t.sys.c.currentIndex < t.sys.c.BatchSize) ∨
      ∃ left, t.parked = [(window t.sys.c, left)] ∧ 1 ≤ t.sys.c.currentIndex ∧
        (t.sys.c.currentIndex < t.sys.c.BatchSize → left = 0))

/-- Nine calls of `attach` on a consumer of batch size 1 with `run` not
taking anything: the first eight batches fill the dispatch queue and the
ninth call is parked at the send, with `currentIndex` equal to `BatchSize`. -/
def nineAttaches : List Move :=
  (List.range 9).map (fun i => Move.event (.attach (sampleRecord "t" 0 (i : Int)) 7 5))

/-- Nine calls of `attach` with `left = 0` on a consumer of batch size 3 fill
the dispatch queue and park the ninth call with a window of one record; then
the claim of partition 1 attaches a record with more behind it, `run` takes a
batch and the parked call is resumed. -/
def overlappingClaims : List Move :=
  (List.range 9).map (fun i => Move.event (.attach (sampleRecord "t" 0 (i : Int)) 7 0)) ++
    [.event (.attach (sampleRecord "t" 1 100) 7 5), .event .dispatch, .resume]

/-- The events of `fiveRecords`, followed by `run` taking the two batches. -/
def fiveRecordsHandled : List Move :=
  (fiveRecords ++ [Event.dispatch, Event.dispatch]).map Move.event

end kafka

end Golanglib
/-! ## Theorems: the subscriber consume loop -/

namespace Golanglib

namespace rabbitmq

/-- The action `settleDelivery` issues, in terms of the verdict of the handler. -/
theorem settleDelivery_snd {σ : Type} (handlerFunc : HandlerFunc σ) (app : σ) (msg : Delivery) :
    (settleDelivery handlerFunc app msg).2 =
      if (handlerFunc app msg).1 = false ∧ msg.Redelivered = false then
        Settle.Reject msg.DeliveryTag true
      else Settle.Ack msg.DeliveryTag false := by
  unfold settleDelivery
  cases h1 : (handlerFunc app msg).1 <;> cases h2 : msg.Redelivered <;> simp [h1, h2]

/-- The application state after `settleDelivery` is the one the handler left. -/
theorem settleDelivery_fst {σ : Type} (handlerFunc : HandlerFunc σ) (app : σ) (msg : Delivery) :
    (settleDelivery handlerFunc app msg).1 = (handlerFunc app msg).2 := by
  unfold settleDelivery
  cases h1 : (handlerFunc app msg).1 <;> cases h2 : msg.Redelivered <;> simp [h1, h2]

/-- The tag of the action `settleDelivery` issues is the tag of the delivery. -/
theorem settleDelivery_tag {σ : Type} (handlerFunc : HandlerFunc σ) (app : σ) (msg : Delivery) :
    (settleDelivery handlerFunc app msg).2.tag = msg.DeliveryTag := by
  rw [settleDelivery_snd]
  split <;> rfl

/-- C1: in the consume loop, the terminal actions issued are, delivery by
delivery in the order the deliveries are taken from the stream, a
`Reject(requeue = true)` exactly when the handler returned false and the
delivery is not a redelivery, and an `Ack(multiple = false)` in every other case. -/
theorem C1_reject_iff_failed_and_not_redelivered {σ : Type} (handlerFunc : HandlerFunc σ)
    (app : σ) (evs : List Selected) :
    List.Forall₂
      (fun (run : Delivery × Bool) (act : Settle) =>
        (act = Settle.Reject run.1.DeliveryTag true ↔
          (run.2 = false ∧ run.1.Redelivered = false)) ∧
        (¬ (run.2 = false ∧ run.1.Redelivered = false) →
          act = Settle.Ack run.1.DeliveryTag false))
      (handlerRuns handlerFunc app (received evs))
      (doConsumeLoop handlerFunc app evs).2 := by
  induction evs generalizing app with
  | nil => exact List.Forall₂.nil
  | cons e rest ih =>
    cases e with
    | done => exact List.Forall₂.nil
    | closed => exact List.Forall₂.nil
    | msg d =>
      simp only [received, handlerRuns, doConsumeLoop]
      refine List.Forall₂.cons ?_ ?_
      · rw [settleDelivery_snd]
        by_cases h : (handlerFunc app d).1 = false ∧ d.Redelivered = false
        · simp [h]
        · simp [h]
      · rw [settleDelivery_fst]
        exact ih (handlerFunc app d).2

/-- C2: the terminal actions issued by the consume loop are, in order, one per
delivery taken from the stream and each on that delivery; so for every delivery
tag the number of `Ack` calls plus the number of `Reject` calls on it is the
number of deliveries received with that tag (one, for a tag received once). -/
theorem C2_one_terminal_action_per_delivery {σ : Type} (handlerFunc : HandlerFunc σ)
    (app : σ) (evs : List Selected) :
    (doConsumeLoop handlerFunc app evs).2.map Settle.tag =
        (received evs).map (fun d => d.DeliveryTag) ∧
      ∀ t : Nat,
        ackCount t (doConsumeLoop handlerFunc app evs).2 +
            rejectCount t (doConsumeLoop handlerFunc app evs).2 =
          deliveryCount t (received evs) := by
  induction evs generalizing app with
  | nil => exact ⟨rfl, fun _ => rfl⟩
  | cons e rest ih =>
    cases e with
    | done => exact ⟨rfl, fun _ => rfl⟩
    | closed => exact ⟨rfl, fun _ => rfl⟩
    | msg d =>
      obtain ⟨ih1, ih2⟩ := ih (settleDelivery handlerFunc app d).1
      refine ⟨?_, fun t => ?_⟩
      · simp only [received, doConsumeLoop, List.map_cons, ih1, settleDelivery_tag]
      · have h := ih2 t
        simp only [ackCount, rejectCount, deliveryCount] at h ⊢
        simp only [received, doConsumeLoop, List.filter_cons]
        rw [settleDelivery_snd]
        by_cases hc : (handlerFunc app d).1 = false ∧ d.Redelivered = false
        · by_cases ht : d.DeliveryTag = t
          · simp [hc, ht] at h ⊢; omega
          · simp [hc, ht] at h ⊢; omega
        · by_cases ht : d.DeliveryTag = t
          · simp [hc, ht] at h ⊢; omega
          · simp [hc, ht] at h ⊢; omega

end rabbitmq

end Golanglib

/-! ## Theorems: the batching consumer -/

namespace Golanglib

namespace kafka

/-- An `int32` increment below the largest `int32` does not wrap. -/
theorem wrapInt32_succ (i : Int) (h0 : 0 ≤ i) (h1 : i + 1 < 2 ^ 31) :
    wrapInt32 (i + 1) = i + 1 := by
  unfold wrapInt32
  have h : (i + 1 + 2 ^ 31) % 2 ^ 32 = i + 1 + 2 ^ 31 :=
    Int.emod_eq_of_lt (by omega) (by omega)
  omega

/-- An `int64` increment below the largest `int64` does not wrap. -/
theorem wrapInt64_succ (i : Int) (h0 : -2 ^ 63 ≤ i) (h1 : i + 1 < 2 ^ 63) :
    wrapInt64 (i + 1) = i + 1 := by
  unfold wrapInt64
  have h : (i + 1 + 2 ^ 63) % 2 ^ 64 = i + 1 + 2 ^ 63 :=
    Int.emod_eq_of_lt (by omega) (by omega)
  omega

/-- Writing slot `i` of a slice makes its first `i + 1` slots the first `i`
old ones followed by the value written. -/
theorem take_succ_set {α : Type} (l : List α) (i : Nat) (x : α) (h : i < l.length) :
    (l.set i x).take (i + 1) = l.take i ++ [x] := by
  induction l generalizing i with
  | nil => simp at h
  | cons a l ih =>
    cases i with
    | zero => simp
    | succ j =>
      have hj : j < l.length := by simpa using h
      simp [ih j hj]

/-- The slice `attach` writes to has `BatchSize` slots. -/
theorem buffer_length {σ : Type} (c : batchConsumer σ) (hc : Consistent c) :
    ((c.MessageBuffer.getD (List.replicate c.BatchSize.toNat none)).length : Int) =
      c.BatchSize := by
  obtain ⟨_, h1, _, _, _, hb⟩ := hc
  unfold bufferOk at hb
  cases hm : c.MessageBuffer with
  | none => simp [Int.toNat_of_nonneg (by omega : (0 : Int) ≤ c.BatchSize)]
  | some buf => rw [hm] at hb; simpa using hb

/-- The window of a consumer is made of the first slots of the slice `attach`
writes to. -/
theorem window_eq {σ : Type} (c : batchConsumer σ) (hc : Consistent c) :
    window c =
      (c.MessageBuffer.getD (List.replicate c.BatchSize.toNat none)).take
        c.currentIndex.toNat := by
  obtain ⟨_, _, _, _, _, hb⟩ := hc
  unfold bufferOk at hb
  unfold window
  cases hm : c.MessageBuffer with
  | none => rw [hm] at hb; simp [hb]
  | some buf => simp

/-- The window is as long as `currentIndex` says. -/
theorem window_length {σ : Type} (c : batchConsumer σ) (hc : Consistent c) :
    ((window c).length : Int) = c.currentIndex := by
  have hl := buffer_length c hc
  rw [window_eq c hc, List.length_take]
  obtain ⟨_, _, _, h0, h1, _⟩ := hc
  omega

/-- After the store of `attach` the window is the old window followed by the
new record. -/
theorem window_stored {σ : Type} (c : batchConsumer σ) (msg : ConsumerMessage) (sess : Nat)
    (hc : BetweenCalls c) : window (stored c msg sess) = window c ++ [some msg] := by
  have hl := buffer_length c hc.1
  rw [window_eq c hc.1]
  obtain ⟨⟨_, _, _, h0, _, _⟩, hlt⟩ := hc
  have hi : (c.currentIndex + 1).toNat = c.currentIndex.toNat + 1 := by omega
  simp only [window, stored, Option.getD_some, hi]
  exact take_succ_set _ _ _ (by omega)

/-- The store of `attach` keeps the consumer consistent. -/
theorem stored_consistent {σ : Type} (c : batchConsumer σ) (msg : ConsumerMessage) (sess : Nat)
    (hc : BetweenCalls c) : Consistent (stored c msg sess) := by
  have hl := buffer_length c hc.1
  obtain ⟨⟨hcb, h1, h2, h0, _, _⟩, hlt⟩ := hc
  refine ⟨hcb, h1, h2, ?_, ?_, ?_⟩
  · show 0 ≤ c.currentIndex + 1
    omega
  · show c.currentIndex + 1 ≤ c.BatchSize
    omega
  · simp only [bufferOk, stored, List.length_set]
    exact hl

/-- What `attach` does on a consumer between calls: it stores the record and
then either flushes or returns. -/
theorem attach_eq {σ : Type} (c : batchConsumer σ) (msg : ConsumerMessage) (sess : Nat)
    (left : Int) (hc : BetweenCalls c) :
    attach c msg sess left =
      if c.currentIndex + 1 = c.BatchSize ∨ left = 0 then sendToCallback (stored c msg sess)
      else .ok (stored c msg sess) := by
  have hl := buffer_length c hc.1
  obtain ⟨⟨hcb, h1, h2, h0, h3, hb⟩, hlt⟩ := hc
  obtain ⟨cb, hcb2⟩ := Option.isSome_iff_exists.mp hcb
  have hw : wrapInt32 (c.currentIndex + 1) = c.currentIndex + 1 :=
    wrapInt32_succ _ h0 (by omega)
  unfold attach
  simp only [hcb2]
  cases hm : c.MessageBuffer with
  | none =>
    rw [hm] at hl
    have hmk : makeSlice c.BatchSize = some (List.replicate c.BatchSize.toNat none) := by
      unfold makeSlice
      rw [if_neg (by omega)]
    simp only [hmk, Option.getD_none] at hl ⊢
    have hset : setIndex (List.replicate c.BatchSize.toNat none) c.currentIndex (some msg) =
        some ((List.replicate c.BatchSize.toNat none).set c.currentIndex.toNat (some msg)) := by
      unfold setIndex
      rw [if_pos ⟨h0, by omega⟩]
    simp only [hset, hw, stored, hm, Option.getD_none, hcb2]
  | some buf =>
    rw [hm] at hl
    simp only [Option.getD_some] at hl ⊢
    have hset : setIndex buf c.currentIndex (some msg) =
        some (buf.set c.currentIndex.toNat (some msg)) := by
      unfold setIndex
      rw [if_pos ⟨h0, by omega⟩]
    simp only [hset, hw, stored, hm, Option.getD_some, hcb2]

/-- What `sendToCallback` does on a consistent consumer whose buffer is
allocated: with room in the queue the window is sent and the buffer reset,
without room the caller is parked. -/
theorem sendToCallback_eq {σ : Type} (c : batchConsumer σ) (hc : Consistent c) :
    sendToCallback c =
      if c.callBackBuffer.length < bufferLength then .ok (flushed c) else .blocked c := by
  have hl := buffer_length c hc
  have hwl := window_length c hc
  obtain ⟨_, h1, _, h0, h3, hb⟩ := hc
  have hmk : makeSlice c.currentIndex = some (List.replicate c.currentIndex.toNat none) := by
    unfold makeSlice
    rw [if_neg (by omega)]
  have hcopy : copySlice (List.replicate c.currentIndex.toNat none) (c.MessageBuffer.getD []) =
      window c := by
    unfold copySlice window
    unfold window at hwl
    rw [List.length_take] at hwl
    simp only [List.length_replicate]
    have hmin : min c.currentIndex.toNat (c.MessageBuffer.getD []).length =
        c.currentIndex.toNat := by omega
    rw [hmin]
    simp
  unfold sendToCallback
  simp only [hmk, hcopy, flushed]


/-- The window of a flushed consumer is empty. -/
theorem window_flushed {σ : Type} (c : batchConsumer σ) : window (flushed c) = [] := by
  simp [window, flushed]

/-- A flushed consumer is between calls. -/
theorem flushed_betweenCalls {σ : Type} (c : batchConsumer σ) (hc : Consistent c) :
    BetweenCalls (flushed c) := by
  obtain ⟨hcb, h1, h2, _, _, _⟩ := hc
  refine ⟨⟨hcb, h1, h2, ?_, ?_, ?_⟩, ?_⟩
  · show (0 : Int) ≤ 0
    omega
  · show (0 : Int) ≤ c.BatchSize
    omega
  · simp [bufferOk, flushed]
  · show (0 : Int) < c.BatchSize
    omega

/-- The positions marked by two lists of calls, one after the other. -/
theorem markedPositions_append (topic : String) (partition : Int) (a b : List SessionCall) :
    markedPositions topic partition (a ++ b) =
      markedPositions topic partition a ++ markedPositions topic partition b := by
  induction a with
  | nil => rfl
  | cons x rest ih =>
    cases x with
    | MarkOffset s t p pos md =>
      by_cases h : t = topic ∧ p = partition
      · simp [markedPositions, h, ih]
      · simp [markedPositions, h, ih]
    | Commit s => simp [markedPositions, ih]

/-- The positions marked for two lists of handled batches, one after the other. -/
theorem marksOfHandled_append (topic : String) (partition : Int) (a b : List (Batch × Bool)) :
    marksOfHandled topic partition (a ++ b) =
      marksOfHandled topic partition a ++ marksOfHandled topic partition b := by
  induction a with
  | nil => rfl
  | cons x rest ih =>
    obtain ⟨bt, v⟩ := x
    cases v with
    | false => simp [marksOfHandled, ih]
    | true =>
      cases hl : lastRecord bt with
      | none => simp [marksOfHandled, hl, ih]
      | some m =>
        by_cases h : m.Topic = topic ∧ m.Partition = partition
        · simp [marksOfHandled, hl, h, ih]
        · simp [marksOfHandled, hl, h, ih]

/-- Reading the last slot of a non-empty slice. -/
theorem getIndex_last (msgs : Batch) (h : msgs ≠ []) :
    getIndex msgs ((msgs.length : Int) - 1) = msgs.getLast? := by
  have hpos : 0 < msgs.length := List.length_pos.mpr h
  unfold getIndex
  rw [if_pos ⟨by omega, by omega⟩]
  have : ((msgs.length : Int) - 1).toNat = msgs.length - 1 := by omega
  rw [this, List.getLast?_eq_getElem?, List.get?_eq_getElem?]

/-- In a consistent history every batch sent holds non-nil records only. -/
theorem sent_all_some {σ : Type} (s : System σ) (hs : Inv s) (b : Batch)
    (hb : b ∈ s.sent.map Prod.fst) (x : Option ConsumerMessage) (hx : x ∈ b) :
    ∃ m, x = some m ∧ m ∈ s.attached := by
  have hmem : x ∈ (s.sent.map Prod.fst).flatten ++ window s.c :=
    List.mem_append_left _ (List.mem_flatten.mpr ⟨b, hb, hx⟩)
  rw [hs.history, List.mem_map] at hmem
  obtain ⟨m, hm, rfl⟩ := hmem
  exact ⟨m, rfl, hm⟩

/-- What `run` does with a batch of a consistent history: it does not panic;
it marks one past the last record and commits when the callback accepts, and
makes no call when the callback rejects. -/
theorem runBatch_eq {σ : Type} (s : System σ) (hs : Inv s) (msgs : Batch)
    (hb : msgs ∈ s.sent.map Prod.fst) :
    ∃ cb sess m, s.c.CallBack = some cb ∧ s.c.Session = some sess ∧
      msgs.getLast? = some (some m) ∧
      runBatch s.c s.app msgs =
        some ((cb s.app msgs).2, (cb s.app msgs).1,
          if (cb s.app msgs).1 then
            [SessionCall.MarkOffset sess m.Topic m.Partition (wrapInt64 (m.Offset + 1)) "",
             SessionCall.Commit sess]
          else []) := by
  obtain ⟨p, hp, hpe⟩ := List.mem_map.mp hb
  have hlen := (hs.sizes p hp).1
  rw [hpe] at hlen
  have hne : msgs ≠ [] := by
    intro h
    rw [h] at hlen
    simp at hlen
  obtain ⟨m, hm, hma⟩ := sent_all_some s hs msgs hb (msgs.getLast hne) (List.getLast_mem hne)
  have hlast : msgs.getLast? = some (some m) := by
    rw [List.getLast?_eq_getLast _ hne, hm]
  obtain ⟨cb, hcb⟩ := Option.isSome_iff_exists.mp hs.consistent.1
  have hatt : s.attached ≠ [] := List.ne_nil_of_mem hma
  obtain ⟨sess, hsess⟩ := Option.isSome_iff_exists.mp (hs.session hatt)
  refine ⟨cb, sess, m, hcb, hsess, hlast, ?_⟩
  unfold runBatch
  simp only [hcb, getIndex_last msgs hne, hlast, hsess]
  cases (cb s.app msgs).1 <;> simp


/-- The step `attach` of a consistent history, for a consumer between calls:
the call returns or is parked, never panics, and the history stays consistent. -/
theorem step_attach_inv {σ : Type} (s : System σ) (hs : Inv s)
    (hr : s.c.currentIndex < s.c.BatchSize) (msg : ConsumerMessage) (sess : Nat) (left : Int) :
    ∃ s2, ((step s (.attach msg sess left) = .ok s2 ∧ s2.c.currentIndex < s2.c.BatchSize ∧
            (left = 0 → window s2.c = [])) ∨
          step s (.attach msg sess left) = .blocked s2) ∧
      Inv s2 ∧ s2.c.BatchSize = s.c.BatchSize ∧ s2.c.done = s.c.done ∧
      s2.attached = s.attached ++ [msg] ∧ s2.c.CallBack = s.c.CallBack := by
  have hbc : BetweenCalls s.c := ⟨hs.consistent, hr⟩
  have hst := stored_consistent s.c msg sess hbc
  have hwin := window_stored s.c msg sess hbc
  have hwl := window_length s.c hs.consistent
  have hhist : (s.sent.map Prod.fst).flatten ++ (window s.c ++ [some msg]) =
      (s.attached ++ [msg]).map some := by
    rw [← List.append_assoc, hs.history, List.map_append]
    rfl
  -- the state in which the record is stored and nothing was sent
  have hkeep : Inv { s with c := stored s.c msg sess, attached := s.attached ++ [msg] } :=
    { consistent := hst
      history := by
        show (s.sent.map Prod.fst).flatten ++ window (stored s.c msg sess) = _
        rw [hwin, hhist]
      queue := hs.queue
      session := fun _ => rfl
      sizes := hs.sizes
      marks := hs.marks }
  simp only [step]
  rw [attach_eq s.c msg sess left hbc]
  by_cases hf : s.c.currentIndex + 1 = s.c.BatchSize ∨ left = 0
  · rw [if_pos hf, sendToCallback_eq _ hst]
    by_cases hroom : (stored s.c msg sess).callBackBuffer.length < bufferLength
    · rw [if_pos hroom]
      have hfl := flushed_betweenCalls _ hst
      refine ⟨_, Or.inl ⟨rfl, hfl.2, fun _ => window_flushed _⟩, ?_, rfl, rfl, rfl, rfl⟩
      have hdrop : (flushed (stored s.c msg sess)).callBackBuffer.drop
          s.c.callBackBuffer.length = [window s.c ++ [some msg]] := by
        show (s.c.callBackBuffer ++ [window (stored s.c msg sess)]).drop _ = _
        rw [hwin]
        simp
      exact
        { consistent := hfl.1
          history := by
            show ((s.sent ++ ((flushed (stored s.c msg sess)).callBackBuffer.drop
              s.c.callBackBuffer.length).map (fun b => (b, left))).map Prod.fst).flatten ++
                window (flushed (stored s.c msg sess)) = _
            rw [hdrop, window_flushed, ← hhist]
            simp
          queue := by
            show (s.sent ++ ((flushed (stored s.c msg sess)).callBackBuffer.drop
              s.c.callBackBuffer.length).map (fun b => (b, left))).map Prod.fst =
                s.handled.map Prod.fst ++ (s.c.callBackBuffer ++ [window (stored s.c msg sess)])
            rw [hdrop, hwin, List.map_append, hs.queue]
            simp
          session := fun _ => rfl
          sizes := by
            intro p hp
            have hp2 : p ∈ s.sent ++ ((flushed (stored s.c msg sess)).callBackBuffer.drop
                s.c.callBackBuffer.length).map (fun b => (b, left)) := hp
            rw [hdrop] at hp2
            show 1 ≤ p.1.length ∧ (p.1.length : Int) ≤ s.c.BatchSize ∧
              ((p.1.length : Int) < s.c.BatchSize → p.2 = 0)
            rcases List.mem_append.mp hp2 with h | h
            · exact hs.sizes p h
            · simp only [List.map_cons, List.map_nil, List.mem_singleton] at h
              subst h
              simp only [List.length_append, List.length_singleton]
              refine ⟨by omega, by push_cast; omega, fun hlt => ?_⟩
              rcases hf with hf | hf
              · push_cast at hlt; omega
              · exact hf
          marks := hs.marks }
    · rw [if_neg hroom]
      exact ⟨_, Or.inr rfl, hkeep, rfl, rfl, rfl, rfl⟩
  · rw [if_neg hf]
    have hnf := not_or.mp hf
    refine ⟨_, Or.inl ⟨rfl, ?_, fun h => absurd h hnf.2⟩, ?_, rfl, rfl, rfl, rfl⟩
    · show s.c.currentIndex + 1 < s.c.BatchSize
      have := hnf.1
      omega
    · have hdrop : (stored s.c msg sess).callBackBuffer.drop s.c.callBackBuffer.length = [] := by
        show s.c.callBackBuffer.drop _ = []
        simp
      have hsent : s.sent ++ ((stored s.c msg sess).callBackBuffer.drop
          s.c.callBackBuffer.length).map (fun b => (b, left)) = s.sent := by
        rw [hdrop]
        simp
      have heq : ({ s with
          c := stored s.c msg sess
          attached := s.attached ++ [msg]
          sent := s.sent ++ ((stored s.c msg sess).callBackBuffer.drop
            s.c.callBackBuffer.length).map (fun b => (b, left)) } : System σ) =
          { s with c := stored s.c msg sess, attached := s.attached ++ [msg] } := by
        rw [hsent]
      rw [heq]
      exact hkeep

/-- The step `dispatch` of a consistent history: `run` does not panic and the
history stays consistent. -/
theorem step_dispatch_inv {σ : Type} (s : System σ) (hs : Inv s) :
    ∃ s2, step s .dispatch = .ok s2 ∧ Inv s2 ∧ s2.c.BatchSize = s.c.BatchSize ∧
      s2.c.currentIndex = s.c.currentIndex ∧ s2.c.done = s.c.done ∧
      s2.attached = s.attached ∧ window s2.c = window s.c ∧ s2.c.CallBack = s.c.CallBack := by
  simp only [step]
  cases hrun : s.running with
  | false => exact ⟨s, by simp, hs, rfl, rfl, rfl, rfl, rfl, rfl⟩
  | true =>
    cases hq : s.c.callBackBuffer with
    | nil => exact ⟨s, by simp, hs, rfl, rfl, rfl, rfl, rfl, rfl⟩
    | cons msgs rest =>
      have hqueue := hs.queue
      rw [hq] at hqueue
      have hmem : msgs ∈ s.sent.map Prod.fst := by
        rw [hqueue]
        simp
      obtain ⟨cb, sess, m, hcb, hsess, hlast, hrb⟩ := runBatch_eq s hs msgs hmem
      simp only [if_true, hrb]
      refine ⟨_, rfl, ?_, rfl, rfl, rfl, rfl, rfl, rfl⟩
      exact
        { consistent := hs.consistent
          history := hs.history
          queue := by
            show s.sent.map Prod.fst = (s.handled ++ [(msgs, (cb s.app msgs).1)]).map Prod.fst ++ rest
            rw [hqueue]
            simp
          session := hs.session
          sizes := hs.sizes
          marks := by
            intro topic partition
            show markedPositions topic partition (s.calls ++ _) =
              marksOfHandled topic partition (s.handled ++ [(msgs, (cb s.app msgs).1)])
            rw [markedPositions_append, marksOfHandled_append, hs.marks]
            congr 1
            have hlr : lastRecord msgs = some m := by
              simp [lastRecord, hlast]
            cases hv : (cb s.app msgs).1 with
            | false => simp [marksOfHandled, markedPositions]
            | true =>
              by_cases h : m.Topic = topic ∧ m.Partition = partition
              · simp [marksOfHandled, markedPositions, hlr, h]
              · simp [marksOfHandled, markedPositions, hlr, h] }


/-- Any event of a consistent history, for a consumer between calls and with
`Close` not called twice: the event returns or is parked, never panics, and
the history stays consistent. -/
theorem step_inv {σ : Type} (s : System σ) (hs : Inv s)
    (hr : s.c.currentIndex < s.c.BatchSize) (e : Event)
    (hclose : closeCount [e] + (if s.c.done then 1 else 0) ≤ 1) :
    ∃ s2, ((step s e = .ok s2 ∧ s2.c.currentIndex < s2.c.BatchSize ∧
            (lastLeft [e] = some 0 → window s2.c = []) ∧
            (lastLeft [e] = none → window s2.c = window s.c)) ∨
          step s e = .blocked s2) ∧
      Inv s2 ∧ s2.c.BatchSize = s.c.BatchSize ∧
      (if s2.c.done then 1 else 0) = closeCount [e] + (if s.c.done then 1 else 0) ∧
      s2.attached = s.attached ++ attachedOf [e] ∧ s2.c.CallBack = s.c.CallBack := by
  cases e with
  | attach msg sess left =>
    obtain ⟨s2, h1, h2, h3, h4, h5, h6⟩ := step_attach_inv s hs hr msg sess left
    refine ⟨s2, ?_, h2, h3, ?_, h5, h6⟩
    · rcases h1 with ⟨ha, hb, hc⟩ | ha
      · refine Or.inl ⟨ha, hb, fun hl => hc ?_, fun hl => ?_⟩
        · simpa [lastLeft] using hl
        · simp [lastLeft] at hl
      · exact Or.inr ha
    · rw [h4]
      simp [closeCount]
  | dispatch =>
    obtain ⟨s2, h1, h2, h3, h4, h5, h6, h7, h8⟩ := step_dispatch_inv s hs
    refine ⟨s2, Or.inl ⟨h1, by omega, fun hl => ?_, fun _ => h7⟩, h2, h3, ?_, ?_, h8⟩
    · simp [lastLeft] at hl
    · rw [h5]
      simp [closeCount]
    · rw [h6]
      simp [attachedOf]
  | close =>
    have hd : s.c.done = false := by
      cases h : s.c.done with
      | false => rfl
      | true => simp [closeCount, h] at hclose
    refine ⟨{ s with c := { s.c with done := true } }, Or.inl ⟨?_, hr, fun hl => ?_, fun _ => rfl⟩,
      ?_, rfl, ?_, ?_, rfl⟩
    · simp [step, batchConsumer.Close, hd]
    · simp [lastLeft] at hl
    · exact
        { consistent := hs.consistent
          history := hs.history
          queue := hs.queue
          session := hs.session
          sizes := hs.sizes
          marks := hs.marks }
    · simp [closeCount, hd]
    · simp [attachedOf]
  | exit =>
    cases hd : s.c.done with
    | false =>
      refine ⟨s, Or.inl ⟨?_, hr, fun hl => ?_, fun _ => rfl⟩, hs, rfl, ?_, ?_, rfl⟩
      · simp [step, hd]
      · simp [lastLeft] at hl
      · simp [closeCount, hd]
      · simp [attachedOf]
    | true =>
      refine ⟨{ s with running := false }, Or.inl ⟨?_, hr, fun hl => ?_, fun _ => rfl⟩,
        ?_, rfl, ?_, ?_, rfl⟩
      · simp [step, hd]
      · simp [lastLeft] at hl
      · exact
          { consistent := hs.consistent
            history := hs.history
            queue := hs.queue
            session := hs.session
            sizes := hs.sizes
            marks := hs.marks }
      · simp [closeCount, hd]
      · simp [attachedOf]

/-- Counting the `Close` calls of a sequence of events from its first event on. -/
theorem closeCount_cons (e : Event) (es : List Event) :
    closeCount (e :: es) = closeCount [e] + closeCount es := by
  cases e <;> simp [closeCount]; omega

/-- The records attached by a sequence of events from its first event on. -/
theorem attachedOf_cons (e : Event) (es : List Event) :
    attachedOf (e :: es) = attachedOf [e] ++ attachedOf es := by
  cases e <;> simp [attachedOf]

/-- Any sequence of events in which `Close` is not called twice, from a
consistent history and a consumer between calls: the run never panics; it
ends, completed or parked at a send, in a consistent history. When it
completes, the records attached are those of the events, the consumer is
between calls, and the window is empty if the last `attach` had `left = 0`. -/
theorem exec_inv {σ : Type} (evs : List Event) :
    ∀ s : System σ, Inv s → s.c.currentIndex < s.c.BatchSize →
      closeCount evs + (if s.c.done then 1 else 0) ≤ 1 →
      ∃ s2, (exec s evs).state? = some s2 ∧ Inv s2 ∧ s2.c.BatchSize = s.c.BatchSize ∧
        s2.c.CallBack = s.c.CallBack ∧ s2.attached <+: s.attached ++ attachedOf evs ∧
        (exec s evs = .ok s2 →
          s2.attached = s.attached ++ attachedOf evs ∧
          s2.c.currentIndex < s2.c.BatchSize ∧
          (lastLeft evs = some 0 ∨ (lastLeft evs = none ∧ window s.c = []) →
            window s2.c = [])) := by
  induction evs with
  | nil =>
    intro s hs hr _
    refine ⟨s, rfl, hs, rfl, rfl, by simp [attachedOf], fun _ => ⟨by simp [attachedOf], hr, fun h => ?_⟩⟩
    rcases h with h | h
    · simp [lastLeft] at h
    · exact h.2
  | cons e es ih =>
    intro s hs hr hclose
    rw [closeCount_cons] at hclose
    obtain ⟨s1, h1, h2, h3, h4, h5, h6⟩ := step_inv s hs hr e (by omega)
    rcases h1 with ⟨hok, hr1, hw0, hwn⟩ | hbl
    · obtain ⟨s2, k1, k2, k3, k5, k6, k4⟩ := ih s1 h2 hr1 (by omega)
      have hexec : exec s (e :: es) = exec s1 es := by
        simp only [exec, hok]
      have hpre : s2.attached <+: s.attached ++ attachedOf (e :: es) := by
        rw [attachedOf_cons, ← List.append_assoc, ← h5]
        exact k6
      refine ⟨s2, by rw [hexec]; exact k1, k2, by rw [k3, h3], by rw [k5, h6], hpre,
        fun hfin => ?_⟩
      rw [hexec] at hfin
      obtain ⟨m1, m2, m3⟩ := k4 hfin
      refine ⟨?_, m2, fun hl => m3 ?_⟩
      · rw [m1, h5, List.append_assoc, ← attachedOf_cons]
      · cases hle : lastLeft es with
        | some l =>
          left
          rcases hl with hl | hl
          · simpa [lastLeft, hle] using hl
          · simp [lastLeft, hle] at hl
        | none =>
          right
          refine ⟨rfl, ?_⟩
          cases e with
          | attach msg sess left =>
            rcases hl with hl | hl
            · apply hw0
              simpa [lastLeft, hle] using hl
            · simp [lastLeft, hle] at hl
          | dispatch =>
            rcases hl with hl | hl
            · simp [lastLeft, hle] at hl
            · rw [hwn (by simp [lastLeft])]
              exact hl.2
          | close =>
            rcases hl with hl | hl
            · simp [lastLeft, hle] at hl
            · rw [hwn (by simp [lastLeft])]
              exact hl.2
          | exit =>
            rcases hl with hl | hl
            · simp [lastLeft, hle] at hl
            · rw [hwn (by simp [lastLeft])]
              exact hl.2
    · have hexec : exec s (e :: es) = .blocked s1 := by
        simp only [exec, hbl]
      have hpre : s1.attached <+: s.attached ++ attachedOf (e :: es) := by
        rw [attachedOf_cons, ← List.append_assoc, ← h5]
        exact List.prefix_append _ _
      refine ⟨s1, by rw [hexec]; rfl, h2, h3, h6, hpre, fun hfin => ?_⟩
      rw [hexec] at hfin
      cases hfin

/-- The history right after `newBatchConsumer` with a callback and an `int32`
batch size is consistent, and the consumer is between calls. -/
theorem init_inv {σ : Type} (batchSize batchInterval : Int) (cb : ConsumerCallback σ) (app : σ)
    (hsize : batchSize < 2 ^ 31) :
    Inv (System.init batchSize batchInterval (some cb) app) ∧
      (System.init batchSize batchInterval (some cb) app).c.currentIndex <
        (System.init batchSize batchInterval (some cb) app).c.BatchSize ∧
      (System.init batchSize batchInterval (some cb) app).c.BatchSize =
        (if batchSize < 1 then 1 else batchSize) := by
  have hpos : (1 : Int) ≤ if batchSize < 1 then 1 else batchSize := by
    split <;> omega
  have hlt : (if batchSize < 1 then 1 else batchSize) < (2 : Int) ^ 31 := by
    split <;> omega
  refine ⟨?_, ?_, rfl⟩
  · exact
      { consistent := ⟨rfl, hpos, hlt, le_refl _, by
          show (0 : Int) ≤ if batchSize < 1 then 1 else batchSize
          omega, rfl⟩
        history := rfl
        queue := rfl
        session := fun h => absurd rfl h
        sizes := fun p hp => by cases hp
        marks := fun _ _ => rfl }
  · show (0 : Int) < if batchSize < 1 then 1 else batchSize
    omega


/-- Any sequence of events in which `Close` is not called twice, right after
`newBatchConsumer` with a callback and an `int32` batch size: the run never
panics and ends, completed or parked at a send, in a consistent history. -/
theorem exec_init {σ : Type} (batchSize batchInterval : Int) (cb : ConsumerCallback σ)
    (app : σ) (evs : List Event) (hsize : batchSize < 2 ^ 31) (hclose : closeCount evs ≤ 1) :
    ∃ s, (exec (System.init batchSize batchInterval (some cb) app) evs).state? = some s ∧
      Inv s ∧ s.c.BatchSize = (if batchSize < 1 then 1 else batchSize) ∧
      s.c.CallBack = some cb ∧ s.attached <+: attachedOf evs ∧
      (exec (System.init batchSize batchInterval (some cb) app) evs = .ok s →
        s.attached = attachedOf evs ∧ s.c.currentIndex < s.c.BatchSize ∧
        (lastLeft evs = some 0 → window s.c = [])) := by
  obtain ⟨h1, h2, h3⟩ := init_inv batchSize batchInterval cb app hsize
  obtain ⟨s, k1, k2, k3, k4, k5, k6⟩ :=
    exec_inv evs (System.init batchSize batchInterval (some cb) app) h1 h2
      (by simpa [System.init, newBatchConsumer] using hclose)
  refine ⟨s, k1, k2, by rw [k3, h3], k4, ?_, fun hok => ?_⟩
  · simpa [System.init] using k5
  · obtain ⟨m1, m2, m3⟩ := k6 hok
    exact ⟨by simpa [System.init] using m1, m2, fun hl => m3 (Or.inl hl)⟩

/-- Every state in which a run of events on a consumer built by
`newBatchConsumer` with a callback completes is a state between calls. -/
theorem exec_ok_betweenCalls {σ : Type} (batchSize batchInterval : Int)
    (cb : ConsumerCallback σ) (app : σ) (evs : List Event) (hsize : batchSize < 2 ^ 31)
    (hclose : closeCount evs ≤ 1) (s : System σ)
    (hok : exec (System.init batchSize batchInterval (some cb) app) evs = .ok s) :
    BetweenCalls s.c := by
  obtain ⟨s1, h1, h2, _, _, _, h6⟩ := exec_init batchSize batchInterval cb app evs hsize hclose
  rw [hok] at h1 h6
  cases Option.some.inj h1
  exact ⟨h2.consistent, (h6 rfl).2.1⟩

/-! ### Several claims on one consumer: runs that go on past a parked call -/

/-- The slice a parked call holds is the window as it is at the send. -/
theorem batchMessageOf_eq {σ : Type} (c : batchConsumer σ) (hc : Consistent c) :
    batchMessageOf c = window c := by
  have hwl := window_length c hc
  obtain ⟨_, h1, _, h0, h3, hb⟩ := hc
  have hmk : makeSlice c.currentIndex = some (List.replicate c.currentIndex.toNat none) := by
    unfold makeSlice
    rw [if_neg (by omega)]
  unfold batchMessageOf
  rw [hmk]
  unfold copySlice window
  unfold window at hwl
  rw [List.length_take] at hwl
  simp only [Option.getD_some, List.length_replicate]
  have hmin : min c.currentIndex.toNat (c.MessageBuffer.getD []).length =
      c.currentIndex.toNat := by omega
  rw [hmin]
  simp

/-- On a consistent consumer whose window is full, which is how a call parked
with a full window leaves it, `attach` panics: the write
`MessageBuffer[currentIndex]` is out of range. -/
theorem attach_full_panics {σ : Type} (c : batchConsumer σ) (hc : Consistent c)
    (hfull : c.currentIndex = c.BatchSize) (msg : ConsumerMessage) (sess : Nat) (left : Int) :
    attach c msg sess left = .panicked := by
  obtain ⟨hcb, h1, _, h0, _, hb⟩ := hc
  obtain ⟨cb, hcb2⟩ := Option.isSome_iff_exists.mp hcb
  unfold bufferOk at hb
  unfold attach
  simp only [hcb2]
  cases hm : c.MessageBuffer with
  | none =>
    rw [hm] at hb
    omega
  | some buf =>
    rw [hm] at hb
    have hset : setIndex buf c.currentIndex (some msg) = none := by
      unfold setIndex
      rw [if_neg (by omega)]
    simp only [hset]

/-- The step `attach` on a consumer between calls, in closed form. -/
theorem step_attach_eq {σ : Type} (s : System σ) (hbc : BetweenCalls s.c)
    (msg : ConsumerMessage) (sess : Nat) (left : Int) :
    step s (.attach msg sess left) =
      if s.c.currentIndex + 1 = s.c.BatchSize ∨ left = 0 then
        if s.c.callBackBuffer.length < bufferLength then
          .ok { s with
            c := flushed (stored s.c msg sess)
            attached := s.attached ++ [msg]
            sent := s.sent ++ [(window s.c ++ [some msg], left)] }
        else .blocked { s with c := stored s.c msg sess, attached := s.attached ++ [msg] }
      else .ok { s with c := stored s.c msg sess, attached := s.attached ++ [msg] } := by
  have hst := stored_consistent s.c msg sess hbc
  have hwin := window_stored s.c msg sess hbc
  simp only [step]
  rw [attach_eq s.c msg sess left hbc]
  by_cases hf : s.c.currentIndex + 1 = s.c.BatchSize ∨ left = 0
  · rw [if_pos hf, if_pos hf, sendToCallback_eq _ hst]
    by_cases hroom : s.c.callBackBuffer.length < bufferLength
    · have hroom2 : (stored s.c msg sess).callBackBuffer.length < bufferLength := hroom
      rw [if_pos hroom2, if_pos hroom]
      have hdrop : (flushed (stored s.c msg sess)).callBackBuffer.drop
          s.c.callBackBuffer.length = [window s.c ++ [some msg]] := by
        show (s.c.callBackBuffer ++ [window (stored s.c msg sess)]).drop _ = _
        rw [hwin]
        simp
      simp only [hdrop, List.map_cons, List.map_nil]
    · have hroom2 : ¬ (stored s.c msg sess).callBackBuffer.length < bufferLength := hroom
      rw [if_neg hroom2, if_neg hroom]
  · rw [if_neg hf, if_neg hf]
    have hdrop : (stored s.c msg sess).callBackBuffer.drop s.c.callBackBuffer.length = [] := by
      show s.c.callBackBuffer.drop _ = []
      simp
    simp only [hdrop, List.map_nil, List.append_nil]

/-- The events other than `attach` on a consistent history, with `Close` not
called twice: the event returns, the history stays consistent and the buffer
and the window are not touched. -/
theorem step_other_inv {σ : Type} (s : System σ) (hs : Inv s) (e : Event)
    (he : ∀ msg sess left, e ≠ .attach msg sess left)
    (hclose : closeCount [e] + (if s.c.done then 1 else 0) ≤ 1) :
    ∃ s2, step s e = .ok s2 ∧ Inv s2 ∧ window s2.c = window s.c ∧
      (if s2.c.done then 1 else 0) = closeCount [e] + (if s.c.done then 1 else 0) ∧
      s2.attached = s.attached := by
  cases e with
  | attach msg sess left => exact absurd rfl (he msg sess left)
  | dispatch =>
    obtain ⟨s2, h1, h2, _, _, h5, h6, h7, _⟩ := step_dispatch_inv s hs
    refine ⟨s2, h1, h2, h7, ?_, h6⟩
    rw [h5]
    simp [closeCount]
  | close =>
    have hd : s.c.done = false := by
      cases h : s.c.done with
      | false => rfl
      | true => simp [closeCount, h] at hclose
    refine ⟨{ s with c := { s.c with done := true } }, ?_, ?_, rfl, ?_, rfl⟩
    · simp [step, batchConsumer.Close, hd]
    · exact
        { consistent := hs.consistent
          history := hs.history
          queue := hs.queue
          session := hs.session
          sizes := hs.sizes
          marks := hs.marks }
    · simp [closeCount, hd]
  | exit =>
    cases hd : s.c.done with
    | false =>
      exact ⟨s, by simp [step, hd], hs, rfl, by simp [closeCount, hd], rfl⟩
    | true =>
      refine ⟨{ s with running := false }, by simp [step, hd], ?_, rfl, by simp [closeCount, hd],
        rfl⟩
      exact
        { consistent := hs.consistent
          history := hs.history
          queue := hs.queue
          session := hs.session
          sizes := hs.sizes
          marks := hs.marks }

/-- A state of the tasks right after `newBatchConsumer` with a callback and an
`int32` batch size is sound. -/
theorem init_sound {σ : Type} (batchSize batchInterval : Int) (cb : ConsumerCallback σ) (app : σ)
    (hsize : batchSize < 2 ^ 31) :
    Sound (Tasks.init batchSize batchInterval (some cb) app) := by
  obtain ⟨h1, _, _⟩ := init_inv batchSize batchInterval cb app hsize
  exact
    { consistent := h1.consistent
      queue := rfl
      sizes := fun p hp => by cases hp }

/-- Any move that does not panic keeps the tasks sound and the batch size as
it was, whether or not calls of `attach` overlap. -/
theorem stepAll_sound {σ : Type} (t t2 : Tasks σ) (ht : Sound t) (m : Move)
    (h : stepAll t m = some t2) :
    Sound t2 ∧ t2.sys.c.BatchSize = t.sys.c.BatchSize := by
  cases m with
  | resume =>
    simp only [stepAll] at h
    cases hp : t.parked with
    | nil =>
      simp only [hp, Option.some.injEq] at h
      rw [← h]
      exact ⟨ht, rfl⟩
    | cons p rest =>
      simp only [hp] at h
      by_cases hroom : t.sys.c.callBackBuffer.length < bufferLength
      · simp only [hroom, if_true, Option.some.injEq, completeSend] at h
        rw [← h]
        obtain ⟨hcb, h1, h2, _, _, _⟩ := ht.consistent
        refine ⟨?_, rfl⟩
        exact
          { consistent := ⟨hcb, h1, h2, le_refl _, by
              show (0 : Int) ≤ t.sys.c.BatchSize
              omega, rfl⟩
            queue := by
              show (t.sys.sent ++ [p]).map Prod.fst =
                t.sys.handled.map Prod.fst ++ (t.sys.c.callBackBuffer ++ [p.1])
              rw [List.map_append, ht.queue]
              simp
            sizes := by
              intro q hq
              apply ht.sizes q
              rw [hp]
              have hq2 : q ∈ (t.sys.sent ++ [p]) ++ rest := hq
              simp only [List.mem_append, List.mem_singleton, List.mem_cons] at hq2 ⊢
              tauto }
      · simp only [hroom, if_false, Option.some.injEq] at h
        rw [← h]
        exact ⟨ht, rfl⟩
  | event e =>
    cases e with
    | attach msg sess left =>
      by_cases hr : t.sys.c.currentIndex < t.sys.c.BatchSize
      · have hbc : BetweenCalls t.sys.c := ⟨ht.consistent, hr⟩
        have hst := stored_consistent t.sys.c msg sess hbc
        have hwin := window_stored t.sys.c msg sess hbc
        have hwl := window_length t.sys.c ht.consistent
        have hnew : ∀ q : Batch × Int, q = (window t.sys.c ++ [some msg], left) →
            (t.sys.c.currentIndex + 1 = t.sys.c.BatchSize ∨ left = 0) →
            1 ≤ q.1.length ∧ (q.1.length : Int) ≤ t.sys.c.BatchSize ∧
              ((q.1.length : Int) < t.sys.c.BatchSize → q.2 = 0) := by
          intro q hq hf
          subst hq
          simp only [List.length_append, List.length_singleton]
          refine ⟨by omega, by push_cast; omega, fun hlt => ?_⟩
          rcases hf with hf | hf
          · push_cast at hlt; omega
          · exact hf
        simp only [stepAll] at h
        rw [step_attach_eq t.sys hbc msg sess left] at h
        by_cases hf : t.sys.c.currentIndex + 1 = t.sys.c.BatchSize ∨ left = 0
        · rw [if_pos hf] at h
          by_cases hroom : t.sys.c.callBackBuffer.length < bufferLength
          · rw [if_pos hroom] at h
            simp only [Option.some.injEq] at h
            rw [← h]
            refine ⟨?_, rfl⟩
            exact
              { consistent := (flushed_betweenCalls _ hst).1
                queue := by
                  show (t.sys.sent ++ [(window t.sys.c ++ [some msg], left)]).map Prod.fst =
                    t.sys.handled.map Prod.fst ++
                      (t.sys.c.callBackBuffer ++ [window (stored t.sys.c msg sess)])
                  rw [hwin, List.map_append, ht.queue]
                  simp
                sizes := by
                  intro q hq
                  have hq2 : q ∈ (t.sys.sent ++ [(window t.sys.c ++ [some msg], left)]) ++
                      t.parked := hq
                  simp only [List.mem_append, List.mem_singleton] at hq2
                  rcases hq2 with (hq2 | hq2) | hq2
                  · exact ht.sizes q (List.mem_append_left _ hq2)
                  · exact hnew q hq2 hf
                  · exact ht.sizes q (List.mem_append_right _ hq2) }
          · rw [if_neg hroom] at h
            simp only [Option.some.injEq] at h
            rw [← h]
            refine ⟨?_, rfl⟩
            exact
              { consistent := hst
                queue := ht.queue
                sizes := by
                  intro q hq
                  have hq2 : q ∈ t.sys.sent ++ (t.parked ++
                      [(batchMessageOf (stored t.sys.c msg sess), (Event.attach msg sess left).leftArg)]) := hq
                  rw [batchMessageOf_eq _ hst, hwin] at hq2
                  simp only [List.mem_append, List.mem_singleton] at hq2
                  rcases hq2 with hq2 | hq2 | hq2
                  · exact ht.sizes q (List.mem_append_left _ hq2)
                  · exact ht.sizes q (List.mem_append_right _ hq2)
                  · exact hnew q hq2 hf }
        · rw [if_neg hf] at h
          simp only [Option.some.injEq] at h
          rw [← h]
          refine ⟨?_, rfl⟩
          exact
            { consistent := hst
              queue := ht.queue
              sizes := ht.sizes }
      · have hfull : t.sys.c.currentIndex = t.sys.c.BatchSize := by
          have := ht.consistent.2.2.2.2.1
          omega
        have hp := attach_full_panics t.sys.c ht.consistent hfull msg sess left
        simp [stepAll, step, hp] at h
    | dispatch =>
      simp only [stepAll, step] at h
      cases hrun : t.sys.running with
      | false =>
        simp only [hrun, Bool.false_eq_true, if_false, Option.some.injEq] at h
        rw [← h]
        exact ⟨ht, rfl⟩
      | true =>
        simp only [hrun, if_true] at h
        cases hq : t.sys.c.callBackBuffer with
        | nil =>
          simp only [hq, Option.some.injEq] at h
          rw [← h]
          exact ⟨ht, rfl⟩
        | cons msgs rest =>
          simp only [hq] at h
          cases hrb : runBatch t.sys.c t.sys.app msgs with
          | none => simp [hrb] at h
          | some r =>
            obtain ⟨app2, verdict, calls⟩ := r
            simp only [hrb, Option.some.injEq] at h
            rw [← h]
            refine ⟨?_, rfl⟩
            exact
              { consistent := ht.consistent
                queue := by
                  show t.sys.sent.map Prod.fst =
                    (t.sys.handled ++ [(msgs, verdict)]).map Prod.fst ++ rest
                  rw [ht.queue, hq]
                  simp
                sizes := ht.sizes }
    | close =>
      simp only [stepAll, step, batchConsumer.Close] at h
      cases hd : t.sys.c.done with
      | true => simp [hd] at h
      | false =>
        simp only [hd, Bool.false_eq_true, if_false, Option.some.injEq] at h
        rw [← h]
        exact ⟨{ consistent := ht.consistent, queue := ht.queue, sizes := ht.sizes }, rfl⟩
    | exit =>
      simp only [stepAll, step] at h
      cases hd : t.sys.c.done with
      | true =>
        simp only [hd, if_true, Option.some.injEq] at h
        rw [← h]
        exact ⟨{ consistent := ht.consistent, queue := ht.queue, sizes := ht.sizes }, rfl⟩
      | false =>
        simp only [hd, Bool.false_eq_true, if_false, Option.some.injEq] at h
        rw [← h]
        exact ⟨ht, rfl⟩

/-- Any sequence of moves that does not panic keeps the tasks sound and the
batch size as it was, whether or not calls of `attach` overlap. -/
theorem execAll_sound {σ : Type} (moves : List Move) :
    ∀ t t2 : Tasks σ, Sound t → execAll t moves = some t2 →
      Sound t2 ∧ t2.sys.c.BatchSize = t.sys.c.BatchSize := by
  induction moves with
  | nil =>
    intro t t2 ht h
    simp only [execAll, Option.some.injEq] at h
    rw [← h]
    exact ⟨ht, rfl⟩
  | cons m ms ih =>
    intro t t2 ht h
    simp only [execAll] at h
    cases h1 : stepAll t m with
    | none => simp [h1] at h
    | some t1 =>
      simp only [h1] at h
      obtain ⟨k1, k2⟩ := stepAll_sound t t1 ht m h1
      obtain ⟨k3, k4⟩ := ih t1 t2 k1 h
      exact ⟨k3, by rw [k4, k2]⟩

/-- A `dispatch`, a `close` or an `exit` that returns leaves the buffer, the
index, the batch size and the callback of the consumer as they were. -/
theorem step_frame {σ : Type} (s s2 : System σ) (e : Event)
    (he : ∀ msg sess left, e ≠ .attach msg sess left) (h : step s e = .ok s2) :
    s2.c.MessageBuffer = s.c.MessageBuffer ∧ s2.c.currentIndex = s.c.currentIndex ∧
      s2.c.BatchSize = s.c.BatchSize ∧ s2.c.CallBack = s.c.CallBack := by
  cases e with
  | attach msg sess left => exact absurd rfl (he msg sess left)
  | dispatch =>
    simp only [step] at h
    cases hrun : s.running with
    | false =>
      simp only [hrun, Bool.false_eq_true, if_false, Outcome.ok.injEq] at h
      rw [← h]
      exact ⟨rfl, rfl, rfl, rfl⟩
    | true =>
      simp only [hrun, if_true] at h
      cases hq : s.c.callBackBuffer with
      | nil =>
        simp only [hq, Outcome.ok.injEq] at h
        rw [← h]
        exact ⟨rfl, rfl, rfl, rfl⟩
      | cons msgs rest =>
        simp only [hq] at h
        cases hrb : runBatch s.c s.app msgs with
        | none => simp [hrb] at h
        | some r =>
          obtain ⟨app2, verdict, calls⟩ := r
          simp only [hrb, Outcome.ok.injEq] at h
          rw [← h]
          exact ⟨rfl, rfl, rfl, rfl⟩
  | close =>
    simp only [step, batchConsumer.Close] at h
    cases hd : s.c.done with
    | true => simp [hd] at h
    | false =>
      simp only [hd, Bool.false_eq_true, if_false, Outcome.ok.injEq] at h
      rw [← h]
      exact ⟨rfl, rfl, rfl, rfl⟩
  | exit =>
    simp only [step] at h
    cases hd : s.c.done with
    | true =>
      simp only [hd, if_true, Outcome.ok.injEq] at h
      rw [← h]
      exact ⟨rfl, rfl, rfl, rfl⟩
    | false =>
      simp only [hd, Bool.false_eq_true, if_false, Outcome.ok.injEq] at h
      rw [← h]
      exact ⟨rfl, rfl, rfl, rfl⟩

/-- An `attach` that returns, on a consumer between calls, leaves the buffer
nil exactly when it leaves the window empty. -/
theorem attach_tight {σ : Type} (c c2 : batchConsumer σ) (msg : ConsumerMessage) (sess : Nat)
    (left : Int) (hc : BetweenCalls c) (h : attach c msg sess left = .ok c2) :
    (c2.MessageBuffer = none ↔ c2.currentIndex = 0) := by
  have hst := stored_consistent c msg sess hc
  rw [attach_eq c msg sess left hc] at h
  by_cases hf : c.currentIndex + 1 = c.BatchSize ∨ left = 0
  · rw [if_pos hf, sendToCallback_eq _ hst] at h
    by_cases hroom : (stored c msg sess).callBackBuffer.length < bufferLength
    · rw [if_pos hroom] at h
      cases h
      exact ⟨fun _ => rfl, fun _ => rfl⟩
    · rw [if_neg hroom] at h
      cases h
  · rw [if_neg hf] at h
    cases h
    have h0 : 0 ≤ c.currentIndex := hc.1.2.2.2.1
    constructor
    · intro hn
      simp [stored] at hn
    · intro hz
      have : c.currentIndex + 1 = 0 := hz
      omega

/-- The tasks right after `newBatchConsumer` with a callback and an `int32`
batch size are orderly. -/
theorem init_orderly {σ : Type} (batchSize batchInterval : Int) (cb : ConsumerCallback σ)
    (app : σ) (hsize : batchSize < 2 ^ 31) :
    Orderly (Tasks.init batchSize batchInterval (some cb) app) := by
  obtain ⟨h1, h2, _⟩ := init_inv batchSize batchInterval cb app hsize
  exact ⟨h1, ⟨fun _ => rfl, fun _ => rfl⟩, Or.inl ⟨rfl, h2⟩⟩

/-- Any move on orderly tasks, when it is not a call of `attach` made while
another call is parked and `Close` is not called twice: the move does not
panic and leaves the tasks orderly. A call with `left = 0` either flushes the
window or is parked. -/
theorem stepAll_orderly {σ : Type} (t : Tasks σ) (ht : Orderly t) (m : Move)
    (hov : m.isAttach = true → t.parked = [])
    (hclose : closeCount (eventsOf [m]) + (if t.sys.c.done then 1 else 0) ≤ 1) :
    ∃ t2, stepAll t m = some t2 ∧ Orderly t2 ∧ t2.sys.c.BatchSize = t.sys.c.BatchSize ∧
      t2.sys.c.CallBack = t.sys.c.CallBack ∧
      (if t2.sys.c.done then 1 else 0) =
        closeCount (eventsOf [m]) + (if t.sys.c.done then 1 else 0) ∧
      t2.sys.attached = t.sys.attached ++ attachedOf (eventsOf [m]) ∧
      (lastLeft (eventsOf [m]) = some 0 → t2.parked = [] → window t2.sys.c = []) ∧
      (lastLeft (eventsOf [m]) = none → (t.parked = [] → window t.sys.c = []) →
        t2.parked = [] → window t2.sys.c = []) := by
  obtain ⟨hinv, htight, hpark⟩ := ht
  cases m with
  | resume =>
    have hcc : closeCount (eventsOf [Move.resume]) = 0 := rfl
    have hao : attachedOf (eventsOf [Move.resume]) = [] := rfl
    have hll : lastLeft (eventsOf [Move.resume]) = none := rfl
    rw [hcc, hao, hll]
    rcases hpark with ⟨hp, hr⟩ | ⟨left, hp, h1, hl⟩
    · refine ⟨t, by simp [stepAll, hp], ⟨hinv, htight, Or.inl ⟨hp, hr⟩⟩, rfl, rfl, by omega,
        by simp, (fun h => by cases h), (fun _ hw => hw)⟩
    · by_cases hroom : t.sys.c.callBackBuffer.length < bufferLength
      · have hwl := window_length t.sys.c hinv.consistent
        have hfl := flushed_betweenCalls t.sys.c hinv.consistent
        have hinv2 : Inv (completeSend t (window t.sys.c, left) []).sys :=
          { consistent := hfl.1
            history := by
              show ((t.sys.sent ++ [(window t.sys.c, left)]).map Prod.fst).flatten ++
                window (flushed t.sys.c) = t.sys.attached.map some
              rw [window_flushed, ← hinv.history]
              simp
            queue := by
              show (t.sys.sent ++ [(window t.sys.c, left)]).map Prod.fst =
                t.sys.handled.map Prod.fst ++ (t.sys.c.callBackBuffer ++ [window t.sys.c])
              rw [List.map_append, hinv.queue]
              simp
            session := hinv.session
            sizes := by
              intro p hp2
              have hp3 : p ∈ t.sys.sent ++ [(window t.sys.c, left)] := hp2
              show 1 ≤ p.1.length ∧ (p.1.length : Int) ≤ t.sys.c.BatchSize ∧
                ((p.1.length : Int) < t.sys.c.BatchSize → p.2 = 0)
              rcases List.mem_append.mp hp3 with h | h
              · exact hinv.sizes p h
              · simp only [List.mem_singleton] at h
                rw [h]
                have hle := hinv.consistent.2.2.2.2.1
                show 1 ≤ (window t.sys.c).length ∧
                  ((window t.sys.c).length : Int) ≤ t.sys.c.BatchSize ∧
                  (((window t.sys.c).length : Int) < t.sys.c.BatchSize → left = 0)
                refine ⟨by omega, by omega, fun hlt => hl (by omega)⟩
            marks := hinv.marks }
        refine ⟨completeSend t (window t.sys.c, left) [],
          by simp only [stepAll, hp, hroom, if_true],
          ⟨hinv2, ⟨fun _ => rfl, fun _ => rfl⟩, Or.inl ⟨rfl, hfl.2⟩⟩, rfl, rfl, ?_, ?_,
          (fun h => by cases h), (fun _ _ _ => ?_)⟩
        · show (if t.sys.c.done then 1 else 0) = 0 + (if t.sys.c.done then 1 else 0)
          omega
        · show t.sys.attached = t.sys.attached ++ []
          simp
        · simp [window, completeSend]
      · refine ⟨t, by simp only [stepAll, hp, hroom, if_false],
          ⟨hinv, htight, Or.inr ⟨left, hp, h1, hl⟩⟩, rfl, rfl, by omega, by simp,
          (fun h => by cases h), (fun _ hw => hw)⟩
  | event e =>
    cases e with
    | attach msg sess left =>
      have hp : t.parked = [] := hov rfl
      have hr : t.sys.c.currentIndex < t.sys.c.BatchSize := by
        rcases hpark with ⟨_, hr⟩ | ⟨l, hp2, _, _⟩
        · exact hr
        · rw [hp] at hp2
          cases hp2
      have hbc : BetweenCalls t.sys.c := ⟨hinv.consistent, hr⟩
      have hst := stored_consistent t.sys.c msg sess hbc
      have hwin := window_stored t.sys.c msg sess hbc
      have h0 : 0 ≤ t.sys.c.currentIndex := hinv.consistent.2.2.2.1
      obtain ⟨s2, k1, k2, k3, k4, k5, k6⟩ := step_attach_inv t.sys hinv hr msg sess left
      have heq := step_attach_eq t.sys hbc msg sess left
      have hdone : (if s2.c.done then 1 else 0) =
          closeCount (eventsOf [Move.event (Event.attach msg sess left)]) +
            (if t.sys.c.done then 1 else 0) := by
        rw [k4]
        simp [eventsOf, closeCount]
      have hatt : s2.attached = t.sys.attached ++
          attachedOf (eventsOf [Move.event (Event.attach msg sess left)]) := by
        rw [k5]
        simp [eventsOf, attachedOf]
      have hnone : lastLeft (eventsOf [Move.event (Event.attach msg sess left)]) ≠ none := by
        simp [eventsOf, lastLeft]
      rcases k1 with ⟨hok, hr2, hw0⟩ | hbl
      · have htight2 : s2.c.MessageBuffer = none ↔ s2.c.currentIndex = 0 := by
          simp only [step] at hok
          cases ha : attach t.sys.c msg sess left with
          | ok c2 =>
            simp only [ha, Outcome.ok.injEq] at hok
            rw [← hok]
            exact attach_tight t.sys.c c2 msg sess left hbc ha
          | blocked c2 => simp [ha] at hok
          | panicked => simp [ha] at hok
        refine ⟨{ t with sys := s2 }, by simp only [stepAll, hok],
          ⟨k2, htight2, Or.inl ⟨hp, hr2⟩⟩, k3, k6, hdone, hatt, (fun hl _ => hw0 ?_),
          (fun hl => absurd hl hnone)⟩
        simpa [eventsOf, lastLeft] using hl
      · have hshape : (s2.c = stored t.sys.c msg sess) ∧
            (t.sys.c.currentIndex + 1 = t.sys.c.BatchSize ∨ left = 0) := by
          rw [heq] at hbl
          by_cases hf : t.sys.c.currentIndex + 1 = t.sys.c.BatchSize ∨ left = 0
          · rw [if_pos hf] at hbl
            by_cases hroom : t.sys.c.callBackBuffer.length < bufferLength
            · rw [if_pos hroom] at hbl
              cases hbl
            · rw [if_neg hroom] at hbl
              simp only [Outcome.blocked.injEq] at hbl
              rw [← hbl]
              exact ⟨rfl, hf⟩
          · rw [if_neg hf] at hbl
            cases hbl
        obtain ⟨hc2, hf⟩ := hshape
        have hidx : s2.c.currentIndex = t.sys.c.currentIndex + 1 := by rw [hc2]; rfl
        have hbs : s2.c.BatchSize = t.sys.c.BatchSize := k3
        refine ⟨{ sys := s2, parked := t.parked ++ [(batchMessageOf s2.c,
            (Event.attach msg sess left).leftArg)] },
          by simp only [stepAll, hbl], ⟨k2, ?_, Or.inr ⟨left, ?_, ?_, fun hlt => ?_⟩⟩,
          k3, k6, hdone, hatt, (fun _ hq => ?_), (fun hl => absurd hl hnone)⟩
        · rw [hc2]
          constructor
          · intro hn
            simp [stored] at hn
          · intro hz
            have : t.sys.c.currentIndex + 1 = 0 := hz
            omega
        · show t.parked ++ [(batchMessageOf s2.c,
            (Event.attach msg sess left).leftArg)] = [(window s2.c, left)]
          rw [hp, batchMessageOf_eq _ k2.consistent]
          rfl
        · show 1 ≤ s2.c.currentIndex
          omega
        · have hlt2 : s2.c.currentIndex < s2.c.BatchSize := hlt
          rcases hf with hf | hf
          · omega
          · exact hf
        · have hq2 : t.parked ++ [(batchMessageOf s2.c,
              (Event.attach msg sess left).leftArg)] = [] := hq
          simp at hq2
    | dispatch =>
      obtain ⟨s2, k1, k2, k3, k4, k5⟩ :=
        step_other_inv t.sys hinv .dispatch (fun _ _ _ => by simp) (by simpa [eventsOf] using hclose)
      obtain ⟨f1, f2, f3, f4⟩ := step_frame t.sys s2 _ (fun _ _ _ => by simp) k1
      refine ⟨{ t with sys := s2 }, by simp only [stepAll, k1], ⟨k2, by rw [f1, f2]; exact htight,
        ?_⟩, f3, f4, by simpa [eventsOf] using k4, by simpa [eventsOf, attachedOf] using k5,
        (fun hl => by simp [eventsOf, lastLeft] at hl), (fun _ hw hq => by rw [k3]; exact hw hq)⟩
      rcases hpark with ⟨hp, hr⟩ | ⟨left, hp, h1, hl⟩
      · exact Or.inl ⟨hp, by rw [f2, f3]; exact hr⟩
      · exact Or.inr ⟨left, by rw [k3]; exact hp, by rw [f2]; exact h1, by rw [f2, f3]; exact hl⟩
    | close =>
      obtain ⟨s2, k1, k2, k3, k4, k5⟩ :=
        step_other_inv t.sys hinv .close (fun _ _ _ => by simp) (by simpa [eventsOf] using hclose)
      obtain ⟨f1, f2, f3, f4⟩ := step_frame t.sys s2 _ (fun _ _ _ => by simp) k1
      refine ⟨{ t with sys := s2 }, by simp only [stepAll, k1], ⟨k2, by rw [f1, f2]; exact htight,
        ?_⟩, f3, f4, by simpa [eventsOf] using k4, by simpa [eventsOf, attachedOf] using k5,
        (fun hl => by simp [eventsOf, lastLeft] at hl), (fun _ hw hq => by rw [k3]; exact hw hq)⟩
      rcases hpark with ⟨hp, hr⟩ | ⟨left, hp, h1, hl⟩
      · exact Or.inl ⟨hp, by rw [f2, f3]; exact hr⟩
      · exact Or.inr ⟨left, by rw [k3]; exact hp, by rw [f2]; exact h1, by rw [f2, f3]; exact hl⟩
    | exit =>
      obtain ⟨s2, k1, k2, k3, k4, k5⟩ :=
        step_other_inv t.sys hinv .exit (fun _ _ _ => by simp) (by simpa [eventsOf] using hclose)
      obtain ⟨f1, f2, f3, f4⟩ := step_frame t.sys s2 _ (fun _ _ _ => by simp) k1
      refine ⟨{ t with sys := s2 }, by simp only [stepAll, k1], ⟨k2, by rw [f1, f2]; exact htight,
        ?_⟩, f3, f4, by simpa [eventsOf] using k4, by simpa [eventsOf, attachedOf] using k5,
        (fun hl => by simp [eventsOf, lastLeft] at hl), (fun _ hw hq => by rw [k3]; exact hw hq)⟩
      rcases hpark with ⟨hp, hr⟩ | ⟨left, hp, h1, hl⟩
      · exact Or.inl ⟨hp, by rw [f2, f3]; exact hr⟩
      · exact Or.inr ⟨left, by rw [k3]; exact hp, by rw [f2]; exact h1, by rw [f2, f3]; exact hl⟩

/-- Counting the `Close` calls of a sequence of moves from its first move on. -/
theorem closeCount_eventsOf_cons (m : Move) (ms : List Move) :
    closeCount (eventsOf (m :: ms)) = closeCount (eventsOf [m]) + closeCount (eventsOf ms) := by
  cases m with
  | resume => simp [eventsOf, closeCount]
  | event e =>
    show closeCount (e :: eventsOf ms) = closeCount [e] + closeCount (eventsOf ms)
    exact closeCount_cons e _

/-- The records attached by a sequence of moves from its first move on. -/
theorem attachedOf_eventsOf_cons (m : Move) (ms : List Move) :
    attachedOf (eventsOf (m :: ms)) = attachedOf (eventsOf [m]) ++ attachedOf (eventsOf ms) := by
  cases m with
  | resume => simp [eventsOf, attachedOf]
  | event e =>
    show attachedOf (e :: eventsOf ms) = attachedOf [e] ++ attachedOf (eventsOf ms)
    exact attachedOf_cons e _

/-- The `left` of the last call of `attach` in a sequence of moves is that of
the moves after the first one, if they hold a call, and that of the first move
otherwise. -/
theorem lastLeft_eventsOf_cons (m : Move) (ms : List Move) :
    lastLeft (eventsOf (m :: ms)) =
      match lastLeft (eventsOf ms) with
      | some l => some l
      | none => lastLeft (eventsOf [m]) := by
  cases m with
  | resume =>
    show lastLeft (eventsOf ms) = _
    cases lastLeft (eventsOf ms) <;> rfl
  | event e =>
    show lastLeft (e :: eventsOf ms) = _
    cases h : lastLeft (eventsOf ms) with
    | some l => simp [lastLeft, h]
    | none => cases e <;> simp [lastLeft, h]

/-- Any sequence of moves whose calls of `attach` do not overlap and in which
`Close` is not called twice, from orderly tasks: no move panics and the tasks
stay orderly; the records attached are those of the moves; and when the last
call had `left = 0` and no call is parked at the end, the window is empty. -/
theorem execAll_orderly {σ : Type} (moves : List Move) :
    ∀ t : Tasks σ, Orderly t → noOverlap t moves = true →
      closeCount (eventsOf moves) + (if t.sys.c.done then 1 else 0) ≤ 1 →
      ∃ t2, execAll t moves = some t2 ∧ Orderly t2 ∧ t2.sys.c.BatchSize = t.sys.c.BatchSize ∧
        t2.sys.c.CallBack = t.sys.c.CallBack ∧
        t2.sys.attached = t.sys.attached ++ attachedOf (eventsOf moves) ∧
        ((lastLeft (eventsOf moves) = some 0 ∨
            (lastLeft (eventsOf moves) = none ∧ (t.parked = [] → window t.sys.c = []))) →
          t2.parked = [] → window t2.sys.c = []) := by
  induction moves with
  | nil =>
    intro t ht _ _
    refine ⟨t, rfl, ht, rfl, rfl, by simp [eventsOf, attachedOf], fun h => ?_⟩
    rcases h with h | h
    · simp [eventsOf, lastLeft] at h
    · exact h.2
  | cons m ms ih =>
    intro t ht hov hclose
    rw [closeCount_eventsOf_cons] at hclose
    simp only [noOverlap, Bool.and_eq_true, Bool.or_eq_true, Bool.not_eq_true',
      List.isEmpty_iff] at hov
    obtain ⟨hov1, hov2⟩ := hov
    have hov3 : m.isAttach = true → t.parked = [] := by
      intro hm
      rcases hov1 with h | h
      · rw [hm] at h
        cases h
      · exact h
    obtain ⟨t1, h1, h2, h3, h4, h5, h6, h7, h8⟩ := stepAll_orderly t ht m hov3 (by omega)
    rw [h1] at hov2
    obtain ⟨t2, k1, k2, k3, k4, k5, k6⟩ := ih t1 h2 hov2 (by omega)
    refine ⟨t2, by simp only [execAll, h1]; exact k1, k2, by rw [k3, h3], by rw [k4, h4], ?_,
      fun hl => k6 ?_⟩
    · rw [k5, h6, List.append_assoc, ← attachedOf_eventsOf_cons]
    · rw [lastLeft_eventsOf_cons] at hl
      cases hle : lastLeft (eventsOf ms) with
      | some l =>
        left
        rcases hl with hl | hl
        · simpa [hle] using hl
        · simp [hle] at hl
      | none =>
        right
        refine ⟨rfl, ?_⟩
        simp only [hle] at hl
        rcases hl with hl | ⟨hl, hw⟩
        · exact h7 hl
        · exact h8 hl hw

/-- A run of events that completes without a parked call is a run of the
tasks in which no call is parked on the way. -/
theorem execAll_of_exec_ok {σ : Type} (evs : List Event) :
    ∀ (s s2 : System σ) (parked : List (Batch × Int)), exec s evs = .ok s2 →
      execAll { sys := s, parked := parked } (evs.map Move.event) =
        some { sys := s2, parked := parked } := by
  induction evs with
  | nil =>
    intro s s2 parked h
    simp only [exec, Outcome.ok.injEq] at h
    rw [← h]
    rfl
  | cons e es ih =>
    intro s s2 parked h
    simp only [exec] at h
    cases hs : step s e with
    | ok s1 =>
      simp only [hs] at h
      simp only [List.map_cons, execAll, stepAll, hs]
      exact ih s1 s2 parked h
    | blocked s1 => simp [hs] at h
    | panicked => simp [hs] at h

/-- A run of events that ends at a parked call is a run of the tasks that
ends with that call parked, in the same state of the consumer. -/
theorem execAll_of_exec_blocked {σ : Type} (evs : List Event) :
    ∀ (s s2 : System σ) (parked : List (Batch × Int)), exec s evs = .blocked s2 →
      ∃ n left, execAll { sys := s, parked := parked } ((evs.take n).map Move.event) =
        some { sys := s2, parked := parked ++ [(batchMessageOf s2.c, left)] } := by
  induction evs with
  | nil =>
    intro s s2 parked h
    simp [exec] at h
  | cons e es ih =>
    intro s s2 parked h
    simp only [exec] at h
    cases hs : step s e with
    | ok s1 =>
      simp only [hs] at h
      obtain ⟨n, left, hn⟩ := ih s1 s2 parked h
      refine ⟨n + 1, left, ?_⟩
      simp only [List.take_succ_cons, List.map_cons, execAll, stepAll, hs]
      exact hn
    | blocked s1 =>
      simp only [hs, Outcome.blocked.injEq] at h
      refine ⟨1, e.leftArg, ?_⟩
      simp only [List.take_succ_cons, List.take_zero, List.map_cons, List.map_nil, execAll,
        stepAll, hs, h]
    | panicked => simp [hs] at h

/-- After moves whose calls of `attach` do not overlap, on a consumer built by
`newBatchConsumer` with a callback, a consumer on which no call is parked is
between calls. -/
theorem execAll_quiet_betweenCalls {σ : Type} (batchSize batchInterval : Int)
    (cb : ConsumerCallback σ) (app : σ) (moves : List Move) (hsize : batchSize < 2 ^ 31)
    (hclose : closeCount (eventsOf moves) ≤ 1)
    (hseq : noOverlap (Tasks.init batchSize batchInterval (some cb) app) moves = true)
    (t : Tasks σ)
    (hreach : execAll (Tasks.init batchSize batchInterval (some cb) app) moves = some t)
    (hquiet : t.parked = []) : BetweenCalls t.sys.c := by
  obtain ⟨t2, k1, k2, _, _, _, _⟩ :=
    execAll_orderly moves (Tasks.init batchSize batchInterval (some cb) app)
      (init_orderly batchSize batchInterval cb app hsize) hseq
      (by simpa [Tasks.init, System.init, newBatchConsumer] using hclose)
  rw [hreach] at k1
  cases Option.some.inj k1
  obtain ⟨hinv, _, hpark⟩ := k2
  rcases hpark with ⟨_, hr⟩ | ⟨left, hp, _, _⟩
  · exact ⟨hinv.consistent, hr⟩
  · rw [hquiet] at hp
    cases hp

/-- C3, as stated, fails: after nine calls on a consumer of batch size 1 whose
`run` has not taken anything, the consumer has its callback, the dispatch
queue is full, the ninth call is parked at the send and `currentIndex` equals
`BatchSize`; a call of `attach` by another claim on that consumer panics, so
its record is not appended to the window. -/
theorem C3_counterexample :
    (execAll (Tasks.init 1 0 (some acceptAll) ()) nineAttaches).map
        (fun t => (t.sys.c.CallBack.isSome, t.sys.c.currentIndex, t.sys.c.BatchSize,
          t.sys.c.callBackBuffer.length, t.parked.length)) = some (true, 1, 1, 8, 1) ∧
      (execAll (Tasks.init 1 0 (some acceptAll) ()) nineAttaches).map
        (fun t => (attach t.sys.c (sampleRecord "t" 1 9) 7 5).state?.isSome) = some false := by
  refine ⟨by decide, by decide⟩

/-- C3, amended: for a batch consumer with a callback, in a state between two
calls, that is while no other call of `attach` is parked at the send (see
`execAll_quiet_betweenCalls`), `attach` appends the record to the window.
When the window then has `BatchSize` records or `left` is 0, the window is
flushed: with room in the dispatch queue the call returns, the queue has
gained exactly the window with the new record, and the window is reset
(`currentIndex = 0`, `MessageBuffer` nil); without room the call is parked at
the send with the record buffered and nothing sent, and the send goes through
with the same batch and the same reset as soon as the queue has room.
Otherwise the call returns with nothing sent and the record buffered. -/
theorem C3_attach_appends_and_flushes {σ : Type} (c : batchConsumer σ) (msg : ConsumerMessage)
    (sess : Nat) (left : Int) (hc : BetweenCalls c) :
    (¬ (((window c ++ [some msg]).length : Int) = c.BatchSize ∨ left = 0) →
      ∃ c2, attach c msg sess left = .ok c2 ∧ c2.callBackBuffer = c.callBackBuffer ∧
        window c2 = window c ++ [some msg]) ∧
    ((((window c ++ [some msg]).length : Int) = c.BatchSize ∨ left = 0) →
      (c.callBackBuffer.length < bufferLength →
        ∃ c2, attach c msg sess left = .ok c2 ∧
          c2.callBackBuffer = c.callBackBuffer ++ [window c ++ [some msg]] ∧
          c2.currentIndex = 0 ∧ c2.MessageBuffer = none ∧ window c2 = []) ∧
      (¬ c.callBackBuffer.length < bufferLength →
        ∃ c2, attach c msg sess left = .blocked c2 ∧ c2.callBackBuffer = c.callBackBuffer ∧
          window c2 = window c ++ [some msg] ∧
          ∀ q : List Batch, q.length < bufferLength →
            sendToCallback { c2 with callBackBuffer := q } =
              .ok { c2 with
                callBackBuffer := q ++ [window c ++ [some msg]]
                MessageBuffer := none
                currentIndex := 0 })) := by
  have hwl := window_length c hc.1
  have hlen : ((window c ++ [some msg]).length : Int) = c.currentIndex + 1 := by
    rw [List.length_append, List.length_singleton]
    push_cast
    omega
  have hst := stored_consistent c msg sess hc
  have hwin := window_stored c msg sess hc
  rw [hlen, attach_eq c msg sess left hc]
  refine ⟨fun hf => ?_, fun hf => ⟨fun hroom => ?_, fun hroom => ?_⟩⟩
  · rw [if_neg hf]
    exact ⟨_, rfl, rfl, hwin⟩
  · have hroom2 : (stored c msg sess).callBackBuffer.length < bufferLength := hroom
    rw [if_pos hf, sendToCallback_eq _ hst, if_pos hroom2]
    refine ⟨_, rfl, ?_, rfl, rfl, window_flushed _⟩
    show c.callBackBuffer ++ [window (stored c msg sess)] = _
    rw [hwin]
  · have hroom2 : ¬ (stored c msg sess).callBackBuffer.length < bufferLength := hroom
    rw [if_pos hf, sendToCallback_eq _ hst, if_neg hroom2]
    refine ⟨_, rfl, rfl, hwin, fun q hq => ?_⟩
    have hst2 : Consistent ({ stored c msg sess with callBackBuffer := q } : batchConsumer σ) :=
      hst
    have hq2 : ({ stored c msg sess with callBackBuffer := q } :
        batchConsumer σ).callBackBuffer.length < bufferLength := hq
    rw [sendToCallback_eq _ hst2, if_pos hq2]
    have hw2 : window ({ stored c msg sess with callBackBuffer := q } : batchConsumer σ) =
        window c ++ [some msg] := hwin
    simp only [flushed, hw2]

/-- C3 amended, on a fresh consumer of batch size 2: attaching one record with nothing
left behind it sends the batch made of that record and resets the window. -/
theorem C3_attach_appends_and_flushes_witness :
    BetweenCalls (newBatchConsumer 2 0 (some acceptAll)) ∧
      ∃ c2, attach (newBatchConsumer 2 0 (some acceptAll)) (sampleRecord "t" 0 1) 7 0 = .ok c2 ∧
        c2.callBackBuffer =
          (newBatchConsumer 2 0 (some acceptAll)).callBackBuffer ++
            [window (newBatchConsumer 2 0 (some acceptAll)) ++ [some (sampleRecord "t" 0 1)]] ∧
        c2.currentIndex = 0 ∧ c2.MessageBuffer = none ∧ window c2 = [] :=
  have h : BetweenCalls (newBatchConsumer 2 0 (some acceptAll)) := by
    refine ⟨⟨rfl, ?_, ?_, ?_, ?_, rfl⟩, ?_⟩ <;> decide
  ⟨h, ((C3_attach_appends_and_flushes (newBatchConsumer 2 0 (some acceptAll))
    (sampleRecord "t" 0 1) 7 0 h).2 (Or.inr rfl)).1 (by decide)⟩

/-- C4: after any sequence of moves on a consumer built by `newBatchConsumer`
with a callback, calls of `attach` made while another call is parked
included, in every state the sequence reaches: every batch sent to the
dispatch queue and every batch held by a parked call has at least one and at
most `BatchSize` records, a batch of fewer than `BatchSize` records was made
by an `attach` call whose `left` was 0, and every batch handed to the callback
is one of the batches sent. -/
theorem C4_batch_length_bounds {σ : Type} (batchSize batchInterval : Int)
    (cb : ConsumerCallback σ) (app : σ) (moves : List Move) (hsize : batchSize < 2 ^ 31)
    (t : Tasks σ)
    (hreach : execAll (Tasks.init batchSize batchInterval (some cb) app) moves = some t) :
    t.sys.c.BatchSize = (if batchSize < 1 then 1 else batchSize) ∧
      (∀ p ∈ t.sys.sent ++ t.parked, 1 ≤ p.1.length ∧ (p.1.length : Int) ≤ t.sys.c.BatchSize ∧
        ((p.1.length : Int) < t.sys.c.BatchSize → p.2 = 0)) ∧
      (∀ bv ∈ t.sys.handled, ∃ left, (bv.1, left) ∈ t.sys.sent) := by
  obtain ⟨h1, h2⟩ := execAll_sound moves _ t (init_sound batchSize batchInterval cb app hsize) hreach
  refine ⟨by rw [h2]; rfl, h1.sizes, fun bv hbv => ?_⟩
  have hmem : bv.1 ∈ t.sys.sent.map Prod.fst := by
    rw [h1.queue]
    exact List.mem_append_left _ (List.mem_map_of_mem _ hbv)
  obtain ⟨p, hp, hpe⟩ := List.mem_map.mp hmem
  exact ⟨p.2, by rw [← hpe]; exact hp⟩

/-- C4, on `overlappingClaims` with batch size 3, where a second claim calls
`attach` while a call is parked: nine batches of one record are sent, each by
a call with `left = 0`. -/
theorem C4_batch_length_bounds_witness :
    (execAll (Tasks.init 3 0 (some acceptAll) ()) overlappingClaims).map
        (fun t => (t.sys.sent.map (fun p => (p.1.length, p.2)), t.sys.handled.length)) =
        some (List.replicate 9 (1, 0), 1) ∧
      ∃ t, execAll (Tasks.init 3 0 (some acceptAll) ()) overlappingClaims = some t ∧
        t.sys.c.BatchSize = (if (3 : Int) < 1 then 1 else 3) ∧
        (∀ p ∈ t.sys.sent ++ t.parked, 1 ≤ p.1.length ∧
          (p.1.length : Int) ≤ t.sys.c.BatchSize ∧
          ((p.1.length : Int) < t.sys.c.BatchSize → p.2 = 0)) ∧
        (∀ bv ∈ t.sys.handled, ∃ left, (bv.1, left) ∈ t.sys.sent) := by
  refine ⟨by decide, ?_⟩
  have h : (execAll (Tasks.init 3 0 (some acceptAll) ()) overlappingClaims).isSome = true := by
    decide
  obtain ⟨t, ht⟩ := Option.isSome_iff_exists.mp h
  exact ⟨t, ht, C4_batch_length_bounds 3 0 acceptAll () overlappingClaims (by norm_num) t ht⟩

/-- C5, as stated, fails: on a consumer of batch size 3 with the dispatch
queue full, a call with `left = 0` is parked holding a batch of one record;
the claim of partition 1 then attaches a record with more behind it, which is
stored and not flushed; when `run` has taken a batch and the parked call is
resumed, its reset empties the window. No call is parked at the end, ten
records were attached, and the batches sent followed by the window hold nine:
the record of partition 1 is in neither. -/
theorem C5_counterexample :
    (execAll (Tasks.init 3 0 (some acceptAll) ()) overlappingClaims).map
        (fun t => (t.parked.length, t.sys.attached.length,
          ((t.sys.sent.map Prod.fst).flatten ++ window t.sys.c).length,
          decide (sampleRecord "t" 1 100 ∈ t.sys.attached),
          decide (some (sampleRecord "t" 1 100) ∈
            (t.sys.sent.map Prod.fst).flatten ++ window t.sys.c))) =
        some (0, 10, 9, true, false) ∧
      attachedOf (eventsOf overlappingClaims) =
        (List.range 9).map (fun i => sampleRecord "t" 0 (i : Int)) ++ [sampleRecord "t" 1 100] := by
  refine ⟨by decide, by decide⟩

/-- C5, amended: after any sequence of moves whose calls of `attach` do not
overlap (no call starts while another is parked at the send), on a consumer
with a callback, the batches sent to the dispatch queue, concatenated in the
order they were sent and followed by the records in the window, are the
records attached, in the order they were attached; a parked call holds the
window, which joins the batches sent when the call is resumed. When the last
`attach` had `left = 0` and no call is parked, the batches sent are all the
records attached. -/
theorem C5_batches_partition_the_records {σ : Type} (batchSize batchInterval : Int)
    (cb : ConsumerCallback σ) (app : σ) (moves : List Move) (hsize : batchSize < 2 ^ 31)
    (hclose : closeCount (eventsOf moves) ≤ 1)
    (hseq : noOverlap (Tasks.init batchSize batchInterval (some cb) app) moves = true) :
    ∃ t, execAll (Tasks.init batchSize batchInterval (some cb) app) moves = some t ∧
      (t.sys.sent.map Prod.fst).flatten ++ window t.sys.c = t.sys.attached.map some ∧
      t.sys.attached = attachedOf (eventsOf moves) ∧
      (t.parked = [] ∨ ∃ left, t.parked = [(window t.sys.c, left)]) ∧
      (lastLeft (eventsOf moves) = some 0 → t.parked = [] →
        (t.sys.sent.map Prod.fst).flatten = (attachedOf (eventsOf moves)).map some) := by
  obtain ⟨t, k1, k2, _, _, k5, k6⟩ :=
    execAll_orderly moves (Tasks.init batchSize batchInterval (some cb) app)
      (init_orderly batchSize batchInterval cb app hsize) hseq
      (by simpa [Tasks.init, System.init, newBatchConsumer] using hclose)
  have hatt : t.sys.attached = attachedOf (eventsOf moves) := by
    simpa [Tasks.init, System.init] using k5
  obtain ⟨hinv, _, hpark⟩ := k2
  refine ⟨t, k1, hinv.history, hatt, ?_, fun hl hq => ?_⟩
  · rcases hpark with ⟨hp, _⟩ | ⟨left, hp, _, _⟩
    · exact Or.inl hp
    · exact Or.inr ⟨left, hp⟩
  · have hh := hinv.history
    rw [k6 (Or.inl hl) hq, List.append_nil, hatt] at hh
    exact hh

/-- C5 amended, on five records attached with batch size 3 and `left` values
4, 3, 2, 1, 0: the batches sent are records 1 to 3, then records 4 and 5. -/
theorem C5_batches_partition_the_records_witness :
    ((3 : Int) < 2 ^ 31 ∧ closeCount (eventsOf fiveRecordsHandled) ≤ 1 ∧
      noOverlap (Tasks.init 3 0 (some acceptAll) ()) fiveRecordsHandled = true) ∧
      (∃ t, execAll (Tasks.init 3 0 (some acceptAll) ()) fiveRecordsHandled = some t ∧
        (t.sys.sent.map Prod.fst).flatten ++ window t.sys.c = t.sys.attached.map some ∧
        t.sys.attached = attachedOf (eventsOf fiveRecordsHandled) ∧
        (t.parked = [] ∨ ∃ left, t.parked = [(window t.sys.c, left)]) ∧
        (lastLeft (eventsOf fiveRecordsHandled) = some 0 → t.parked = [] →
          (t.sys.sent.map Prod.fst).flatten =
            (attachedOf (eventsOf fiveRecordsHandled)).map some)) ∧
      (execAll (Tasks.init 3 0 (some acceptAll) ()) fiveRecordsHandled).map
          (fun t => t.sys.handled.map Prod.fst) =
        some [[some (sampleRecord "t" 0 1), some (sampleRecord "t" 0 2),
               some (sampleRecord "t" 0 3)],
              [some (sampleRecord "t" 0 4), some (sampleRecord "t" 0 5)]] :=
  ⟨⟨by norm_num, by decide, by decide⟩,
    C5_batches_partition_the_records 3 0 acceptAll () fiveRecordsHandled (by norm_num)
      (by decide) (by decide),
    by decide⟩


/-- C6: in any state reached by a consumer with a callback in which `run` is
alive and the dispatch queue is not empty, the batch `run` pulls has a last
record and the session is stored; `run` hands the batch to the callback and,
if the callback returns true, calls `MarkOffset` once, for the topic and
partition of the last record of the batch, and then `Commit` once, both on the
stored session; if the callback returns false it makes no call. -/
theorem C6_mark_and_commit_iff_accepted {σ : Type} (batchSize batchInterval : Int)
    (cb : ConsumerCallback σ) (app : σ) (evs : List Event) (hsize : batchSize < 2 ^ 31)
    (hclose : closeCount evs ≤ 1) (s : System σ)
    (hreach : (exec (System.init batchSize batchInterval (some cb) app) evs).state? = some s)
    (hrun : s.running = true) (msgs : Batch) (rest : List Batch)
    (hq : s.c.callBackBuffer = msgs :: rest) :
    ∃ sess m s2, s.c.Session = some sess ∧ msgs.getLast? = some (some m) ∧
      step s .dispatch = .ok s2 ∧ s2.c.callBackBuffer = rest ∧
      s2.handled = s.handled ++ [(msgs, (cb s.app msgs).1)] ∧
      ((cb s.app msgs).1 = true →
        ∃ pos, s2.calls = s.calls ++
          [SessionCall.MarkOffset sess m.Topic m.Partition pos "", SessionCall.Commit sess]) ∧
      ((cb s.app msgs).1 = false → s2.calls = s.calls) := by
  obtain ⟨s1, h1, h2, _, h4, _, _⟩ := exec_init batchSize batchInterval cb app evs hsize hclose
  rw [hreach] at h1
  cases Option.some.inj h1
  have hmem : msgs ∈ s.sent.map Prod.fst := by
    rw [h2.queue, hq]
    simp
  obtain ⟨cb2, sess, m, hcb, hsess, hlast, hrb⟩ := runBatch_eq s h2 msgs hmem
  rw [h4] at hcb
  cases Option.some.inj hcb
  have hstep : step s .dispatch = .ok
      { s with
        c := { s.c with callBackBuffer := rest }
        app := (cb s.app msgs).2
        calls := s.calls ++
          (if (cb s.app msgs).1 then
            [SessionCall.MarkOffset sess m.Topic m.Partition (wrapInt64 (m.Offset + 1)) "",
             SessionCall.Commit sess]
          else [])
        handled := s.handled ++ [(msgs, (cb s.app msgs).1)] } := by
    simp only [step, hrun, hq, hrb, if_true]
  refine ⟨sess, m, _, hsess, hlast, hstep, rfl, rfl, ?_, ?_⟩
  · intro hv
    exact ⟨wrapInt64 (m.Offset + 1), by simp [hv]⟩
  · intro hv
    simp [hv]

/-- C6, on the first batch waiting after `fiveRecords`. -/
theorem C6_mark_and_commit_iff_accepted_witness :
    ((3 : Int) < 2 ^ 31 ∧ closeCount fiveRecords ≤ 1 ∧
      (exec (System.init 3 0 (some acceptAll) ()) fiveRecords).state? = some afterFiveRecords ∧
      afterFiveRecords.running = true ∧
      afterFiveRecords.c.callBackBuffer =
        [some (sampleRecord "t" 0 1), some (sampleRecord "t" 0 2), some (sampleRecord "t" 0 3)] ::
          [[some (sampleRecord "t" 0 4), some (sampleRecord "t" 0 5)]]) ∧
      ∃ sess m s2, afterFiveRecords.c.Session = some sess ∧
        [some (sampleRecord "t" 0 1), some (sampleRecord "t" 0 2),
          some (sampleRecord "t" 0 3)].getLast? = some (some m) ∧
        step afterFiveRecords .dispatch = .ok s2 ∧
        s2.c.callBackBuffer = [[some (sampleRecord "t" 0 4), some (sampleRecord "t" 0 5)]] ∧
        s2.handled = afterFiveRecords.handled ++
          [([some (sampleRecord "t" 0 1), some (sampleRecord "t" 0 2),
              some (sampleRecord "t" 0 3)],
            (acceptAll afterFiveRecords.app
              [some (sampleRecord "t" 0 1), some (sampleRecord "t" 0 2),
                some (sampleRecord "t" 0 3)]).1)] ∧
        ((acceptAll afterFiveRecords.app
            [some (sampleRecord "t" 0 1), some (sampleRecord "t" 0 2),
              some (sampleRecord "t" 0 3)]).1 = true →
          ∃ pos, s2.calls = afterFiveRecords.calls ++
            [SessionCall.MarkOffset sess m.Topic m.Partition pos "",
              SessionCall.Commit sess]) ∧
        ((acceptAll afterFiveRecords.app
            [some (sampleRecord "t" 0 1), some (sampleRecord "t" 0 2),
              some (sampleRecord "t" 0 3)]).1 = false →
          s2.calls = afterFiveRecords.calls) :=
  ⟨⟨by norm_num, by decide, rfl, rfl, rfl⟩,
    C6_mark_and_commit_iff_accepted 3 0 acceptAll () fiveRecords (by norm_num) (by decide)
      afterFiveRecords rfl rfl _ _ rfl⟩

/-- C7, as stated, fails: for a batch whose last record has offset 5 and whose
callback returns true, the position marked is 6, not 5. -/
theorem C7_counterexample :
    (exec (System.init 3 0 (some acceptAll) ())
        [.attach (sampleRecord "t" 0 5) 7 0, .dispatch]).state?.map
        (fun s => markedPositions "t" 0 s.calls) = some [6] ∧
      (6 : Int) ≠ (sampleRecord "t" 0 5).Offset := by
  decide

/-- C7, amended: when the callback returns true on the batch `run` pulls, the
position `run` marks for the topic and partition of the last record of the
batch is the offset of that record plus one, computed in `int64`; it is the
offset plus one for every offset below the largest `int64`. -/
theorem C7_marks_one_past_last_offset {σ : Type} (batchSize batchInterval : Int)
    (cb : ConsumerCallback σ) (app : σ) (evs : List Event) (hsize : batchSize < 2 ^ 31)
    (hclose : closeCount evs ≤ 1) (s : System σ)
    (hreach : (exec (System.init batchSize batchInterval (some cb) app) evs).state? = some s)
    (hrun : s.running = true) (msgs : Batch) (rest : List Batch)
    (hq : s.c.callBackBuffer = msgs :: rest) (hv : (cb s.app msgs).1 = true) :
    ∃ m s2, msgs.getLast? = some (some m) ∧ step s .dispatch = .ok s2 ∧
      markedPositions m.Topic m.Partition s2.calls =
        markedPositions m.Topic m.Partition s.calls ++ [wrapInt64 (m.Offset + 1)] ∧
      (-2 ^ 63 ≤ m.Offset → m.Offset + 1 < 2 ^ 63 → wrapInt64 (m.Offset + 1) = m.Offset + 1) := by
  obtain ⟨s1, h1, h2, _, h4, _, _⟩ := exec_init batchSize batchInterval cb app evs hsize hclose
  rw [hreach] at h1
  cases Option.some.inj h1
  have hmem : msgs ∈ s.sent.map Prod.fst := by
    rw [h2.queue, hq]
    simp
  obtain ⟨cb2, sess, m, hcb, hsess, hlast, hrb⟩ := runBatch_eq s h2 msgs hmem
  rw [h4] at hcb
  cases Option.some.inj hcb
  have hstep : step s .dispatch = .ok
      { s with
        c := { s.c with callBackBuffer := rest }
        app := (cb s.app msgs).2
        calls := s.calls ++
          (if (cb s.app msgs).1 then
            [SessionCall.MarkOffset sess m.Topic m.Partition (wrapInt64 (m.Offset + 1)) "",
             SessionCall.Commit sess]
          else [])
        handled := s.handled ++ [(msgs, (cb s.app msgs).1)] } := by
    simp only [step, hrun, hq, hrb, if_true]
  refine ⟨m, _, hlast, hstep, ?_, fun h0 h1 => wrapInt64_succ _ h0 h1⟩
  show markedPositions m.Topic m.Partition (s.calls ++ _) = _
  rw [markedPositions_append]
  simp [hv, markedPositions]

/-- C7 amended, on the first batch waiting after `fiveRecords`. -/
theorem C7_marks_one_past_last_offset_witness :
    ((3 : Int) < 2 ^ 31 ∧ closeCount fiveRecords ≤ 1 ∧
      (exec (System.init 3 0 (some acceptAll) ()) fiveRecords).state? = some afterFiveRecords ∧
      afterFiveRecords.running = true ∧
      afterFiveRecords.c.callBackBuffer =
        [some (sampleRecord "t" 0 1), some (sampleRecord "t" 0 2), some (sampleRecord "t" 0 3)] ::
          [[some (sampleRecord "t" 0 4), some (sampleRecord "t" 0 5)]] ∧
      (acceptAll afterFiveRecords.app
        [some (sampleRecord "t" 0 1), some (sampleRecord "t" 0 2),
          some (sampleRecord "t" 0 3)]).1 = true) ∧
      ∃ m s2, [some (sampleRecord "t" 0 1), some (sampleRecord "t" 0 2),
          some (sampleRecord "t" 0 3)].getLast? = some (some m) ∧
        step afterFiveRecords .dispatch = .ok s2 ∧
        markedPositions m.Topic m.Partition s2.calls =
          markedPositions m.Topic m.Partition afterFiveRecords.calls ++
            [wrapInt64 (m.Offset + 1)] ∧
        (-2 ^ 63 ≤ m.Offset → m.Offset + 1 < 2 ^ 63 →
          wrapInt64 (m.Offset + 1) = m.Offset + 1) :=
  ⟨⟨by norm_num, by decide, rfl, rfl, rfl, rfl⟩,
    C7_marks_one_past_last_offset 3 0 acceptAll () fiveRecords (by norm_num) (by decide)
      afterFiveRecords rfl rfl _ _ rfl rfl⟩


/-- The records of two slices, one after the other. -/
theorem records_append (a b : Batch) : records (a ++ b) = records a ++ records b := by
  simp [records, List.filterMap_append]

/-- The records of a slice of non-nil pointers. -/
theorem records_map_some (l : List ConsumerMessage) : records (l.map some) = l := by
  induction l with
  | nil => rfl
  | cons a l ih =>
    simp only [records] at ih
    simp [records, ih]

/-- The offsets of one topic and partition in two lists of records, one after
the other. -/
theorem offsetsOf_append (topic : String) (partition : Int) (a b : List ConsumerMessage) :
    offsetsOf topic partition (a ++ b) =
      offsetsOf topic partition a ++ offsetsOf topic partition b := by
  simp [offsetsOf]

/-- The last record of a batch is one of its records. -/
theorem lastRecord_mem (b : Batch) (m : ConsumerMessage) (h : lastRecord b = some m) :
    m ∈ records b := by
  unfold lastRecord at h
  cases hl : b.getLast? with
  | none => rw [hl] at h; cases h
  | some x =>
    rw [hl] at h
    have hx : x = some m := by simpa using h
    have hmem : some m ∈ b := by
      rw [← hx]
      exact List.mem_of_getLast?_eq_some hl
    simp only [records, List.mem_filterMap]
    exact ⟨some m, hmem, rfl⟩

/-- The positions marked for handled batches are, in order, among the
positions one past the offsets of the records of those batches. -/
theorem marksOfHandled_sublist (topic : String) (partition : Int) (h : List (Batch × Bool)) :
    List.Sublist (marksOfHandled topic partition h)
      ((offsetsOf topic partition (records (h.map Prod.fst).flatten)).map
        (fun o => wrapInt64 (o + 1))) := by
  induction h with
  | nil => exact List.Sublist.slnil
  | cons x rest ih =>
    obtain ⟨b, v⟩ := x
    have hsplit : (offsetsOf topic partition
        (records (((b, v) :: rest).map Prod.fst).flatten)).map (fun o => wrapInt64 (o + 1)) =
        (offsetsOf topic partition (records b)).map (fun o => wrapInt64 (o + 1)) ++
          (offsetsOf topic partition (records (rest.map Prod.fst).flatten)).map
            (fun o => wrapInt64 (o + 1)) := by
      simp [records_append, offsetsOf_append]
    rw [hsplit]
    have hskip : List.Sublist (marksOfHandled topic partition rest)
        ((offsetsOf topic partition (records b)).map (fun o => wrapInt64 (o + 1)) ++
          (offsetsOf topic partition (records (rest.map Prod.fst).flatten)).map
            (fun o => wrapInt64 (o + 1))) :=
      ih.trans (List.sublist_append_right _ _)
    cases v with
    | false => simpa [marksOfHandled] using hskip
    | true =>
      cases hl : lastRecord b with
      | none => simpa [marksOfHandled, hl] using hskip
      | some m =>
        by_cases hm : m.Topic = topic ∧ m.Partition = partition
        · have hin : wrapInt64 (m.Offset + 1) ∈
              (offsetsOf topic partition (records b)).map (fun o => wrapInt64 (o + 1)) := by
            refine List.mem_map.mpr ⟨m.Offset, ?_, rfl⟩
            simp only [offsetsOf, List.mem_map, List.mem_filter]
            exact ⟨m, ⟨lastRecord_mem b m hl, by simpa using hm⟩, rfl⟩
          have hone : List.Sublist [wrapInt64 (m.Offset + 1)]
              ((offsetsOf topic partition (records b)).map (fun o => wrapInt64 (o + 1))) :=
            List.singleton_sublist.mpr hin
          have := hone.append ih
          simpa [marksOfHandled, hl, hm] using this
        · simpa [marksOfHandled, hl, hm] using hskip

/-- Every position marked for handled batches is one past the offset of the
last record of a batch the callback accepted. -/
theorem marksOfHandled_mem (topic : String) (partition : Int) (h : List (Batch × Bool))
    (pos : Int) (hpos : pos ∈ marksOfHandled topic partition h) :
    ∃ bv ∈ h, ∃ m, bv.2 = true ∧ lastRecord bv.1 = some m ∧ m.Topic = topic ∧
      m.Partition = partition ∧ pos = wrapInt64 (m.Offset + 1) := by
  induction h with
  | nil => simp [marksOfHandled] at hpos
  | cons x rest ih =>
    obtain ⟨b, v⟩ := x
    have hrest : pos ∈ marksOfHandled topic partition rest →
        ∃ bv ∈ (b, v) :: rest, ∃ m, bv.2 = true ∧ lastRecord bv.1 = some m ∧ m.Topic = topic ∧
          m.Partition = partition ∧ pos = wrapInt64 (m.Offset + 1) := by
      intro hp
      obtain ⟨bv, hbv, hm⟩ := ih hp
      exact ⟨bv, List.mem_cons_of_mem _ hbv, hm⟩
    cases v with
    | false => exact hrest (by simpa [marksOfHandled] using hpos)
    | true =>
      cases hl : lastRecord b with
      | none => exact hrest (by simpa [marksOfHandled, hl] using hpos)
      | some m =>
        by_cases hm : m.Topic = topic ∧ m.Partition = partition
        · have hp : pos = wrapInt64 (m.Offset + 1) ∨ pos ∈ marksOfHandled topic partition rest := by
            simpa [marksOfHandled, hl, hm] using hpos
          rcases hp with hp | hp
          · exact ⟨(b, true), List.mem_cons_self _ _, m, rfl, hl, hm.1, hm.2, hp⟩
          · exact hrest hp
        · exact hrest (by simpa [marksOfHandled, hl, hm] using hpos)

/-- In a consistent history the records attached are the records of the
batches handled, followed by those still in the queue or in the window. -/
theorem attached_eq_handled_append {σ : Type} (s : System σ) (hs : Inv s) :
    s.attached = records (s.handled.map Prod.fst).flatten ++
      records (s.c.callBackBuffer.flatten ++ window s.c) := by
  have h := hs.history
  rw [hs.queue, List.flatten_append, List.append_assoc] at h
  have h2 := congrArg records h
  rw [records_map_some, records_append] at h2
  exact h2.symm

/-- C8, as stated, fails: with one partition fed in increasing offset order, a
callback that rejects the batch holding offset 0 and accepts the batch holding
offset 1 makes `run` mark position 2, which lies beyond the record of offset 0
although the callback rejected its batch. -/
theorem C8_counterexample :
    (offsetsOf "t" 0 (attachedOf twoBatches)).Pairwise (· < ·) ∧
      (exec (System.init 1 0 (some rejectFirst) 0) twoBatches).state? = some afterTwoBatches ∧
      afterTwoBatches.handled =
        [([some (sampleRecord "t" 0 0)], false), ([some (sampleRecord "t" 0 1)], true)] ∧
      markedPositions "t" 0 afterTwoBatches.calls = [2] ∧
      ¬ MarksOnlyPastAccepted "t" 0 afterTwoBatches := by
  refine ⟨by decide, rfl, rfl, by decide, fun h => ?_⟩
  have hfalse := h ([some (sampleRecord "t" 0 0)], false) (by decide)
    (sampleRecord "t" 0 0) (by decide) rfl rfl 2 (by decide) (by decide)
  cases hfalse

/-- C8, amended: when the records of one topic and partition are attached in
increasing offset order, with offsets below the largest `int64`, the positions
marked for that topic and partition increase (so they never decrease), and
every one of them is the offset plus one of the last record of a batch that
the callback accepted. -/
theorem C8_marks_increase {σ : Type} (batchSize batchInterval : Int)
    (cb : ConsumerCallback σ) (app : σ) (evs : List Event) (hsize : batchSize < 2 ^ 31)
    (hclose : closeCount evs ≤ 1) (topic : String) (partition : Int)
    (hinc : (offsetsOf topic partition (attachedOf evs)).Pairwise (· < ·))
    (hrange : ∀ m ∈ attachedOf evs, -2 ^ 63 ≤ m.Offset ∧ m.Offset + 1 < 2 ^ 63) :
    ∃ s, (exec (System.init batchSize batchInterval (some cb) app) evs).state? = some s ∧
      (markedPositions topic partition s.calls).Pairwise (· < ·) ∧
      ∀ pos ∈ markedPositions topic partition s.calls,
        ∃ bv ∈ s.handled, ∃ m, bv.2 = true ∧ lastRecord bv.1 = some m ∧ m.Topic = topic ∧
          m.Partition = partition ∧ pos = m.Offset + 1 := by
  obtain ⟨s, h1, h2, _, _, h5, _⟩ := exec_init batchSize batchInterval cb app evs hsize hclose
  have hatt := attached_eq_handled_append s h2
  have hsub : List.Sublist (records (s.handled.map Prod.fst).flatten) (attachedOf evs) := by
    refine List.Sublist.trans ?_ h5.sublist
    rw [hatt]
    exact List.sublist_append_left _ _
  have hoff : List.Sublist (offsetsOf topic partition (records (s.handled.map Prod.fst).flatten))
      (offsetsOf topic partition (attachedOf evs)) :=
    (hsub.filter _).map _
  have hwrap : ∀ o ∈ offsetsOf topic partition (attachedOf evs), wrapInt64 (o + 1) = o + 1 := by
    intro o ho
    simp only [offsetsOf, List.mem_map, List.mem_filter] at ho
    obtain ⟨m, ⟨hm, _⟩, rfl⟩ := ho
    exact wrapInt64_succ _ (hrange m hm).1 (hrange m hm).2
  have hpw : ((offsetsOf topic partition (attachedOf evs)).map
      (fun o => wrapInt64 (o + 1))).Pairwise (· < ·) := by
    rw [List.pairwise_map]
    refine hinc.imp_of_mem ?_
    intro a b ha hb hab
    rw [hwrap a ha, hwrap b hb]
    omega
  refine ⟨s, h1, ?_, fun pos hpos => ?_⟩
  · rw [h2.marks]
    exact hpw.sublist ((marksOfHandled_sublist topic partition s.handled).trans (hoff.map _))
  · rw [h2.marks] at hpos
    obtain ⟨bv, hbv, m, hv, hl, ht, hp, he⟩ := marksOfHandled_mem topic partition s.handled pos hpos
    refine ⟨bv, hbv, m, hv, hl, ht, hp, ?_⟩
    have hm : m ∈ attachedOf evs := by
      refine hsub.subset ?_
      have hmb := lastRecord_mem bv.1 m hl
      simp only [records, List.mem_filterMap, List.mem_flatten, List.mem_map] at hmb ⊢
      obtain ⟨x, hx, hxe⟩ := hmb
      exact ⟨x, ⟨bv.1, ⟨bv, hbv, rfl⟩, hx⟩, hxe⟩
    rw [he]
    exact wrapInt64_succ _ (hrange m hm).1 (hrange m hm).2

/-- C8 amended, on two batches of one partition with offsets 0 and 1, the
first rejected and the second accepted. -/
theorem C8_marks_increase_witness :
    ((1 : Int) < 2 ^ 31 ∧ closeCount twoBatches ≤ 1 ∧
      (offsetsOf "t" 0 (attachedOf twoBatches)).Pairwise (· < ·) ∧
      ∀ m ∈ attachedOf twoBatches, -2 ^ 63 ≤ m.Offset ∧ m.Offset + 1 < 2 ^ 63) ∧
      ∃ s, (exec (System.init 1 0 (some rejectFirst) 0) twoBatches).state? = some s ∧
        (markedPositions "t" 0 s.calls).Pairwise (· < ·) ∧
        ∀ pos ∈ markedPositions "t" 0 s.calls,
          ∃ bv ∈ s.handled, ∃ m, bv.2 = true ∧ lastRecord bv.1 = some m ∧ m.Topic = "t" ∧
            m.Partition = 0 ∧ pos = m.Offset + 1 :=
  have hrange : ∀ m ∈ attachedOf twoBatches, -2 ^ 63 ≤ m.Offset ∧ m.Offset + 1 < 2 ^ 63 := by
    intro m hm
    simp only [twoBatches, attachedOf, List.mem_cons, List.mem_singleton, List.not_mem_nil,
      or_false] at hm
    rcases hm with rfl | rfl <;> simp [sampleRecord]
  ⟨⟨by norm_num, by decide, by decide, hrange⟩,
    C8_marks_increase 1 0 rejectFirst 0 twoBatches (by norm_num) (by decide) "t" 0 (by decide)
      hrange⟩

/-- C9, as stated, fails: two partition claims of one topic feed the same
consumer, and a record of partition 0 followed by a record of partition 1 with
nothing buffered behind it leaves in one batch. -/
theorem C9_counterexample :
    twoClaims = some [[some (sampleRecord "t" 0 10), some (sampleRecord "t" 1 20)]] ∧
      ¬ SinglePartition [some (sampleRecord "t" 0 10), some (sampleRecord "t" 1 20)] := by
  refine ⟨by decide, fun h => ?_⟩
  have hne := h (sampleRecord "t" 0 10) (by decide) (sampleRecord "t" 1 20) (by decide)
  exact absurd hne (by decide)

/-- C9, amended: when all the records attached to a consumer come from one
partition, every batch sent holds records of that partition only. -/
theorem C9_one_claim_one_partition {σ : Type} (batchSize batchInterval : Int)
    (cb : ConsumerCallback σ) (app : σ) (evs : List Event) (hsize : batchSize < 2 ^ 31)
    (hclose : closeCount evs ≤ 1) (partition : Int)
    (hone : ∀ m ∈ attachedOf evs, m.Partition = partition) :
    ∃ s, (exec (System.init batchSize batchInterval (some cb) app) evs).state? = some s ∧
      ∀ p ∈ s.sent, (∀ m ∈ records p.1, m.Partition = partition) ∧ SinglePartition p.1 := by
  obtain ⟨s, h1, h2, _, _, h5, _⟩ := exec_init batchSize batchInterval cb app evs hsize hclose
  refine ⟨s, h1, fun p hp => ?_⟩
  have hall : ∀ m ∈ records p.1, m.Partition = partition := by
    intro m hm
    simp only [records, List.mem_filterMap] at hm
    obtain ⟨x, hx, hxe⟩ := hm
    obtain ⟨m2, hm2, hatt⟩ := sent_all_some s h2 p.1 (List.mem_map_of_mem _ hp) x hx
    rw [hm2] at hxe
    have hmm : m2 = m := by simpa using hxe
    rw [← hmm]
    exact hone m2 (h5.subset hatt)
  exact ⟨hall, fun m1 h1 m2 h2 => by rw [hall m1 h1, hall m2 h2]⟩

/-- C9 amended, on five records of partition 0. -/
theorem C9_one_claim_one_partition_witness :
    ((3 : Int) < 2 ^ 31 ∧ closeCount fiveRecords ≤ 1 ∧
      ∀ m ∈ attachedOf fiveRecords, m.Partition = 0) ∧
      ∃ s, (exec (System.init 3 0 (some acceptAll) ()) fiveRecords).state? = some s ∧
        ∀ p ∈ s.sent, (∀ m ∈ records p.1, m.Partition = 0) ∧ SinglePartition p.1 :=
  ⟨⟨by norm_num, by decide, by decide⟩,
    C9_one_claim_one_partition 3 0 acceptAll () fiveRecords (by norm_num) (by decide) 0
      (by decide)⟩

/-- C10, at the failing input: group `a` with topic `bc` and group `ab` with
topic `c` are two distinct pairs, yet after both are registered the registry
holds a single consumer, under the key `abc`, with the batch size 3 and the
accepting callback of the first registration; and a record of topic `c`
consumed under group `ab` is attached to that consumer. -/
theorem C10_key_collision :
    (("a", "bc") : String × String) ≠ ("ab", "c") ∧
      twoRegistrations.map
          (fun g => (g.groupConsumers.getD []).map (fun p => (p.1, p.2.BatchSize))) =
        some [("abc", 3)] ∧
      routedAfterTwoRegistrations =
        some [("abc", 3, some true, [[some (sampleRecord "c" 0 0)]])] := by
  refine ⟨by decide, by decide, rfl⟩

end kafka

end Golanglib

/-! ## Theorems: the connection supervisor, the publisher and the subscriber -/

namespace Golanglib

namespace rabbitmq

/-- The result of `waitConn` is not connected exactly when it carries an error. -/
theorem waitConn_error_iff {σ : Type} (m : client σ) (late : Option Bool) :
    (waitConn m late).2.1 = false ↔ (waitConn m late).2.2 ≠ none := by
  unfold waitConn
  cases hc : m.isConnected with
  | true => simp
  | false =>
    cases hq : m.connectMsg with
    | cons b rest => cases b <;> simp
    | nil =>
      cases hcl : m.connectMsgClosed with
      | true => simp
      | false =>
        cases late with
        | none => simp
        | some b => cases b <;> simp

/-- C11, at the failing input: for a message whose serialization fails, on a
connected client and a broker that accepts everything, `Publish` and
`PublishDelay` both return a nil error, and both have sent a message (with the
empty body the failed serialization returned). -/
theorem C11_marshal_error_is_dropped :
    (failingMarshal ()).2 = some "json: unsupported type: chan int" ∧
      (Publish failingMarshal connectedWorld () "ex" "key" okPublish).result? = some none ∧
      (Publish failingMarshal connectedWorld () "ex" "key" okPublish).world.calls =
        connectedWorld.calls ++
          [AmqpCall.ExchangeDeclare "ex" "topic" true false false false,
           AmqpCall.Publish "ex" "key" false false [] ""] ∧
      (PublishDelay failingMarshal connectedWorld () "ex" "key" 1500 okPublish).result? =
        some none ∧
      (PublishDelay failingMarshal connectedWorld () "ex" "key" 1500 okPublish).world.calls =
        connectedWorld.calls ++
          [AmqpCall.ExchangeDeclare "ex" "topic" true false false false,
           AmqpCall.QueueDeclare "DelayQueueTemp" true false false false
             [("x-dead-letter-exchange", "ex"), ("x-dead-letter-routing-key", "key")],
           AmqpCall.Publish "" "DelayQueueTemp" false false [] "1500"] := by
  refine ⟨rfl, by decide, by decide, by decide, by decide⟩

/-- C12: `Publish` returns the error of `waitConn`, with no call made on the
channel, when `waitConn` reports not connected; on an initialised connection
it returns the error of `ExchangeDeclare`, with the declaration as the only
call made, when the declaration fails; and when both steps succeed it makes
the declaration and then the send, and returns the error of the send. -/
theorem C12_publish_error_paths {σ μ : Type} (marshal : μ → List Nat × Option String)
    (w : World σ) (message : μ) (exchangeName routingKey : String) (ans : PublishAnswers) :
    ((waitConn w.m ans.wait).2.1 = false →
      Publish marshal w message exchangeName routingKey ans =
        .ret { w with m := (waitConn w.m ans.wait).1 } (waitConn w.m ans.wait).2.2) ∧
    ((waitConn w.m ans.wait).2.1 = true →
      (waitConn w.m ans.wait).1.conn.isSome = true →
      (waitConn w.m ans.wait).1.channel.isSome = true →
      (∀ e, ans.exchangeDeclare = some e →
        Publish marshal w message exchangeName routingKey ans =
          .ret { w with
              m := (waitConn w.m ans.wait).1
              calls := w.calls ++
                [AmqpCall.ExchangeDeclare exchangeName exchangeType true false false false] }
            (some e)) ∧
      (ans.exchangeDeclare = none →
        Publish marshal w message exchangeName routingKey ans =
          .ret { w with
              m := (waitConn w.m ans.wait).1
              calls := w.calls ++
                [AmqpCall.ExchangeDeclare exchangeName exchangeType true false false false] ++
                [AmqpCall.Publish exchangeName routingKey false false (marshal message).1 ""] }
            ans.publish)) := by
  refine ⟨fun hw => ?_, fun hw hconn hch => ⟨fun e he => ?_, fun he => ?_⟩⟩
  · simp [Publish, hw]
  · obtain ⟨c, hc⟩ := Option.isSome_iff_exists.mp hconn
    obtain ⟨ch, hch2⟩ := Option.isSome_iff_exists.mp hch
    simp [Publish, hw, hc, hch2, he]
  · obtain ⟨c, hc⟩ := Option.isSome_iff_exists.mp hconn
    obtain ⟨ch, hch2⟩ := Option.isSome_iff_exists.mp hch
    simp [Publish, hw, hc, hch2, he]

/-- C12, on a connected client: with a failing declaration nothing is sent,
and with a broker that accepts everything the declaration and the send are
made in that order. -/
theorem C12_publish_error_paths_witness :
    ((waitConn connectedWorld.m okPublish.wait).2.1 = true ∧
      (waitConn connectedWorld.m okPublish.wait).1.conn.isSome = true ∧
      (waitConn connectedWorld.m okPublish.wait).1.channel.isSome = true ∧
      okPublish.exchangeDeclare = none) ∧
      Publish okMarshal connectedWorld () "ex" "key" okPublish =
        .ret { connectedWorld with
            m := (waitConn connectedWorld.m okPublish.wait).1
            calls := connectedWorld.calls ++
              [AmqpCall.ExchangeDeclare "ex" exchangeType true false false false] ++
              [AmqpCall.Publish "ex" "key" false false (okMarshal ()).1 ""] }
          okPublish.publish :=
  ⟨⟨rfl, rfl, rfl, rfl⟩,
    ((C12_publish_error_paths okMarshal connectedWorld () "ex" "key" okPublish).2 rfl rfl rfl).2
      rfl⟩

/-- C13: whenever `PublishDelay` returns a nil error, the calls it made on the
channel are the declaration of the exchange, the declaration of the queue
`DelayQueueTemp`, durable, with the arguments `x-dead-letter-exchange` set to
the exchange and `x-dead-letter-routing-key` set to the routing key, and the
send to the default exchange with the name of the queue returned by that
declaration as routing key and the decimal string of the delay as expiration. -/
theorem C13_publish_delay_calls {σ μ : Type} (marshal : μ → List Nat × Option String)
    (w : World σ) (message : μ) (exchangeName routingKey : String) (delay : Int)
    (ans : PublishAnswers) (w2 : World σ)
    (hok : PublishDelay marshal w message exchangeName routingKey delay ans = .ret w2 none) :
    ∃ queueName, ans.queueDeclare = .ok queueName ∧
      w2.calls = w.calls ++
        [AmqpCall.ExchangeDeclare exchangeName "topic" true false false false,
         AmqpCall.QueueDeclare "DelayQueueTemp" true false false false
           [("x-dead-letter-exchange", exchangeName),
            ("x-dead-letter-routing-key", routingKey)],
         AmqpCall.Publish "" queueName false false (marshal message).1 (Itoa delay)] := by
  unfold PublishDelay at hok
  cases hw : (waitConn w.m ans.wait).2.1 with
  | false =>
    simp only [hw, Bool.not_false, if_true, Exit.ret.injEq] at hok
    exact absurd hok.2 ((waitConn_error_iff w.m ans.wait).mp hw)
  | true =>
    simp only [hw, Bool.not_true, Bool.false_eq_true, if_false] at hok
    cases hc : (waitConn w.m ans.wait).1.conn with
    | none => simp [hc] at hok
    | some c =>
      cases hch : (waitConn w.m ans.wait).1.channel with
      | none => simp [hc, hch] at hok
      | some ch =>
        cases he : ans.exchangeDeclare with
        | some e => simp [hc, hch, he] at hok
        | none =>
          cases hq : ans.queueDeclare with
          | error e => simp [hc, hch, he, hq] at hok
          | ok queueName =>
            simp only [hc, hch, he, hq, Exit.ret.injEq] at hok
            refine ⟨queueName, rfl, ?_⟩
            rw [← hok.1]
            simp [exchangeType, delayQueueName]


/-- C13, on a connected client and a broker that accepts everything, with a
delay of 1500 milliseconds. -/
theorem C13_publish_delay_calls_witness :
    PublishDelay okMarshal connectedWorld () "ex" "key" 1500 okPublish =
        .ret (PublishDelay okMarshal connectedWorld () "ex" "key" 1500 okPublish).world none ∧
      ∃ queueName, okPublish.queueDeclare = .ok queueName ∧
        (PublishDelay okMarshal connectedWorld () "ex" "key" 1500 okPublish).world.calls =
          connectedWorld.calls ++
            [AmqpCall.ExchangeDeclare "ex" "topic" true false false false,
             AmqpCall.QueueDeclare "DelayQueueTemp" true false false false
               [("x-dead-letter-exchange", "ex"), ("x-dead-letter-routing-key", "key")],
             AmqpCall.Publish "" queueName false false (okMarshal ()).1 (Itoa 1500)] :=
  ⟨rfl, C13_publish_delay_calls okMarshal connectedWorld () "ex" "key" 1500 okPublish _ rfl⟩

/-- C14, at the failing input: a fresh client connects with no waiter parked,
the broker drops the connection and the next dial fails. The client is then
not connected and the signal of the first connect is still buffered; a
`waitConn` called now receives it and returns connected with a nil error,
while `isConnected` is false. -/
theorem C14_stale_signal_reports_connected :
    (handleReconnect (World.new "amqp://broker" "/" "demo" 10 ()) dropThenFail).world.m.isConnected
        = false ∧
      (handleReconnect (World.new "amqp://broker" "/" "demo" 10 ()) dropThenFail).world.m.connectMsg
        = [true] ∧
      (waitConn
        (handleReconnect (World.new "amqp://broker" "/" "demo" 10 ()) dropThenFail).world.m
        none).2 = (true, none) ∧
      (waitConn
        (handleReconnect (World.new "amqp://broker" "/" "demo" 10 ()) dropThenFail).world.m
        none).1.isConnected = false := by
  refine ⟨by decide, by decide, by decide, by decide⟩

/-- C15: `waitConn` returns `(true, nil)` when the client is connected or the
signal it receives is true; `(false, "Wait connect timeout.")` when the
deadline elapses with no signal; `(false, "Client has closed.")` when the
signal it receives is false or the signal queue is closed. Its result is not
connected exactly when the error is not nil, and the deadline is
`reconnectDelay * maxWaitNum`, 2 seconds times 10, 20 seconds. -/
theorem C15_waitConn_classification {σ : Type} (m : client σ) (late : Option Bool) :
    (m.isConnected = true → (waitConn m late).2 = (true, none)) ∧
    (m.isConnected = false →
      (((∃ rest, m.connectMsg = true :: rest) ∨
          (m.connectMsg = [] ∧ m.connectMsgClosed = false ∧ late = some true)) →
        (waitConn m late).2 = (true, none)) ∧
      ((m.connectMsg = [] ∧ m.connectMsgClosed = false ∧ late = none) →
        (waitConn m late).2 = (false, some "Wait connect timeout.")) ∧
      (((∃ rest, m.connectMsg = false :: rest) ∨
          (m.connectMsg = [] ∧ m.connectMsgClosed = true) ∨
          (m.connectMsg = [] ∧ m.connectMsgClosed = false ∧ late = some false)) →
        (waitConn m late).2 = (false, some "Client has closed."))) ∧
    ((waitConn m late).2.1 = false ↔ (waitConn m late).2.2 ≠ none) ∧
    (waitDeadline = 20 * second ∧ reconnectDelay = 2 * second ∧ maxWaitNum = 10) := by
  refine ⟨fun hc => ?_, fun hc => ⟨fun h => ?_, fun h => ?_, fun h => ?_⟩,
    waitConn_error_iff m late, by decide, rfl, rfl⟩
  · simp [waitConn, hc]
  · rcases h with ⟨rest, h⟩ | ⟨h1, h2, h3⟩
    · simp [waitConn, hc, h]
    · simp [waitConn, hc, h1, h2, h3]
  · obtain ⟨h1, h2, h3⟩ := h
    simp [waitConn, hc, h1, h2, h3]
  · rcases h with ⟨rest, h⟩ | ⟨h1, h2⟩ | ⟨h1, h2, h3⟩
    · simp [waitConn, hc, h]
    · simp [waitConn, hc, h1, h2]
    · simp [waitConn, hc, h1, h2, h3]

/-- C16, at the failing input: a fresh client connects with no waiter parked,
the broker drops the connection and the next dial and channel succeed. The
second `doConn` is then parked at `m.connectMsg <- true`: the signal of the
first connect is still in the only slot. A `Close` after the first connect is
parked at `m.connectMsg <- false` in the same way. -/
theorem C16_second_signal_finds_slot_full :
    (handleReconnect (World.new "amqp://broker" "/" "demo" 10 ()) dropThenReconnect).isParked
        = true ∧
      (handleReconnect (World.new "amqp://broker" "/" "demo" 10 ())
        dropThenReconnect).world.m.connectMsg = [true] ∧
      (handleReconnect (World.new "amqp://broker" "/" "demo" 10 ())
        dropThenReconnect).world.calls =
        [AmqpCall.Dial "amqp://broker" "/" "demo" 10, AmqpCall.OpenChannel 1,
         AmqpCall.NotifyClose 1, AmqpCall.Sleep reconnectDelay, AmqpCall.ChannelClose 1,
         AmqpCall.ConnClose 1, AmqpCall.Dial "amqp://broker" "/" "demo" 10,
         AmqpCall.OpenChannel 2, AmqpCall.NotifyClose 2] ∧
      (doConn (handleReconnect (World.new "amqp://broker" "/" "demo" 10 ())
        dropThenFail).world (okConn 2 2)).isParked = true ∧
      (client.Close connectedWorld okClose).isParked = true := by
  refine ⟨by decide, by decide, by decide, by decide, by decide⟩

/-- A first connect attempt that fails leaves the recovery loop parked in its
`select`: `done` is open and `notifyClose` is nil, so no case can fire. -/
theorem handleReconnect_parked_of_first_failure {σ : Type} (app : σ)
    (addr vHost connName : String) (heartbeat : Int) (r : Round) (rest : List Round)
    (hfail : errorOf r.conn.dial ≠ none ∨ errorOf r.conn.openChannel ≠ none) :
    (handleReconnect (World.new addr vHost connName heartbeat app) (r :: rest)).isParked = true ∧
      dialCount
        (handleReconnect (World.new addr vHost connName heartbeat app) (r :: rest)).world.calls
        = 1 := by
  obtain ⟨c, lost, pick⟩ := r
  obtain ⟨dial, openChannel, rw, cons⟩ := c
  cases dial with
  | error e =>
    cases lost <;> cases pick <;>
      simp [handleReconnect, doConn, World.new, NewClient, readyCases, selectCase,
        connectionLost, Exit.isParked, Exit.world, dialCount]
  | ok conn =>
    cases openChannel with
    | error e =>
      cases lost <;> cases pick <;>
        simp [handleReconnect, doConn, World.new, NewClient, readyCases, selectCase,
          connectionLost, Exit.isParked, Exit.world, dialCount]
    | ok ch => simp [errorOf] at hfail

/-- C17, at the failing input: when the first dial of a fresh client fails (or
the dial succeeds and the channel fails), the recovery loop sleeps
`reconnectDelay` and is then parked in its `select` for good, whatever the
broker does afterwards: one connect attempt is made and no other follows,
although the broker is reachable again. -/
theorem C17_no_retry_after_first_failure :
    (handleReconnect (World.new "amqp://broker" "/" "demo" 10 ()) failThenReachable).isParked
        = true ∧
      (handleReconnect (World.new "amqp://broker" "/" "demo" 10 ())
        failThenReachable).world.calls =
        [AmqpCall.Dial "amqp://broker" "/" "demo" 10, AmqpCall.Sleep reconnectDelay] ∧
      (∀ (lost : Bool) (pick : ReconnectCase) (rest : List Round),
        (handleReconnect (World.new "amqp://broker" "/" "demo" 10 ())
            ({ conn := failDial, lost := lost, pick := pick } :: rest)).isParked = true ∧
          dialCount (handleReconnect (World.new "amqp://broker" "/" "demo" 10 ())
            ({ conn := failDial, lost := lost, pick := pick } :: rest)).world.calls = 1) ∧
      (∀ (lost : Bool) (pick : ReconnectCase) (rest : List Round),
        (handleReconnect (World.new "amqp://broker" "/" "demo" 10 ())
            ({ conn := failChannel, lost := lost, pick := pick } :: rest)).isParked = true ∧
          dialCount (handleReconnect (World.new "amqp://broker" "/" "demo" 10 ())
            ({ conn := failChannel, lost := lost, pick := pick } :: rest)).world.calls = 1) := by
  refine ⟨by decide, by decide, fun lost pick rest => ?_, fun lost pick rest => ?_⟩
  · exact handleReconnect_parked_of_first_failure () _ _ _ _ _ rest (Or.inl (by simp [failDial, errorOf]))
  · exact handleReconnect_parked_of_first_failure () _ _ _ _ _ rest
      (Or.inr (by simp [failChannel, errorOf]))

/-- C18, as stated, fails: a second `batchConsumer.Close` panics, and so does a
second `client.Close` after a first one that completed. -/
theorem C18_counterexample :
    ((kafka.newBatchConsumer 3 0 (some kafka.acceptAll)).Close.bind
        kafka.batchConsumer.Close).isNone = true ∧
      (client.Close connectedWorldWaited okClose).result? = some none ∧
      (client.Close (client.Close connectedWorldWaited okClose).world okClose).panicMsg? =
        some "close of closed channel" := by
  refine ⟨by decide, by decide, by decide⟩

/-- C18, amended: `Close` can be called once. The first `batchConsumer.Close`
returns with `done` closed, and the first `client.Close` of a client that has a
channel and a connection, with `done` open and an empty open signal queue,
returns the error of `conn.Close` with `done` closed, `isConnected` false and
the signal queue closed. A second call of either does not return: it panics on
closing `done` again. -/
theorem C18_close_once {σ τ : Type} (c : kafka.batchConsumer σ) (w : World τ)
    (ans ans2 : CloseAnswers) (channel conn : Nat) (hc : c.done = false)
    (hch : w.m.channel = some channel) (hconn : w.m.conn = some conn)
    (hdone : w.m.done = false) (hopen : w.m.connectMsgClosed = false)
    (hempty : w.m.connectMsg = []) :
    (c.Close = some { c with done := true } ∧
      kafka.batchConsumer.Close ({ c with done := true } : kafka.batchConsumer σ) = none) ∧
    (∃ w2, client.Close w ans = .ret w2 ans.connClose ∧ w2.m.done = true ∧
      w2.m.isConnected = false ∧ w2.m.connectMsgClosed = true ∧
      ∃ w3, client.Close w2 ans2 = .panic w3 "close of closed channel") := by
  refine ⟨⟨by simp [kafka.batchConsumer.Close, hc], by simp [kafka.batchConsumer.Close]⟩, ?_⟩
  cases hr : ans.receiverWaiting with
  | true =>
    refine ⟨{ w with
        m := { w.m with done := true, isConnected := false, connectMsgClosed := true }
        calls := w.calls ++ [AmqpCall.ChannelClose channel] ++ [AmqpCall.ConnClose conn] },
      ?_, rfl, rfl, rfl, ?_⟩
    · simp [client.Close, hch, hconn, hdone, sendSignal, hopen, hempty, hr]
    · refine ⟨{ w with
          m := { w.m with done := true, isConnected := false, connectMsgClosed := true }
          calls := w.calls ++ [AmqpCall.ChannelClose channel] ++ [AmqpCall.ConnClose conn] ++
            [AmqpCall.ChannelClose channel] ++ [AmqpCall.ConnClose conn] }, ?_⟩
      simp [client.Close, hch, hconn]
  | false =>
    refine ⟨{ w with
        m := { w.m with
          done := true, isConnected := false, connectMsg := [false], connectMsgClosed := true }
        calls := w.calls ++ [AmqpCall.ChannelClose channel] ++ [AmqpCall.ConnClose conn] },
      ?_, rfl, rfl, rfl, ?_⟩
    · simp [client.Close, hch, hconn, hdone, sendSignal, hopen, hempty, hr, connectMsgCap]
    · refine ⟨{ w with
          m := { w.m with
            done := true, isConnected := false, connectMsg := [false], connectMsgClosed := true }
          calls := w.calls ++ [AmqpCall.ChannelClose channel] ++ [AmqpCall.ConnClose conn] ++
            [AmqpCall.ChannelClose channel] ++ [AmqpCall.ConnClose conn] }, ?_⟩
      simp [client.Close, hch, hconn]

/-- C18 amended, on a fresh batch consumer and on a connected client whose
signal queue is empty. -/
theorem C18_close_once_witness :
    ((kafka.newBatchConsumer 3 0 (some kafka.acceptAll)).done = false ∧
      connectedWorldWaited.m.channel = some 1 ∧ connectedWorldWaited.m.conn = some 1 ∧
      connectedWorldWaited.m.done = false ∧ connectedWorldWaited.m.connectMsgClosed = false ∧
      connectedWorldWaited.m.connectMsg = []) ∧
    ((kafka.newBatchConsumer 3 0 (some kafka.acceptAll)).Close =
        some { kafka.newBatchConsumer 3 0 (some kafka.acceptAll) with done := true } ∧
      kafka.batchConsumer.Close
        ({ kafka.newBatchConsumer 3 0 (some kafka.acceptAll) with done := true } :
          kafka.batchConsumer Unit) = none) ∧
    (∃ w2, client.Close connectedWorldWaited okClose = .ret w2 okClose.connClose ∧
      w2.m.done = true ∧ w2.m.isConnected = false ∧ w2.m.connectMsgClosed = true ∧
      ∃ w3, client.Close w2 okClose = .panic w3 "close of closed channel") :=
  ⟨⟨rfl, rfl, rfl, rfl, rfl, rfl⟩,
    C18_close_once (kafka.newBatchConsumer 3 0 (some kafka.acceptAll)) connectedWorldWaited
      okClose okClose 1 1 rfl rfl rfl rfl rfl rfl⟩


/-- C19: once `doConsume` is past `waitConn` on a client with a channel, an
error of the exchange declaration, of the queue declaration, of the queue
binding or of the consumer registration makes it panic with the context and
the error joined by a colon and a space, with no handler call and no terminal
action made; and `failOnError` panics exactly when its error is not nil, with
that message. -/
theorem C19_declaration_errors_panic {σ : Type} (w : World σ) (ans : ConsumeAnswers)
    (hw : (waitConn w.m ans.wait).2.1 = true)
    (hch : (waitConn w.m ans.wait).1.channel.isSome = true) :
    (∀ e, ans.exchangeDeclare = some e →
      (doConsume w ans).panicMsg? = some ("Failed to register an Exchange: " ++ e) ∧
        (doConsume w ans).world.settles = w.settles ∧ (doConsume w ans).world.app = w.app) ∧
    (ans.exchangeDeclare = none → ∀ e, ans.queueDeclare = .error e →
      (doConsume w ans).panicMsg? = some ("Failed to register an Queue: " ++ e) ∧
        (doConsume w ans).world.settles = w.settles ∧ (doConsume w ans).world.app = w.app) ∧
    (ans.exchangeDeclare = none → ∀ q, ans.queueDeclare = .ok q →
      ∀ e, ans.queueBind = some e →
        (doConsume w ans).panicMsg? = some ("Failed to register an Queue: " ++ e) ∧
          (doConsume w ans).world.settles = w.settles ∧ (doConsume w ans).world.app = w.app) ∧
    (ans.exchangeDeclare = none → ∀ q, ans.queueDeclare = .ok q → ans.queueBind = none →
      ∀ e, ans.consume = .error e →
        (doConsume w ans).panicMsg? = some ("Failed to register a consumer: " ++ e) ∧
          (doConsume w ans).world.settles = w.settles ∧ (doConsume w ans).world.app = w.app) ∧
    (∀ (err : Option String) (msg : String),
      ((failOnError err msg).isSome = true ↔ err.isSome = true) ∧
      ∀ e, err = some e → failOnError err msg = some (msg ++ ": " ++ e)) := by
  obtain ⟨ch, hch2⟩ := Option.isSome_iff_exists.mp hch
  refine ⟨fun e he => ?_, fun hx e he => ?_, fun hx q hq e he => ?_,
    fun hx q hq hb e he => ?_, fun err msg => ⟨?_, fun e he => ?_⟩⟩
  · simp [doConsume, hw, hch2, he, failOnError, Exit.panicMsg?, Exit.world]
  · simp [doConsume, hw, hch2, hx, he, failOnError, errorOf, Exit.panicMsg?, Exit.world]
  · simp [doConsume, hw, hch2, hx, hq, he, failOnError, errorOf, Exit.panicMsg?, Exit.world]
  · simp [doConsume, hw, hch2, hx, hq, hb, he, failOnError, errorOf, Exit.panicMsg?, Exit.world]
  · cases err <;> simp [failOnError]
  · simp [failOnError, he]

/-- C19, on a connected client whose exchange declaration is refused. -/
theorem C19_declaration_errors_panic_witness :
    ((waitConn connectedWorld.m none).2.1 = true ∧
      (waitConn connectedWorld.m none).1.channel.isSome = true) ∧
    ((doConsume connectedWorld
        { okConsume with exchangeDeclare := some "access refused" }).panicMsg? =
        some ("Failed to register an Exchange: " ++ "access refused") ∧
      (doConsume connectedWorld
        { okConsume with exchangeDeclare := some "access refused" }).world.settles =
        connectedWorld.settles ∧
      (doConsume connectedWorld
        { okConsume with exchangeDeclare := some "access refused" }).world.app =
        connectedWorld.app) :=
  ⟨⟨rfl, rfl⟩,
    (C19_declaration_errors_panic connectedWorld
      { okConsume with exchangeDeclare := some "access refused" } rfl rfl).1 "access refused" rfl⟩

end rabbitmq

namespace kafka

/-- C20, at the failing input: when the offset query fails and the admin
handle closes cleanly, `GetMessageLastOffset` returns the offset -1 with a nil
error. -/
theorem C20_query_error_is_overwritten :
    errorOf_listOffsets failingQuery "g" "t" 0 = some "kafka: broker not connected" ∧
      (GetMessageLastOffset failingQuery (Globals.initial : Globals Unit) "t" "g" 0).2 =
        (-1, none) := by
  refine ⟨rfl, by decide⟩

end kafka

end Golanglib

/-! ## Theorems: the offset lookup, the registry and the window bounds -/

namespace Golanglib

namespace kafka

/-- What `GetMessageLastOffset` leaves in `groupCluster` once it has an
address and a cluster admin handle (cached, or created by this call): a
failed query leaves it nil when closing the handle succeeds and leaves the
handle cached when closing fails; a query that succeeds keeps the handle. -/
theorem groupCluster_after_query {σ : Type} (env : OffsetEnv) (g : Globals σ)
    (topic groupId : String) (partition : Int) (h : Nat)
    (haddr : g.groupAddress ≠ [] ∨ ∃ a, env.kafkaAddress = some a ∧ a ≠ [])
    (hcl : g.groupCluster = some h ∨ (g.groupCluster = none ∧ env.newClusterAdmin = .ok h)) :
    (errorOf_listOffsets env groupId topic partition ≠ none → env.close = none →
      (GetMessageLastOffset env g topic groupId partition).1.groupCluster = none) ∧
    (errorOf_listOffsets env groupId topic partition ≠ none → env.close ≠ none →
      (GetMessageLastOffset env g topic groupId partition).1.groupCluster = some h) ∧
    (errorOf_listOffsets env groupId topic partition = none →
      (GetMessageLastOffset env g topic groupId partition).1.groupCluster = some h) := by
  have hlen : ∀ a : List String, a ≠ [] → ¬ a.length = 0 :=
    fun a ha hz => ha (List.length_eq_zero.mp hz)
  unfold GetMessageLastOffset errorOf_listOffsets
  rcases haddr with ha | ⟨a, ha, hane⟩
  · have h1 := hlen _ ha
    rcases hcl with hc | ⟨hc, hn⟩
    · cases hq : env.listOffsets groupId topic partition with
      | error e => cases hcls : env.close <;> simp [h1, hc]
      | ok r => cases r <;> simp [h1, hc]
    · cases hq : env.listOffsets groupId topic partition with
      | error e => cases hcls : env.close <;> simp [h1, hc, hn]
      | ok r => cases r <;> simp [h1, hc, hn]
  · have h1 := hlen _ hane
    by_cases h0 : g.groupAddress.length = 0
    · rcases hcl with hc | ⟨hc, hn⟩
      · cases hq : env.listOffsets groupId topic partition with
        | error e => cases hcls : env.close <;> simp [h0, h1, ha, hc]
        | ok r => cases r <;> simp [h0, h1, ha, hc]
      · cases hq : env.listOffsets groupId topic partition with
        | error e => cases hcls : env.close <;> simp [h0, h1, ha, hc, hn]
        | ok r => cases r <;> simp [h0, h1, ha, hc, hn]
    · rcases hcl with hc | ⟨hc, hn⟩
      · cases hq : env.listOffsets groupId topic partition with
        | error e => cases hcls : env.close <;> simp [h0, hc]
        | ok r => cases r <;> simp [h0, hc]
      · cases hq : env.listOffsets groupId topic partition with
        | error e => cases hcls : env.close <;> simp [h0, hc, hn]
        | ok r => cases r <;> simp [h0, hc, hn]

/-- C21, at the failing input: the offset query fails and closing the admin
handle fails too. The handle created by the call stays cached when the call
returns, and the next call, whose `NewClusterAdmin` would produce handle 2,
reuses handle 1: no fresh handle is created, against the comment above the
branch (on error, reconnect next time). -/
theorem C21_handle_kept_when_close_fails :
    errorOf_listOffsets failingQueryAndClose "g" "t" 0 = some "kafka: broker not connected" ∧
      failingQueryAndClose.close ≠ none ∧
      (GetMessageLastOffset failingQueryAndClose (Globals.initial : Globals Unit)
        "t" "g" 0).1.groupCluster = some 1 ∧
      (GetMessageLastOffset { failingQueryAndClose with newClusterAdmin := .ok 2 }
        (GetMessageLastOffset failingQueryAndClose (Globals.initial : Globals Unit)
          "t" "g" 0).1 "t" "g" 0).1.groupCluster = some 1 ∧
      (GetMessageLastOffset { failingQuery with newClusterAdmin := .ok 2 }
        (GetMessageLastOffset failingQuery (Globals.initial : Globals Unit)
          "t" "g" 0).1 "t" "g" 0).1.groupCluster = none := by
  refine ⟨rfl, by decide, by decide, by decide, by decide⟩

/-- Writing a key that a map does not hold adds the entry at the end. -/
theorem mapSet_of_mapGet_none {V : Type} (l : List (String × V)) (k : String) (v : V)
    (h : mapGet (some l) k = none) : mapSet (some l) k v = some (l ++ [(k, v)]) := by
  have hany : l.any (fun p => decide (p.1 = k)) = false := by
    simp only [mapGet, Option.map_eq_none', List.find?_eq_none] at h
    rw [List.any_eq_false]
    intro p hp
    simpa using h p hp
  simp [mapSet, hany]

/-- Reading a key right after writing it yields the value written. -/
theorem mapGet_mapSet {V : Type} (l : List (String × V)) (k : String) (v : V) :
    ∃ l2, mapSet (some l) k v = some l2 ∧ mapGet (some l2) k = some v := by
  induction l with
  | nil => exact ⟨[(k, v)], by simp [mapSet], by simp [mapGet]⟩
  | cons p rest ih =>
    obtain ⟨l2, h1, h2⟩ := ih
    by_cases hp : p.1 = k
    · refine ⟨(k, v) :: rest.map (fun q => if q.1 = k then (k, v) else q), ?_, ?_⟩
      · simp [mapSet, hp]
      · simp [mapGet]
    · by_cases hany : rest.any (fun q => decide (q.1 = k)) = true
      · refine ⟨p :: rest.map (fun q => if q.1 = k then (k, v) else q), ?_, ?_⟩
        · simp only [mapSet, List.any_cons, hany, Bool.or_true, if_true, List.map_cons, hp,
            if_false]
        · simp only [mapSet, hany, if_true, Option.some.injEq] at h1
          rw [← h1] at h2
          simpa [mapGet, List.find?_cons, hp] using h2
      · have hany2 : rest.any (fun q => decide (q.1 = k)) = false := Bool.eq_false_iff.mpr hany
        refine ⟨p :: (rest ++ [(k, v)]), ?_, ?_⟩
        · simp [mapSet, hany2, hp]
        · simp only [mapSet, hany2, Bool.false_eq_true, if_false, Option.some.injEq] at h1
          rw [← h1] at h2
          simpa [mapGet, List.find?_cons, hp] using h2

/-- C22: once the registries exist, `ReceiveMessage` for a group that has its
connection and a (group, topic) key that has its consumer changes no package
variable: the registered consumer, the group connection and the handler are
the ones registered before, whatever batch size and callback the call brings.
For a key that has no consumer it adds one built by `newBatchConsumer` from
the arguments of the call and changes nothing else; and for a group that has
no connection it stores the connection it creates and a handler of that group. -/
theorem C22_registered_once {σ : Type} (env : ReceiveEnv) (g : Globals σ)
    (topic groupId : String) (batchSize batchInterval : Int)
    (callback : Option (ConsumerCallback σ)) (gs : List (String × Nat))
    (hs : List (String × kafkaConsumerGroupHandler))
    (hinit : g.groupers = some gs) (hhand : g.groupHandlers = some hs) :
    (∀ gr c, mapGet g.groupers groupId = some gr →
      mapGet g.groupConsumers (groupId ++ topic) = some c →
      ReceiveMessage env g topic groupId batchSize batchInterval callback =
        some (g, env.consume)) ∧
    (∀ gr cs, mapGet g.groupers groupId = some gr → g.groupConsumers = some cs →
      mapGet g.groupConsumers (groupId ++ topic) = none →
      ReceiveMessage env g topic groupId batchSize batchInterval callback =
        some ({ g with groupConsumers := some (cs ++
          [(groupId ++ topic, newBatchConsumer batchSize batchInterval callback)]) },
          env.consume)) ∧
    (∀ gr c, mapGet g.groupers groupId = none → env.newConsumerGroup = .ok gr →
      mapGet g.groupConsumers (groupId ++ topic) = some c →
      ∃ g2, ReceiveMessage env g topic groupId batchSize batchInterval callback =
          some (g2, env.consume) ∧
        mapGet g2.groupers groupId = some gr ∧
        mapGet g2.groupHandlers groupId = some { GroupID := groupId } ∧
        g2.groupConsumers = g.groupConsumers) := by
  have hinit2 : receiveInit env g batchSize = (g, none) := by
    simp [receiveInit, hinit]
  refine ⟨fun gr c hgr hc => ?_, fun gr cs hgr hcs hc => ?_, fun gr c hgr henv hc => ?_⟩
  · simp [ReceiveMessage, hinit2, hgr, hc]
  · rw [hcs] at hc
    have hset := mapSet_of_mapGet_none cs (groupId ++ topic)
      (newBatchConsumer batchSize batchInterval callback) hc
    simp [ReceiveMessage, hinit2, hgr, hcs, hc, hset]
  · obtain ⟨gs2, hg1, hg2⟩ := mapGet_mapSet gs groupId gr
    obtain ⟨hs2, hh1, hh2⟩ := mapGet_mapSet hs groupId
      ({ GroupID := groupId } : kafkaConsumerGroupHandler)
    refine ⟨{ g with groupers := some gs2, groupHandlers := some hs2 }, ?_, hg2, hh2, rfl⟩
    have hc2 := hc
    rw [hinit] at hgr
    simp [ReceiveMessage, hinit2, hgr, henv, hinit, hhand, hg1, hh1, hc2]

/-- C22, on a second registration of group `g` and topic `t` with another
batch size and another callback. -/
theorem C22_registered_once_witness :
    (registeredOnce.groupers = some [("g", 1)] ∧
      registeredOnce.groupHandlers = some [("g", { GroupID := "g" })] ∧
      mapGet registeredOnce.groupers "g" = some 1 ∧
      mapGet registeredOnce.groupConsumers ("g" ++ "t") =
        some (newBatchConsumer 3 0 (some acceptAll))) ∧
    ReceiveMessage (sampleEnv 2) registeredOnce "t" "g" 5 0 (some rejectAll) =
      some (registeredOnce, (sampleEnv 2).consume) :=
  ⟨⟨rfl, rfl, rfl, rfl⟩,
    (C22_registered_once (sampleEnv 2) registeredOnce "t" "g" 5 0 (some rejectAll)
      [("g", 1)] [("g", { GroupID := "g" })] rfl rfl).1 1
      (newBatchConsumer 3 0 (some acceptAll)) rfl rfl⟩

end kafka

end Golanglib

namespace Golanglib

namespace kafka

/-- On a consumer between calls the write `MessageBuffer[currentIndex]` of
`attach` is within bounds, and `attach` does not panic. -/
theorem attach_in_bounds {σ : Type} (c : batchConsumer σ) (msg : ConsumerMessage) (sess : Nat)
    (left : Int) (hc : BetweenCalls c) :
    setIndex (c.MessageBuffer.getD (List.replicate c.BatchSize.toNat none)) c.currentIndex
        (some msg) ≠ none ∧
      (attach c msg sess left).state?.isSome = true := by
  have hl := buffer_length c hc.1
  have hst := stored_consistent c msg sess hc
  refine ⟨?_, ?_⟩
  · have h0 : 0 ≤ c.currentIndex := hc.1.2.2.2.1
    have hlt := hc.2
    unfold setIndex
    rw [if_pos ⟨h0, by omega⟩]
    simp
  · rw [attach_eq c msg sess left hc]
    by_cases hf : c.currentIndex + 1 = c.BatchSize ∨ left = 0
    · rw [if_pos hf, sendToCallback_eq _ hst]
      by_cases hroom : (stored c msg sess).callBackBuffer.length < bufferLength
      · rw [if_pos hroom]; rfl
      · rw [if_neg hroom]; rfl
    · rw [if_neg hf]; rfl

/-- On a consumer without a callback `attach` returns at once, so an event on
it, with `Close` not called twice, returns and leaves the buffer nil or as it
was, the index and the batch size as they were and the dispatch queue empty. -/
theorem step_nil_callback {σ : Type} (s : System σ) (e : Event) (hcb : s.c.CallBack = none)
    (hq : s.c.callBackBuffer = [])
    (hclose : closeCount [e] + (if s.c.done then 1 else 0) ≤ 1) :
    ∃ s1, step s e = .ok s1 ∧ s1.c.MessageBuffer = s.c.MessageBuffer ∧
      s1.c.currentIndex = s.c.currentIndex ∧ s1.c.BatchSize = s.c.BatchSize ∧
      s1.c.CallBack = none ∧ s1.c.callBackBuffer = [] ∧
      (if s1.c.done then 1 else 0) = closeCount [e] + (if s.c.done then 1 else 0) := by
  cases e with
  | attach msg sess left =>
    refine ⟨{ s with
        attached := s.attached ++ [msg]
        sent := s.sent ++
          (s.c.callBackBuffer.drop s.c.callBackBuffer.length).map (fun b => (b, left)) },
      by simp only [step, attach, hcb], rfl, rfl, rfl, hcb, hq, ?_⟩
    simp [closeCount]
  | dispatch =>
    refine ⟨s, ?_, rfl, rfl, rfl, hcb, hq, by simp [closeCount]⟩
    cases hrun : s.running <;> simp [step, hrun, hq]
  | close =>
    have hd : s.c.done = false := by
      cases h : s.c.done with
      | false => rfl
      | true => simp [closeCount, h] at hclose
    refine ⟨{ s with c := { s.c with done := true } }, ?_, rfl, rfl, rfl, hcb, hq, ?_⟩
    · simp [step, batchConsumer.Close, hd]
    · simp [closeCount, hd]
  | exit =>
    cases hd : s.c.done with
    | false =>
      exact ⟨s, by simp [step, hd], rfl, rfl, rfl, hcb, hq, by simp [closeCount, hd]⟩
    | true =>
      exact ⟨{ s with running := false }, by simp [step, hd], rfl, rfl, rfl, hcb, hq,
        by simp [closeCount, hd]⟩

/-- On a consumer without a callback no call is ever parked: any sequence of
moves in which `Close` is not called twice completes and leaves the buffer,
the index and the batch size as they were. -/
theorem execAll_nil_callback {σ : Type} (moves : List Move) :
    ∀ t : Tasks σ, t.sys.c.CallBack = none → t.sys.c.callBackBuffer = [] → t.parked = [] →
      closeCount (eventsOf moves) + (if t.sys.c.done then 1 else 0) ≤ 1 →
      ∃ t2, execAll t moves = some t2 ∧ t2.sys.c.MessageBuffer = t.sys.c.MessageBuffer ∧
        t2.sys.c.currentIndex = t.sys.c.currentIndex ∧
        t2.sys.c.BatchSize = t.sys.c.BatchSize ∧ t2.sys.c.CallBack = none ∧
        t2.parked = [] := by
  induction moves with
  | nil =>
    intro t hcb _ hp _
    exact ⟨t, rfl, rfl, rfl, rfl, hcb, hp⟩
  | cons m ms ih =>
    intro t hcb hq hp hclose
    rw [closeCount_eventsOf_cons] at hclose
    cases m with
    | resume =>
      have h1 : stepAll t .resume = some t := by simp [stepAll, hp]
      obtain ⟨t2, k1, k2, k3, k4, k5, k6⟩ :=
        ih t hcb hq hp (by simpa [eventsOf, closeCount] using hclose)
      exact ⟨t2, by simp only [execAll, h1]; exact k1, k2, k3, k4, k5, k6⟩
    | event e =>
      have hc2 : closeCount [e] + (if t.sys.c.done then 1 else 0) ≤ 1 := by
        have : closeCount (eventsOf [Move.event e]) = closeCount [e] := rfl
        omega
      obtain ⟨s1, h1, h2, h3, h4, h5, h6, h7⟩ := step_nil_callback t.sys e hcb hq hc2
      have hstep : stepAll t (.event e) = some { t with sys := s1 } := by
        simp only [stepAll, h1]
      have hc3 : closeCount (eventsOf ms) + (if s1.c.done then 1 else 0) ≤ 1 := by
        have : closeCount (eventsOf [Move.event e]) = closeCount [e] := rfl
        omega
      obtain ⟨t2, k1, k2, k3, k4, k5, k6⟩ := ih { t with sys := s1 } h5 h6 hp hc3
      exact ⟨t2, by simp only [execAll, hstep]; exact k1, by rw [k2]; exact h2,
        by rw [k3]; exact h3, by rw [k4]; exact h4, k5, k6⟩

/-- C24, as stated, fails: on a consumer of batch size 1 whose `run` has not
taken anything, the ninth call of `attach` is parked at the send with
`currentIndex` equal to `BatchSize`, and the call another claim makes then
panics at the write `MessageBuffer[currentIndex]`. -/
theorem C24_counterexample :
    (execAll (Tasks.init 1 0 (some acceptAll) ()) nineAttaches).map
        (fun t => (t.sys.c.currentIndex, t.sys.c.BatchSize, t.parked.length,
          (t.sys.c.MessageBuffer.map
            (fun buf => (setIndex buf t.sys.c.currentIndex
              (some (sampleRecord "t" 1 9))).isSome)))) = some (1, 1, 1, some false) ∧
      (execAll (Tasks.init 1 0 (some acceptAll) ())
        (nineAttaches ++ [.event (.attach (sampleRecord "t" 1 9) 7 5)])).isSome = false := by
  refine ⟨by decide, by decide⟩

/-- C24, amended: a consumer built by `newBatchConsumer` has the requested
batch size, or 1 when the requested size is below 1, so at least 1. Any
sequence of moves on it whose calls of `attach` do not overlap (no call starts
while another is parked at the send), with `Close` not called twice, never
panics; in every state it reaches `0 <= currentIndex <= BatchSize` and
`MessageBuffer` is nil exactly when the window is empty, that is right after
a flush or before the first record; and while no call is parked,
`currentIndex < BatchSize` and the next `attach` does not panic: with a
callback set its write `MessageBuffer[currentIndex]` is within bounds. -/
theorem C24_window_index_in_bounds {σ : Type} (batchSize batchInterval : Int)
    (callback : Option (ConsumerCallback σ)) (app : σ) (moves : List Move)
    (hsize : batchSize < 2 ^ 31) (hclose : closeCount (eventsOf moves) ≤ 1)
    (hseq : noOverlap (Tasks.init batchSize batchInterval callback app) moves = true) :
    (newBatchConsumer batchSize batchInterval callback).BatchSize =
        (if batchSize < 1 then 1 else batchSize) ∧
      1 ≤ (newBatchConsumer batchSize batchInterval callback).BatchSize ∧
      ∃ t, execAll (Tasks.init batchSize batchInterval callback app) moves = some t ∧
        t.sys.c.BatchSize = (newBatchConsumer batchSize batchInterval callback).BatchSize ∧
        0 ≤ t.sys.c.currentIndex ∧ t.sys.c.currentIndex ≤ t.sys.c.BatchSize ∧
        (t.sys.c.MessageBuffer = none ↔ t.sys.c.currentIndex = 0) ∧
        (t.parked = [] →
          t.sys.c.currentIndex < t.sys.c.BatchSize ∧
          ∀ msg sess left,
            (attach t.sys.c msg sess left).state?.isSome = true ∧
            (t.sys.c.CallBack.isSome = true →
              setIndex (t.sys.c.MessageBuffer.getD (List.replicate t.sys.c.BatchSize.toNat none))
                t.sys.c.currentIndex (some msg) ≠ none)) := by
  have hpos : (1 : Int) ≤ if batchSize < 1 then 1 else batchSize := by
    split <;> omega
  refine ⟨rfl, hpos, ?_⟩
  cases callback with
  | none =>
    obtain ⟨t, k1, k2, k3, k4, k5, k6⟩ :=
      execAll_nil_callback moves (Tasks.init batchSize batchInterval none app) rfl rfl rfl
        (by simpa [Tasks.init, System.init, newBatchConsumer] using hclose)
    have hidx : t.sys.c.currentIndex = 0 := k3
    have hbuf : t.sys.c.MessageBuffer = none := k2
    have hb : t.sys.c.BatchSize = if batchSize < 1 then 1 else batchSize := k4
    refine ⟨t, k1, k4, by omega, by omega, ⟨fun _ => hidx, fun _ => hbuf⟩, fun _ =>
      ⟨by omega, fun msg sess left => ⟨?_, ?_⟩⟩⟩
    · simp [attach, k5, Outcome.state?]
    · simp [k5]
  | some cb =>
    obtain ⟨t, k1, k2, k3, _, _, _⟩ :=
      execAll_orderly moves (Tasks.init batchSize batchInterval (some cb) app)
        (init_orderly batchSize batchInterval cb app hsize) hseq
        (by simpa [Tasks.init, System.init, newBatchConsumer] using hclose)
    obtain ⟨hinv, htight, hpark⟩ := k2
    refine ⟨t, k1, k3, hinv.consistent.2.2.2.1, hinv.consistent.2.2.2.2.1, htight, fun hq => ?_⟩
    have hr : t.sys.c.currentIndex < t.sys.c.BatchSize := by
      rcases hpark with ⟨_, hr⟩ | ⟨left, hp, _, _⟩
      · exact hr
      · rw [hq] at hp
        cases hp
    have hbc : BetweenCalls t.sys.c := ⟨hinv.consistent, hr⟩
    exact ⟨hr, fun msg sess left =>
      ⟨(attach_in_bounds t.sys.c msg sess left hbc).2,
        fun _ => (attach_in_bounds t.sys.c msg sess left hbc).1⟩⟩

/-- C24 amended, on five records attached with batch size 3 and the two
batches taken by `run`. -/
theorem C24_window_index_in_bounds_witness :
    ((3 : Int) < 2 ^ 31 ∧ closeCount (eventsOf fiveRecordsHandled) ≤ 1 ∧
      noOverlap (Tasks.init 3 0 (some acceptAll) ()) fiveRecordsHandled = true) ∧
      ∃ t, execAll (Tasks.init 3 0 (some acceptAll) ()) fiveRecordsHandled = some t ∧
        t.sys.c.BatchSize = (newBatchConsumer 3 0 (some acceptAll)).BatchSize ∧
        0 ≤ t.sys.c.currentIndex ∧ t.sys.c.currentIndex ≤ t.sys.c.BatchSize ∧
        (t.sys.c.MessageBuffer = none ↔ t.sys.c.currentIndex = 0) ∧
        (t.parked = [] →
          t.sys.c.currentIndex < t.sys.c.BatchSize ∧
          ∀ msg sess left,
            (attach t.sys.c msg sess left).state?.isSome = true ∧
            (t.sys.c.CallBack.isSome = true →
              setIndex (t.sys.c.MessageBuffer.getD (List.replicate t.sys.c.BatchSize.toNat none))
                t.sys.c.currentIndex (some msg) ≠ none)) :=
  ⟨⟨by norm_num, by decide, by decide⟩,
    (C24_window_index_in_bounds 3 0 (some acceptAll) () fiveRecordsHandled (by norm_num)
      (by decide) (by decide)).2.2⟩

end kafka

end Golanglib

/-! ## Theorems: the utilities -/

namespace Golanglib

namespace utility

/-- Sinking an item keeps the items. -/
theorem sink_perm {α : Type} (less : α → α → Bool) (x : α) (before : List α) :
    (sink less x before).Perm (x :: before) := by
  induction before with
  | nil => exact List.Perm.refl _
  | cons y rest ih =>
    by_cases h : less x y = true
    · simp only [sink, h, if_true]
      exact (List.Perm.cons y ih).trans (List.Perm.swap x y rest)
    · simp only [sink, h, Bool.false_eq_true, if_false]
      exact List.Perm.refl _

/-- The insertion loop keeps the items. -/
theorem insertionLoop_perm {α : Type} (less : α → α → Bool) (rest : List α) :
    ∀ placed : List α, (insertionLoop less placed rest).Perm (placed ++ rest) := by
  induction rest with
  | nil =>
    intro placed
    simp [insertionLoop]
  | cons x xs ih =>
    intro placed
    simp only [insertionLoop]
    refine (ih (sink less x placed)).trans ?_
    refine ((sink_perm less x placed).append_right xs).trans ?_
    simpa using (@List.perm_middle _ x placed xs).symm

/-- Sinking an item into items that are in order (last first) leaves them in
order, when `less` decides the order between the item and each of them. -/
theorem sink_pairwise {α : Type} (less : α → α → Bool) (R : α → α → Prop)
    (htrans : ∀ a b c, R a b → R b c → R a c) (x : α) (before : List α)
    (hdec : ∀ y ∈ before, (less x y = true → R x y) ∧ (less x y = false → R y x))
    (hord : before.Pairwise (fun a b => R b a)) :
    (sink less x before).Pairwise (fun a b => R b a) := by
  induction before with
  | nil => simp [sink]
  | cons y rest ih =>
    have hy := hdec y (List.mem_cons_self _ _)
    obtain ⟨hyrest, hrest⟩ := List.pairwise_cons.mp hord
    by_cases h : less x y = true
    · simp only [sink, h, if_true]
      refine List.pairwise_cons.mpr ⟨fun z hz => ?_, ih (fun z hz => hdec z (List.mem_cons_of_mem _ hz)) hrest⟩
      rcases List.mem_cons.mp ((sink_perm less x rest).subset hz) with hzx | hzr
      · rw [hzx]
        exact hy.1 h
      · exact hyrest z hzr
    · have hf : less x y = false := by simpa using h
      simp only [sink, hf, Bool.false_eq_true, if_false]
      refine List.pairwise_cons.mpr ⟨fun z hz => ?_, hord⟩
      rcases List.mem_cons.mp hz with hzy | hzr
      · rw [hzy]
        exact hy.2 hf
      · exact htrans z y x (hyrest z hzr) (hy.2 hf)

/-- The insertion loop puts the items in order, when `less` decides the order
between any two distinct items. -/
theorem insertionLoop_pairwise {α : Type} (less : α → α → Bool) (R : α → α → Prop)
    (htrans : ∀ a b c, R a b → R b c → R a c) (rest : List α) :
    ∀ placed : List α,
      (placed ++ rest).Pairwise
        (fun a b => (less a b = true → R a b) ∧ (less a b = false → R b a) ∧
          (less b a = true → R b a) ∧ (less b a = false → R a b)) →
      placed.Pairwise (fun a b => R b a) →
      (insertionLoop less placed rest).Pairwise R := by
  induction rest with
  | nil =>
    intro placed _ hord
    simp [insertionLoop, List.pairwise_reverse]
    exact hord
  | cons x xs ih =>
    intro placed hdec hord
    simp only [insertionLoop]
    have hperm : (sink less x placed ++ xs).Perm (placed ++ x :: xs) :=
      ((sink_perm less x placed).append_right xs).trans
        (by simpa using (@List.perm_middle _ x placed xs).symm)
    refine ih (sink less x placed) ?_ ?_
    · refine (List.Perm.pairwise_iff ?_ hperm).mpr hdec
      intro a b h
      exact ⟨h.2.2.1, h.2.2.2, h.1, h.2.1⟩
    · refine sink_pairwise less R htrans x placed (fun y hy => ?_) hord
      have hpw := List.pairwise_append.mp hdec
      have := hpw.2.2 y hy x (List.mem_cons_self _ _)
      exact ⟨this.2.2.1, this.2.2.2⟩

/-- What `lessItem` says about two items with different keys. -/
theorem lessItem_of_ne {α : Type} (orderBy : String) (a b : MapItem α) (hne : a.Key ≠ b.Key) :
    (orderBy = "asc" → (lessItem orderBy a b = true ↔ a.Key < b.Key)) ∧
      (orderBy ≠ "asc" → (lessItem orderBy a b = true ↔ b.Key < a.Key)) := by
  refine ⟨fun ho => ?_, fun ho => ?_⟩
  · simp only [lessItem, ho, if_true, stringsCompare, hne, if_false, decide_eq_true_eq]
    by_cases hlt : a.Key < b.Key
    · simp [hlt]
    · simp [hlt]
  · simp only [lessItem, ho, if_false, stringsCompare, hne, decide_eq_true_eq]
    by_cases hlt : a.Key < b.Key
    · simp only [hlt, if_true]
      constructor
      · intro h
        omega
      · intro h
        exact absurd hlt (lt_asymm h)
    · simp only [hlt, if_false]
      constructor
      · intro _
        exact lt_of_le_of_ne (not_lt.mp hlt) (Ne.symm hne)
      · intro _
        omega

/-- Reading the two items after the first `l.length` items of a list. -/
theorem get?_after {α : Type} (l : List α) (y x : α) (post : List α) :
    (l ++ y :: x :: post).get? l.length = some y ∧
      (l ++ y :: x :: post).get? (l.length + 1) = some x := by
  induction l with
  | nil => exact ⟨rfl, rfl⟩
  | cons a l ih => simpa using ih

/-- Swapping the two items after the first `l.length` items of a list, the way
`MapSorter.Swap` writes them. -/
theorem set_after {α : Type} (l : List α) (y x : α) (post : List α) :
    ((l ++ y :: x :: post).set (l.length + 1) y).set l.length x = l ++ x :: y :: post := by
  induction l with
  | nil => rfl
  | cons a l ih => simp

/-- The inner loop of the insertion sort, run through `Less` and `Swap` on the
item at position `before.length`, does not panic and sinks that item into the
items before it. -/
theorem insertionInner_eq {α : Type} (o : String) (x : MapItem α) :
    ∀ (before post : List (MapItem α)),
      insertionInner { OrderBy := o, Items := before.reverse ++ x :: post } before.length =
        some { OrderBy := o, Items := (sink (lessItem o) x before).reverse ++ post } := by
  intro before
  induction before with
  | nil =>
    intro post
    rfl
  | cons y rest ih =>
    intro post
    have hitems : (y :: rest).reverse ++ x :: post = rest.reverse ++ y :: x :: post := by
      simp
    have hlen : (y :: rest).length = rest.reverse.length + 1 := by simp
    obtain ⟨hg1, hg2⟩ := get?_after rest.reverse y x post
    rw [hitems, hlen]
    have hless : ({ OrderBy := o, Items := rest.reverse ++ y :: x :: post } : MapSorter α).Less
        (rest.reverse.length + 1) rest.reverse.length = some (lessItem o x y) := by
      simp only [MapSorter.Less, hg1, hg2]
    have hswap : ({ OrderBy := o, Items := rest.reverse ++ y :: x :: post } : MapSorter α).Swap
        (rest.reverse.length + 1) rest.reverse.length =
        some { OrderBy := o, Items := rest.reverse ++ x :: y :: post } := by
      simp only [MapSorter.Swap, hg1, hg2, set_after]
    simp only [insertionInner, hless]
    cases hl : lessItem o x y with
    | false =>
      simp only [sink, hl, Bool.false_eq_true, if_false]
      simp
    | true =>
      simp only [hswap, sink, hl, if_true]
      have := ih (y :: post)
      rw [List.length_reverse]
      rw [this]
      simp

/-- The outer loop of the insertion sort, run through `Less` and `Swap`, does
not panic and places the remaining items one by one. -/
theorem insertionOuter_eq {α : Type} (o : String) :
    ∀ (rest placed : List (MapItem α)),
      insertionOuter rest.length placed.length { OrderBy := o, Items := placed.reverse ++ rest } =
        some { OrderBy := o, Items := insertionLoop (lessItem o) placed rest } := by
  intro rest
  induction rest with
  | nil =>
    intro placed
    simp [insertionOuter, insertionLoop]
  | cons x rest ih =>
    intro placed
    have hlen : (sink (lessItem o) x placed).length = placed.length + 1 := by
      rw [(sink_perm (lessItem o) x placed).length_eq]
      rfl
    simp only [List.length_cons, insertionOuter, insertionInner_eq, insertionLoop]
    rw [← hlen]
    exact ih (sink (lessItem o) x placed)

/-- The sort of the Go library, run on a `MapSorter` through `Len`, `Less`
and `Swap`, does not panic and leaves the items as the insertion loop arranges
them. -/
theorem sortSort_eq {α : Type} (ms : MapSorter α) :
    sortSort ms =
      some { ms with Items := insertionLoop (lessItem ms.OrderBy) [] ms.Items } := by
  obtain ⟨o, items⟩ := ms
  cases items with
  | nil => rfl
  | cons x rest =>
    have h := insertionOuter_eq o rest [x]
    simpa [sortSort, MapSorter.Len, insertionLoop, sink] using h

/-- C23: for a map (entries with distinct keys, in any iteration order) and
any order string, `MapSortByKey` returns (the sort does not panic) the entries
of the map, each once, in strictly ascending key order when the order string
is `asc` and in strictly descending key order otherwise. The sort reads and
moves the items only through `MapSorter.Len`, `Less` and `Swap`; the result is
the only arrangement of the entries in that order. -/
theorem C23_map_sorted_by_key {α : Type} (m : List (Key × α)) (o : String)
    (hkeys : (m.map Prod.fst).Nodup) :
    ∃ sorted, MapSortByKey m o = some sorted ∧
    sorted.Perm (m.map (fun kv => ({ Key := kv.1, Val := kv.2 } : MapItem α))) ∧
    (o = "asc" → sorted.Pairwise (fun a b => a.Key < b.Key)) ∧
    (o ≠ "asc" → sorted.Pairwise (fun a b => b.Key < a.Key)) ∧
    (∀ out : List (MapItem α),
      out.Perm (m.map (fun kv => ({ Key := kv.1, Val := kv.2 } : MapItem α))) →
      ((o = "asc" ∧ out.Pairwise (fun a b => a.Key < b.Key)) ∨
        (o ≠ "asc" ∧ out.Pairwise (fun a b => b.Key < a.Key))) →
      out = sorted) := by
  have hrun : MapSortByKey m o = some (insertionLoop (lessItem o) []
      (m.map (fun kv => ({ Key := kv.1, Val := kv.2 } : MapItem α)))) := by
    simp [MapSortByKey, sortSort_eq, NewMapSorter]
  refine ⟨_, hrun, ?_⟩
  have hperm : (insertionLoop (lessItem o) []
      (m.map (fun kv => ({ Key := kv.1, Val := kv.2 } : MapItem α)))).Perm
      (m.map (fun kv => ({ Key := kv.1, Val := kv.2 } : MapItem α))) := by
    simpa using
      insertionLoop_perm (lessItem o) (m.map (fun kv => ({ Key := kv.1, Val := kv.2 } : MapItem α))) []
  have hne : (m.map (fun kv => ({ Key := kv.1, Val := kv.2 } : MapItem α))).Pairwise
      (fun a b => a.Key ≠ b.Key) := by
    have h := List.pairwise_map.mp hkeys
    exact List.pairwise_map.mpr h
  have hasc : o = "asc" → (insertionLoop (lessItem o) []
      (m.map (fun kv => ({ Key := kv.1, Val := kv.2 } : MapItem α)))).Pairwise
        (fun a b => a.Key < b.Key) := by
    intro ho
    exact insertionLoop_pairwise (lessItem o) (fun a b : MapItem α => a.Key < b.Key)
      (fun a b c h1 h2 => lt_trans h1 h2)
      (m.map (fun kv => ({ Key := kv.1, Val := kv.2 } : MapItem α))) []
      (by
        simp only [List.nil_append]
        refine hne.imp ?_
        intro a b hab
        have h1 := (lessItem_of_ne o a b hab).1 ho
        have h2 := (lessItem_of_ne o b a (Ne.symm hab)).1 ho
        refine ⟨fun h => h1.mp h, fun h => ?_, fun h => h2.mp h, fun h => ?_⟩
        · have : ¬ a.Key < b.Key := fun hlt => by simp [h1.mpr hlt] at h
          exact lt_of_le_of_ne (not_lt.mp this) (Ne.symm hab)
        · have : ¬ b.Key < a.Key := fun hlt => by simp [h2.mpr hlt] at h
          exact lt_of_le_of_ne (not_lt.mp this) hab)
      List.Pairwise.nil
  have hdesc : o ≠ "asc" → (insertionLoop (lessItem o) []
      (m.map (fun kv => ({ Key := kv.1, Val := kv.2 } : MapItem α)))).Pairwise
        (fun a b => b.Key < a.Key) := by
    intro ho
    exact insertionLoop_pairwise (lessItem o) (fun a b : MapItem α => b.Key < a.Key)
      (fun a b c h1 h2 => lt_trans h2 h1)
      (m.map (fun kv => ({ Key := kv.1, Val := kv.2 } : MapItem α))) []
      (by
        simp only [List.nil_append]
        refine hne.imp ?_
        intro a b hab
        have h1 := (lessItem_of_ne o a b hab).2 ho
        have h2 := (lessItem_of_ne o b a (Ne.symm hab)).2 ho
        refine ⟨fun h => h1.mp h, fun h => ?_, fun h => h2.mp h, fun h => ?_⟩
        · have : ¬ b.Key < a.Key := fun hlt => by simp [h1.mpr hlt] at h
          exact lt_of_le_of_ne (not_lt.mp this) hab
        · have : ¬ a.Key < b.Key := fun hlt => by simp [h2.mpr hlt] at h
          exact lt_of_le_of_ne (not_lt.mp this) (Ne.symm hab))
      List.Pairwise.nil
  refine ⟨hperm, hasc, hdesc, fun out hout hsorted => ?_⟩
  rcases hsorted with ⟨ho, hs⟩ | ⟨ho, hs⟩
  · haveI : IsAntisymm (MapItem α) (fun a b => a.Key < b.Key) :=
      ⟨fun a b h1 h2 => absurd h1 (lt_asymm h2)⟩
    exact List.eq_of_perm_of_sorted (hout.trans hperm.symm) hs (hasc ho)
  · haveI : IsAntisymm (MapItem α) (fun a b => b.Key < a.Key) :=
      ⟨fun a b h1 h2 => absurd h1 (lt_asymm h2)⟩
    exact List.eq_of_perm_of_sorted (hout.trans hperm.symm) hs (hdesc ho)

/-- C23, on a map with the keys `b`, `a`, `c`: ascending for `asc`,
descending for another order string. -/
theorem C23_map_sorted_by_key_witness :
    (sampleMap.map Prod.fst).Nodup ∧
      MapSortByKey sampleMap "asc" =
        some [{ Key := [97], Val := 1 }, { Key := [98], Val := 2 }, { Key := [99], Val := 3 }] ∧
      MapSortByKey sampleMap "desc" =
        some [{ Key := [99], Val := 3 }, { Key := [98], Val := 2 }, { Key := [97], Val := 1 }] ∧
      ∃ sorted, MapSortByKey sampleMap "asc" = some sorted ∧
        sorted.Perm (sampleMap.map (fun kv => ({ Key := kv.1, Val := kv.2 } : MapItem Nat))) ∧
        sorted.Pairwise (fun a b => a.Key < b.Key) :=
  ⟨by decide, by decide, by decide,
    match C23_map_sorted_by_key sampleMap "asc" (by decide) with
    | ⟨sorted, h1, h2, h3, _⟩ => ⟨sorted, h1, h2, h3 rfl⟩⟩

/-- C27: `GetStringCode` is a non-negative `int32`: the checksum read as an
`int32` when that is not negative, its negation when it is negative and not
the smallest `int32`, and 0 when it is the smallest `int32`. -/
theorem C27_string_code_non_negative (ChecksumIEEE : List Nat → Nat) (str : List Nat) :
    0 ≤ GetStringCode ChecksumIEEE str ∧ GetStringCode ChecksumIEEE str < 2 ^ 31 ∧
    (0 ≤ toInt32 ((ChecksumIEEE str % 2 ^ 32 : Nat) : Int) →
      GetStringCode ChecksumIEEE str = toInt32 ((ChecksumIEEE str % 2 ^ 32 : Nat) : Int)) ∧
    (toInt32 ((ChecksumIEEE str % 2 ^ 32 : Nat) : Int) < 0 →
      toInt32 ((ChecksumIEEE str % 2 ^ 32 : Nat) : Int) ≠ -2 ^ 31 →
      GetStringCode ChecksumIEEE str = -toInt32 ((ChecksumIEEE str % 2 ^ 32 : Nat) : Int)) ∧
    (toInt32 ((ChecksumIEEE str % 2 ^ 32 : Nat) : Int) = -2 ^ 31 →
      GetStringCode ChecksumIEEE str = 0) := by
  have hrange : ∀ x : Int, -2 ^ 31 ≤ toInt32 x ∧ toInt32 x < 2 ^ 31 := by
    intro x
    unfold toInt32
    have h1 := Int.emod_nonneg (x + 2 ^ 31) (by norm_num : (2 : Int) ^ 32 ≠ 0)
    have h2 := Int.emod_lt_of_pos (x + 2 ^ 31) (by norm_num : (0 : Int) < 2 ^ 32)
    constructor <;> omega
  have hid : ∀ x : Int, -2 ^ 31 ≤ x → x < 2 ^ 31 → toInt32 x = x := by
    intro x h1 h2
    unfold toInt32
    have : (x + 2 ^ 31) % 2 ^ 32 = x + 2 ^ 31 := Int.emod_eq_of_lt (by omega) (by omega)
    omega
  have hmin : toInt32 (-(-2 ^ 31)) = -2 ^ 31 := by
    unfold toInt32
    norm_num
  obtain ⟨hlo, hhi⟩ := hrange ((ChecksumIEEE str % 2 ^ 32 : Nat) : Int)
  simp only [GetStringCode]
  generalize toInt32 ((ChecksumIEEE str % 2 ^ 32 : Nat) : Int) = v at hlo hhi ⊢
  have hneg : v < 0 → v ≠ -2 ^ 31 → toInt32 (-v) = -v := fun h1 h2 =>
    hid (-v) (by omega) (by omega)
  by_cases hv : v ≥ 0
  · rw [if_pos hv]
    exact ⟨hv, hhi, fun _ => rfl, fun h => by omega, fun h => by omega⟩
  · rw [if_neg hv]
    by_cases hm : v = -2 ^ 31
    · have h5 : toInt32 (-v) = -2 ^ 31 := by rw [hm]; exact hmin
      have h6 : ¬ (toInt32 (-v) ≥ 0) := by rw [h5]; norm_num
      rw [if_neg h6]
      exact ⟨le_refl 0, by norm_num, fun h => by omega, fun _ h => absurd hm h, fun _ => rfl⟩
    · have h3 := hneg (by omega) hm
      have h4 : toInt32 (-v) ≥ 0 := by rw [h3]; omega
      rw [if_pos h4, h3]
      exact ⟨by omega, by omega, fun h => by omega, fun _ _ => rfl, fun h => absurd h hm⟩

end utility

end Golanglib

/-! ## Theorems: table names and bulk import -/

namespace Golanglib

namespace sql

/-- C25: the table name of an entity can lie outside the names listed for it.
With a single policy of `Count` 1 and the column value 5, `GetTableName` keeps
the hashcode as the suffix (`t_5`) while `GetAllTableName` lists only `t_0`;
with `Count` 4 and the column value -3 the remainder keeps the sign of the
hashcode, the name is `t_-3`, and the listed names are `t_0` .. `t_3`. -/
theorem C25_table_name_outside_all_names :
    GetTableName (fun _ => 0) (splitOnID 1) (entityWithID (.int 5)) = .ok "t_5" ∧
    GetAllTableName (fun _ => 0) (splitOnID 1) (entityWithID (.int 5)) = .ok ["t_0"] ∧
    utility.GetHashcode (fun _ => 0) ((entityWithID (.int 5)).FieldByName "ID") = 5 ∧
    GetTableName (fun _ => 0) (splitOnID 4) (entityWithID (.int (-3))) = .ok "t_-3" ∧
    GetAllTableName (fun _ => 0) (splitOnID 4) (entityWithID (.int (-3))) =
      .ok ["t_0", "t_1", "t_2", "t_3"] ∧
    utility.GetHashcode (fun _ => 0) ((entityWithID (.int (-3))).FieldByName "ID") = -3 ∧
    "t_5" ∉ ["t_0"] ∧ "t_-3" ∉ ["t_0", "t_1", "t_2", "t_3"] := by
  refine ⟨by decide, by decide, by decide, by decide, by decide, by decide, by decide, by decide⟩

/-- An `int64` computation whose result is in range is not changed by the
wrap. -/
theorem wrapInt64_id (x : Int) (h1 : -2 ^ 63 ≤ x) (h2 : x < 2 ^ 63) : kafka.wrapInt64 x = x := by
  unfold kafka.wrapInt64
  have : (x + 2 ^ 63) % 2 ^ 64 = x + 2 ^ 63 := Int.emod_eq_of_lt (by omega) (by omega)
  omega

/-- With successful inserts and enough fuel the chunking loop over one group
ends; its slices are non-empty, no longer than the running chunk size, and
make up the rest of the group; the running chunk size stays at least 1 and
does not grow. -/
theorem chunkLoop_next (ans : ImportAnswers) (hins : ∀ k s, ∃ r, ans.insert k s = .ok r)
    (k : String) (v : List Entity) (hv : (v.length : Int) < 2 ^ 62) :
    ∀ (fuel j : Nat) (bnum n : Int) (calls : List SessionCall),
      j ≤ v.length → v.length - j < fuel → 1 ≤ bnum → bnum < 2 ^ 63 →
      (j = 0 ∨ bnum ≤ (v.length : Int)) →
      ∃ (bnum1 n1 : Int) (slices : List (List Entity)),
        chunkLoop ans k v fuel (j : Int) bnum n calls =
          .next bnum1 n1 (calls ++ slices.map (SessionCall.Insert k)) ∧
        1 ≤ bnum1 ∧ bnum1 ≤ bnum ∧ slices.flatten = v.drop j ∧
        ∀ s ∈ slices, s ≠ [] ∧ (s.length : Int) ≤ bnum := by
  intro fuel
  induction fuel with
  | zero =>
    intro j bnum n calls _ hfuel
    omega
  | succ fuel ih =>
    intro j bnum n calls hj hfuel hb1 hb2 hinv
    by_cases hlt : (j : Int) < (v.length : Int)
    · have hjb : kafka.wrapInt64 ((j : Int) + bnum) = (j : Int) + bnum :=
        wrapInt64_id _ (by omega) (by rcases hinv with h | h <;> omega)
      have hsub : kafka.wrapInt64 ((v.length : Int) - (j : Int)) = (v.length : Int) - (j : Int) :=
        wrapInt64_id _ (by omega) (by omega)
      obtain ⟨b, hb⟩ : ∃ b : Nat, (b : Int) =
          (if kafka.wrapInt64 ((j : Int) + bnum) > (v.length : Int)
            then kafka.wrapInt64 ((v.length : Int) - (j : Int)) else bnum) := by
        rw [hjb, hsub]
        by_cases hc : (j : Int) + bnum > (v.length : Int)
        · rw [if_pos hc]
          exact ⟨v.length - j, by omega⟩
        · rw [if_neg hc]
          exact ⟨bnum.toNat, by omega⟩
      have hbprop : 1 ≤ b ∧ (b : Int) ≤ bnum ∧ j + b ≤ v.length := by
        rw [hjb, hsub] at hb
        by_cases hc : (j : Int) + bnum > (v.length : Int)
        · rw [if_pos hc] at hb
          omega
        · rw [if_neg hc] at hb
          omega
      obtain ⟨hb1n, hble, hjble⟩ := hbprop
      have hjb1 : kafka.wrapInt64 ((j : Int) + (b : Int)) = ((j + b : Nat) : Int) := by
        rw [wrapInt64_id _ (by omega) (by omega)]
        push_cast
        rfl
      have hslice : goSlice v (j : Int) ((j + b : Nat) : Int) = some ((v.drop j).take b) := by
        unfold goSlice
        rw [if_pos (by omega)]
        have h1 : ((j : Int)).toNat = j := by omega
        have h2 : (((j + b : Nat) : Int) - (j : Int)).toNat = b := by omega
        rw [h1, h2]
      obtain ⟨r, hr⟩ := hins k ((v.drop j).take b)
      obtain ⟨bnum1, n1, slices, hrun, h1, h2, h3, h4⟩ :=
        ih (j + b) (b : Int) (kafka.wrapInt64 (n + r)) (calls ++ [.Insert k ((v.drop j).take b)])
          hjble (by omega) (by omega) (by omega) (Or.inr (by omega))
      refine ⟨bnum1, n1, ((v.drop j).take b) :: slices, ?_, h1, by omega, ?_, ?_⟩
      · simp only [chunkLoop]
        rw [if_pos hlt, ← hb, hjb1, hslice]
        simp only [hr]
        rw [hrun]
        simp
      · rw [List.flatten_cons, h3]
        have : v.drop (j + b) = (v.drop j).drop b := by rw [List.drop_drop]
        rw [this, List.take_append_drop]
      · intro s hs
        rcases List.mem_cons.mp hs with hs | hs
        · subst hs
          have hl : ((v.drop j).take b).length = b := by
            rw [List.length_take, List.length_drop]
            omega
          refine ⟨?_, by omega⟩
          intro h0
          rw [h0] at hl
          simp at hl
          omega
        · obtain ⟨hne, hle⟩ := h4 s hs
          exact ⟨hne, by omega⟩
    · have hjl : j = v.length := by omega
      refine ⟨bnum, n, [], ?_, hb1, le_refl _, ?_, ?_⟩
      · simp only [chunkLoop]
        rw [if_neg hlt]
        simp
      · simp [hjl]
      · intro s hs
        simp at hs

/-- The slices inserted into a table by two runs of calls. -/
theorem insertedInto_append (k : String) (a b : List SessionCall) :
    insertedInto k (a ++ b) = insertedInto k a ++ insertedInto k b := by
  induction a with
  | nil => rfl
  | cons c rest ih =>
    cases c with
    | Insert t beans =>
      by_cases h : t = k
      · simp [insertedInto, h, ih]
      · simp [insertedInto, h, ih]
    | _ => simp [insertedInto, ih]

/-- All slices inserted by two runs of calls. -/
theorem inserted_append (a b : List SessionCall) :
    inserted (a ++ b) = inserted a ++ inserted b := by
  induction a with
  | nil => rfl
  | cons c rest ih =>
    cases c <;> simp [inserted, ih]

/-- The slices inserted into table `k` by a run of inserts into table `t`. -/
theorem insertedInto_map (k t : String) (slices : List (List Entity)) :
    insertedInto k (slices.map (SessionCall.Insert t)) = if t = k then slices else [] := by
  induction slices with
  | nil => simp [insertedInto]
  | cons s rest ih =>
    by_cases h : t = k
    · subst h
      simpa [insertedInto] using ih
    · simp [insertedInto, h, ih]

/-- All slices inserted by a run of inserts. -/
theorem inserted_map (t : String) (slices : List (List Entity)) :
    inserted (slices.map (SessionCall.Insert t)) = slices := by
  induction slices with
  | nil => rfl
  | cons s rest ih => simp [inserted, ih]

/-- The identity-insert statements insert nothing. -/
theorem insertedInto_identity (k : String) (b : Bool) (dtx : DbContext) (t : String) :
    insertedInto k (identityOn b dtx t) = [] ∧ insertedInto k (identityOff b dtx t) = [] ∧
      inserted (identityOn b dtx t) = [] ∧ inserted (identityOff b dtx t) = [] := by
  unfold identityOn identityOff
  by_cases h : (b = true ∧ dtx.Driver = "mssql")
  · simp [h, insertedInto, inserted]
  · simp [h, insertedInto, inserted]

/-- With successful inserts and enough fuel the loop over the groups ends; for
every group the slices inserted into its table are non-empty, no longer than
the chunk size the loop started with, and make up the group; nothing is
inserted into other tables, and the deferred calls insert nothing. -/
theorem groupLoop_next (ans : ImportAnswers) (hins : ∀ k s, ∃ r, ans.insert k s = .ok r)
    (isIdentityInsert : Bool) (dtx : DbContext) (fuel : Nat) :
    ∀ (gs : List (String × List Entity)) (bnum n : Int) (calls deferred : List SessionCall),
      (∀ kv ∈ gs, (kv.2.length : Int) < 2 ^ 62 ∧ kv.2.length < fuel) →
      (gs.map Prod.fst).Nodup → 1 ≤ bnum → bnum < 2 ^ 63 →
      ∃ (bnum1 n1 : Int) (calls1 deferred1 : List SessionCall),
        groupLoop ans isIdentityInsert dtx fuel gs bnum n calls deferred =
          (.next bnum1 n1 calls1, deferred1) ∧
        inserted deferred1 = inserted deferred ∧
        (∀ k, insertedInto k deferred1 = insertedInto k deferred) ∧
        (∀ kv ∈ gs, ∃ slices : List (List Entity),
          insertedInto kv.1 calls1 = insertedInto kv.1 calls ++ slices ∧
          slices.flatten = kv.2 ∧ ∀ s ∈ slices, s ≠ [] ∧ (s.length : Int) ≤ bnum) ∧
        (∀ k, k ∉ gs.map Prod.fst → insertedInto k calls1 = insertedInto k calls) ∧
        (inserted calls1).flatten = (inserted calls).flatten ++ (gs.map Prod.snd).flatten := by
  intro gs
  induction gs with
  | nil =>
    intro bnum n calls deferred _ _ _ _
    exact ⟨bnum, n, calls, deferred, rfl, rfl, fun _ => rfl, by simp, fun _ _ => rfl, by simp⟩
  | cons g rest ih =>
    intro bnum n calls deferred hlen hnodup hb1 hb2
    obtain ⟨k, v⟩ := g
    have hkv0 := hlen (k, v) (List.mem_cons_self _ _)
    have hvl : (v.length : Int) < 2 ^ 62 := hkv0.1
    have hvf : v.length < fuel := hkv0.2
    obtain ⟨hknot, hrestnodup⟩ := List.nodup_cons.mp hnodup
    obtain ⟨b1, n1, slices, hrun, hb1a, hb1b, hflat, hsl⟩ :=
      chunkLoop_next ans hins k v hvl fuel 0 bnum n (calls ++ identityOn isIdentityInsert dtx k)
        (Nat.zero_le _) (by omega) hb1 hb2 (Or.inl rfl)
    obtain ⟨b2, n2, calls2, deferred2, hrun2, hd1, hd2, hgroups, hothers, hall⟩ :=
      ih b1 n1 (calls ++ identityOn isIdentityInsert dtx k ++ slices.map (SessionCall.Insert k))
        (identityOff isIdentityInsert dtx k ++ deferred)
        (fun kv hkv => hlen kv (List.mem_cons_of_mem _ hkv)) hrestnodup hb1a (by omega)
    have hid := fun t => insertedInto_identity t isIdentityInsert dtx k
    have hmid : ∀ t, insertedInto t
        (calls ++ identityOn isIdentityInsert dtx k ++ slices.map (SessionCall.Insert k)) =
        insertedInto t calls ++ (if k = t then slices else []) := by
      intro t
      rw [insertedInto_append, insertedInto_append, (hid t).1, insertedInto_map, List.append_nil]
    refine ⟨b2, n2, calls2, deferred2, ?_, ?_, ?_, ?_, ?_, ?_⟩
    · simp only [groupLoop]
      have h0 : ((0 : Nat) : Int) = 0 := rfl
      rw [h0] at hrun
      rw [hrun]
      exact hrun2
    · rw [hd1, inserted_append, (hid k).2.2.2, List.nil_append]
    · intro t
      rw [hd2 t, insertedInto_append, (hid t).2.1, List.nil_append]
    · intro kv hkv
      rcases List.mem_cons.mp hkv with hkv | hkv
      · subst hkv
        refine ⟨slices, ?_, hflat, hsl⟩
        rw [hothers k hknot, hmid k]
        simp
      · obtain ⟨sl, h1, h2, h3⟩ := hgroups kv hkv
        have hmem : kv.1 ∈ rest.map Prod.fst := List.mem_map_of_mem Prod.fst hkv
        have hne : k ≠ kv.1 := fun h => hknot (by
          show k ∈ rest.map Prod.fst
          rw [h]
          exact hmem)
        refine ⟨sl, ?_, h2, fun s hs => ⟨(h3 s hs).1, by have := (h3 s hs).2; omega⟩⟩
        rw [h1, hmid kv.1]
        simp [hne]
    · intro t ht
      have ht1 : k ≠ t := fun h => ht (by simp [h])
      have ht2 : t ∉ rest.map Prod.fst := fun h => ht (by
        simp only [List.map_cons, List.mem_cons]
        exact Or.inr h)
      rw [hothers t ht2, hmid t]
      simp [ht1]
    · rw [hall, inserted_append, inserted_append, (hid k).2.2.1, inserted_map, List.append_nil,
        List.flatten_append, hflat]
      simp

/-- Appending a bean to the entry of a key that is present keeps the keys
and adds the bean to the beans of the map. -/
theorem groupAppend_present (tbn : String) (bean : Entity) :
    ∀ group : List (String × List Entity), (group.map Prod.fst).Nodup →
      tbn ∈ group.map Prod.fst →
      ((group.map (fun p => if p.1 = tbn then (p.1, p.2 ++ [bean]) else p)).map Prod.snd).flatten.Perm
        ((group.map Prod.snd).flatten ++ [bean]) := by
  intro group
  induction group with
  | nil =>
    intro _ h
    simp at h
  | cons g rest ih =>
    intro hnodup hmem
    obtain ⟨hknot, hrest⟩ := List.nodup_cons.mp hnodup
    by_cases hk : g.1 = tbn
    · have hsame : rest.map (fun p => if p.1 = tbn then (p.1, p.2 ++ [bean]) else p) = rest := by
        have : ∀ p ∈ rest, (if p.1 = tbn then (p.1, p.2 ++ [bean]) else p) = p := by
          intro p hp
          have : p.1 ≠ tbn := fun h => hknot (by
            rw [hk, ← h]
            exact List.mem_map_of_mem Prod.fst hp)
          simp [this]
        calc rest.map (fun p => if p.1 = tbn then (p.1, p.2 ++ [bean]) else p)
            = rest.map id := List.map_congr_left this
          _ = rest := List.map_id _
      simp only [List.map_cons, hk, if_true, hsame, List.flatten_cons, List.append_assoc]
      exact List.Perm.append_left _ List.perm_append_comm
    · have hmem2 : tbn ∈ rest.map Prod.fst := by
        simp only [List.map_cons, List.mem_cons] at hmem
        rcases hmem with h | h
        · exact absurd h.symm hk
        · exact h
      simp only [List.map_cons, hk, if_false, List.flatten_cons, List.append_assoc]
      exact List.Perm.append_left _ (ih hrest hmem2)

/-- The keys stay distinct, the entries non-empty, and the beans of the map
are the old ones and the new one. -/
theorem groupAppend_inv (group : List (String × List Entity)) (tbn : String) (bean : Entity)
    (hnodup : (group.map Prod.fst).Nodup) (hne : ∀ kv ∈ group, kv.2 ≠ []) :
    ((groupAppend group tbn bean).map Prod.fst).Nodup ∧
      (∀ kv ∈ groupAppend group tbn bean, kv.2 ≠ []) ∧
      (((groupAppend group tbn bean).map Prod.snd).flatten).Perm
        ((group.map Prod.snd).flatten ++ [bean]) := by
  unfold groupAppend
  by_cases hany : group.any (fun p => decide (p.1 = tbn)) = true
  · rw [if_pos hany]
    have hmem : tbn ∈ group.map Prod.fst := by
      obtain ⟨p, hp, hpk⟩ := List.any_eq_true.mp hany
      have : p.1 = tbn := by simpa using hpk
      rw [← this]
      exact List.mem_map_of_mem Prod.fst hp
    have hkeys : (group.map (fun p => if p.1 = tbn then (p.1, p.2 ++ [bean]) else p)).map Prod.fst
        = group.map Prod.fst := by
      rw [List.map_map]
      apply List.map_congr_left
      intro p _
      by_cases h : p.1 = tbn <;> simp [h]
    refine ⟨by rw [hkeys]; exact hnodup, ?_, groupAppend_present tbn bean group hnodup hmem⟩
    intro kv hkv
    obtain ⟨p, hp, hpe⟩ := List.mem_map.mp hkv
    by_cases h : p.1 = tbn
    · rw [if_pos h] at hpe
      rw [← hpe]
      simp
    · rw [if_neg h] at hpe
      rw [← hpe]
      exact hne p hp
  · rw [if_neg hany]
    have hnot : tbn ∉ group.map Prod.fst := by
      intro hmem
      obtain ⟨p, hp, hpk⟩ := List.mem_map.mp hmem
      exact hany (List.any_eq_true.mpr ⟨p, hp, by simpa using hpk⟩)
    refine ⟨?_, ?_, ?_⟩
    · rw [List.map_append, List.nodup_append]
      refine ⟨hnodup, by simp, ?_⟩
      intro a ha hb
      simp only [List.map_cons, List.map_nil, List.mem_singleton] at hb
      exact hnot (hb ▸ ha)
    · intro kv hkv
      rcases List.mem_append.mp hkv with h | h
      · exact hne kv h
      · simp only [List.mem_singleton] at h
        rw [h]
        simp
    · simp

/-- When every table name can be computed the grouping loop ends with a map
whose keys are distinct, whose entries are non-empty and whose beans are the
beans it started with and the entities. -/
theorem groupEntities_ok (ChecksumIEEE : List Nat → Nat) (dtx : DbContext) :
    ∀ (entities : List Entity) (group : List (String × List Entity)),
      (∀ e ∈ entities, ∃ t, GetTableName ChecksumIEEE dtx e = .ok t) →
      (group.map Prod.fst).Nodup → (∀ kv ∈ group, kv.2 ≠ []) →
      ∃ g, groupEntities ChecksumIEEE dtx entities group = .ok g ∧ (g.map Prod.fst).Nodup ∧
        (∀ kv ∈ g, kv.2 ≠ []) ∧
        ((g.map Prod.snd).flatten).Perm ((group.map Prod.snd).flatten ++ entities) := by
  intro entities
  induction entities with
  | nil =>
    intro group _ h1 h2
    exact ⟨group, rfl, h1, h2, by simp⟩
  | cons e rest ih =>
    intro group hnames h1 h2
    obtain ⟨t, ht⟩ := hnames e (List.mem_cons_self _ _)
    obtain ⟨i1, i2, i3⟩ := groupAppend_inv group t e h1 h2
    obtain ⟨g, hg, g1, g2, g3⟩ :=
      ih (groupAppend group t e) (fun x hx => hnames x (List.mem_cons_of_mem _ hx)) i1 i2
    refine ⟨g, ?_, g1, g2, ?_⟩
    · simp only [groupEntities, ht]
      exact hg
    · refine g3.trans ?_
      have := List.Perm.append_right rest i3
      simpa using this

/-- C26: `ImportData` with two or more entities whose table names can be
computed, on a database where `Begin`, every `Insert` and `Commit` succeed,
for every batch size and every order in which the groups are visited: with
enough fuel the call returns a count (the chunking loops end); for every
group the slices inserted into its table are non-empty, no longer than the
effective batch size, and concatenated in order equal the group; and the
beans of all inserted slices are the entities, each once. -/
theorem C26_import_chunks (ChecksumIEEE : List Nat → Nat) (ans : ImportAnswers) (fuel : Nat)
    (dtx : DbContext) (isIdentityInsert : Bool) (batchNum : Int) (entities : List Entity)
    (hmany : 2 ≤ entities.length) (hlen : (entities.length : Int) < 2 ^ 62)
    (hbatch : batchNum < 2 ^ 63)
    (hnames : ∀ e ∈ entities, ∃ t, GetTableName ChecksumIEEE dtx e = .ok t)
    (hbegin : ans.begin = none) (hins : ∀ k s, ∃ r, ans.insert k s = .ok r)
    (hcommit : ans.commit = none) (horder : ∀ g, (ans.rangeOrder g).Perm g)
    (hfuel : entities.length < fuel) :
    ∃ (group : List (String × List Entity)) (n : Int),
      groupEntities ChecksumIEEE dtx entities [] = .ok group ∧
      (ImportData ChecksumIEEE ans fuel dtx isIdentityInsert batchNum entities).1 =
        .returned (.ok n) ∧
      (∀ kv ∈ group, kv.2 ≠ [] ∧
        (insertedInto kv.1
          (ImportData ChecksumIEEE ans fuel dtx isIdentityInsert batchNum entities).2).flatten
            = kv.2 ∧
        ∀ s ∈ insertedInto kv.1
            (ImportData ChecksumIEEE ans fuel dtx isIdentityInsert batchNum entities).2,
          s ≠ [] ∧ (s.length : Int) ≤ effectiveBatch batchNum) ∧
      ((inserted
        (ImportData ChecksumIEEE ans fuel dtx isIdentityInsert batchNum entities).2).flatten).Perm
          entities := by
  obtain ⟨group, hgroup, hnodup, hnonempty, hperm⟩ :=
    groupEntities_ok ChecksumIEEE dtx entities [] hnames (by simp) (by simp)
  have hperm2 : ((group.map Prod.snd).flatten).Perm entities := by simpa using hperm
  have hsize : ∀ kv ∈ group, kv.2.length ≤ entities.length := by
    intro kv hkv
    have h1 := (List.sublist_flatten_of_mem (List.mem_map_of_mem Prod.snd hkv)).length_le
    rw [hperm2.length_eq] at h1
    exact h1
  have hord := horder group
  have heff : 1 ≤ effectiveBatch batchNum ∧ effectiveBatch batchNum < 2 ^ 63 := by
    unfold effectiveBatch
    by_cases h : batchNum > 0
    · rw [if_pos h]
      omega
    · rw [if_neg h]
      norm_num
  obtain ⟨b1, n1, calls1, deferred1, hrun, hd1, hd2, hgroups, hothers, hall⟩ :=
    groupLoop_next ans hins isIdentityInsert dtx fuel (ans.rangeOrder group)
      (effectiveBatch batchNum) 0 [.NewSession, .Begin] [.Close]
      (fun kv hkv => by
        have := hsize kv (hord.subset hkv)
        omega)
      ((hord.map Prod.fst).nodup_iff.mpr hnodup) heff.1 heff.2
  have hrun2 : ImportData ChecksumIEEE ans fuel dtx isIdentityInsert batchNum entities =
      (.returned (.ok n1), calls1 ++ [.Commit] ++ deferred1) := by
    have hshape : ∃ e1 e2 rest, entities = e1 :: e2 :: rest := by
      cases entities with
      | nil => simp at hmany
      | cons e1 tl =>
        cases tl with
        | nil => simp at hmany
        | cons e2 rest => exact ⟨e1, e2, rest, rfl⟩
    obtain ⟨e1, e2, rest, hent⟩ := hshape
    rw [hent] at hgroup ⊢
    simp only [ImportData, hgroup, hbegin, hrun, hcommit]
  have hinto : ∀ k, insertedInto k (calls1 ++ [.Commit] ++ deferred1) = insertedInto k calls1 := by
    intro k
    rw [insertedInto_append, insertedInto_append, hd2 k]
    simp [insertedInto]
  have hins2 : inserted (calls1 ++ [.Commit] ++ deferred1) = inserted calls1 := by
    rw [inserted_append, inserted_append, hd1]
    simp [inserted]
  refine ⟨group, n1, hgroup, by rw [hrun2], ?_, ?_⟩
  · intro kv hkv
    obtain ⟨slices, h1, h2, h3⟩ := hgroups kv (hord.symm.subset hkv)
    have h4 : insertedInto kv.1 calls1 = slices := by
      rw [h1]
      simp [insertedInto]
    rw [hrun2]
    simp only [hinto, h4]
    exact ⟨hnonempty kv hkv, h2, h3⟩
  · rw [hrun2]
    simp only [hins2, hall]
    have h5 : (inserted [SessionCall.NewSession, SessionCall.Begin]).flatten = [] := by
      simp [inserted]
    rw [h5, List.nil_append]
    exact ((hord.map Prod.snd).flatten).trans hperm2

/-- C26, on five entities of two tables with batch size 2: the second group is
chunked after the first one shrank the running chunk size to 1. -/
theorem C26_import_chunks_witness :
    ((insertedInto "a"
        (ImportData (fun _ => 0) (okAnswers id) 10 plainContext false 2 fiveEntities).2).map
          List.length = [2, 1]) ∧
      ((insertedInto "b"
        (ImportData (fun _ => 0) (okAnswers id) 10 plainContext false 2 fiveEntities).2).map
          List.length = [1, 1]) ∧
      ∃ (group : List (String × List Entity)) (n : Int),
        groupEntities (fun _ => 0) plainContext fiveEntities [] = .ok group ∧
        (ImportData (fun _ => 0) (okAnswers id) 10 plainContext false 2 fiveEntities).1 =
          .returned (.ok n) ∧
        (∀ kv ∈ group, kv.2 ≠ [] ∧
          (insertedInto kv.1
            (ImportData (fun _ => 0) (okAnswers id) 10 plainContext false 2 fiveEntities).2).flatten
              = kv.2 ∧
          ∀ s ∈ insertedInto kv.1
              (ImportData (fun _ => 0) (okAnswers id) 10 plainContext false 2 fiveEntities).2,
            s ≠ [] ∧ (s.length : Int) ≤ effectiveBatch 2) ∧
        ((inserted
          (ImportData (fun _ => 0) (okAnswers id) 10 plainContext false 2 fiveEntities).2).flatten).Perm
            fiveEntities :=
  ⟨rfl, rfl,
    C26_import_chunks (fun _ => 0) (okAnswers id) 10 plainContext false 2 fiveEntities
      (by decide) (by simp [fiveEntities]) (by norm_num)
      (fun e _ => ⟨e.TableName, rfl⟩) rfl (fun _ s => ⟨(s.length : Int), rfl⟩) rfl
      (fun g => List.Perm.refl g) (by decide)⟩

end sql

end Golanglib

/-! ## Theorems: the `Where` builder -/

namespace Golanglib

namespace sql

/-- The text written by the placeholder loop: the text so far, then `,?` for
every element, without the first comma when the loop starts at index 0. -/
theorem writePlaceholders_data {α : Type} :
    ∀ (xs : List α) (i : Nat) (sql : String),
      (writePlaceholders sql i xs).data =
        sql.data ++ ((List.replicate xs.length [',', '?']).flatten).drop (if i = 0 then 1 else 0) := by
  intro xs
  induction xs with
  | nil =>
    intro i sql
    simp [writePlaceholders]
  | cons x rest ih =>
    intro i sql
    simp only [writePlaceholders]
    rw [ih (i + 1)]
    by_cases hi : i = 0
    · simp [hi, List.replicate_succ, String.data_append]
    · simp [hi, List.replicate_succ, String.data_append]

/-- The placeholder text for `n` elements holds `n` question marks. -/
theorem count_placeholders (n : Nat) :
    (((List.replicate n [',', '?']).flatten).drop 1).count '?' = n ∧
      ((List.replicate n [',', '?']).flatten).count '?' = n := by
  induction n with
  | zero => simp
  | succ n ih =>
    have h1 : (List.replicate (n + 1) [',', '?']).flatten =
        ',' :: '?' :: (List.replicate n [',', '?']).flatten := by
      simp [List.replicate_succ]
    rw [h1]
    constructor
    · simp only [List.drop_succ_cons, List.drop_zero, List.count_cons_self, ih.2]
    · rw [List.count_cons_of_ne (by decide), List.count_cons_self, ih.2]

/-- C30: `InIf` with a true condition appends `" WHERE "` to an empty builder
and `" AND "` to any other, then the column, `" IN ("`, one `?` for every value
it appends to `Args` (separated by commas) and `" ) "`; the values are the
elements of a single slice argument (or of the slice a single pointer points
to), in order, and the arguments themselves otherwise. `AppendIf`, `InIf` and
`ExprIf` with a false condition leave the builder as it was. -/
theorem C30_in_placeholders_match_args {ι : Type} (w : Where ι) (col : String)
    (args : List (Arg ι)) :
    (w.InIf true col args).Sql =
        w.Sql ++ (if w.Sql.utf8ByteSize = 0 then " WHERE " else " AND ") ++ col ++ " IN (" ++
          String.mk (((List.replicate (expandArgs args).length [',', '?']).flatten).drop 1) ++
          " ) " ∧
      (((List.replicate (expandArgs args).length [',', '?']).flatten).drop 1).count '?' =
        (expandArgs args).length ∧
      (w.InIf true col args).Args = w.Args ++ expandArgs args ∧
      (∀ elems : List (Arg ι), expandArgs [Arg.slice elems] = elems) ∧
      (∀ elems : List (Arg ι), expandArgs [Arg.ptr (some (Arg.slice elems))] = elems) ∧
      (args.length ≠ 1 → expandArgs args = args) ∧
      (∀ v : ι, expandArgs [Arg.scalar v] = [Arg.scalar v]) ∧
      w.InIf false col args = w ∧
      (∀ ToUpper whereStr, w.AppendIf ToUpper false whereStr args = w) ∧
      (∀ symbol, w.ExprIf false col symbol args = w) := by
  refine ⟨?_, (count_placeholders _).1, ?_, fun _ => rfl, fun _ => rfl, ?_, fun _ => rfl, rfl,
    fun _ _ => rfl, fun _ => rfl⟩
  · apply String.ext
    by_cases h : w.Sql.utf8ByteSize = 0
    · have h2 : ¬ (w.Sql.utf8ByteSize > 0) := by omega
      simp [Where.InIf, h, writePlaceholders_data, String.data_append]
    · have h2 : w.Sql.utf8ByteSize > 0 := by omega
      simp [Where.InIf, h, h2, writePlaceholders_data, String.data_append]
  · simp [Where.InIf]
  · intro hlen
    match args, hlen with
    | [], _ => rfl
    | _ :: _ :: _, _ => rfl

end sql

end Golanglib

/-! ## Theorems: padding and the Authorization header -/

namespace Golanglib

namespace auth

/-- C28: for a block size from 1 to 255, `PKCS7Padding` returns (does not
panic) a sequence that starts with `src`, is longer than `src` by at most the
block size, and whose length is a positive multiple of the block size; and
`PKCS7UnPadding` of it returns `src`. -/
theorem C28_unpadding_undoes_padding (src : List Nat) (blockSize : Int)
    (hlow : 1 ≤ blockSize) (hhigh : blockSize ≤ 255) :
    ∃ padded, PKCS7Padding src blockSize = some padded ∧
      (padded.length : Int) % blockSize = 0 ∧ 0 < padded.length ∧
      src.length < padded.length ∧ (padded.length : Int) ≤ (src.length : Int) + blockSize ∧
      padded.take src.length = src ∧
      PKCS7UnPadding padded = some src := by
  obtain ⟨b, hb⟩ : ∃ b : Nat, blockSize = (b : Int) := ⟨blockSize.toNat, by omega⟩
  subst hb
  have hb1 : 1 ≤ b := by omega
  have hmod : Int.tmod (src.length : Int) (b : Int) = ((src.length % b : Nat) : Int) :=
    (Int.ofNat_tmod _ _).symm
  have hlt : src.length % b < b := Nat.mod_lt _ (by omega)
  have hpad : (b : Int) - Int.tmod (src.length : Int) (b : Int) = ((b - src.length % b : Nat) : Int) := by
    rw [hmod]
    omega
  have hbyte : toByte ((b - src.length % b : Nat) : Int) = b - src.length % b := by
    unfold toByte
    omega
  have hp1 : 1 ≤ b - src.length % b := by omega
  refine ⟨src ++ List.replicate (b - src.length % b) (b - src.length % b), ?_, ?_, ?_, ?_, ?_, ?_, ?_⟩
  · unfold PKCS7Padding
    rw [if_neg (by omega), hpad]
    simp only []
    rw [if_neg (by omega), hbyte]
    simp
  · rw [List.length_append, List.length_replicate]
    have h1 : src.length + (b - src.length % b) = b * (src.length / b + 1) := by
      have := Nat.div_add_mod src.length b
      rw [Nat.mul_add, Nat.mul_one]
      omega
    rw [h1]
    push_cast
    exact Int.mul_emod_right _ _
  · rw [List.length_append, List.length_replicate]
    omega
  · rw [List.length_append, List.length_replicate]
    omega
  · rw [List.length_append, List.length_replicate]
    omega
  · exact List.take_left _ _
  · unfold PKCS7UnPadding
    have hlast : (src ++ List.replicate (b - src.length % b) (b - src.length % b)).getLast? =
        some (b - src.length % b) := by
      rw [List.getLast?_append, List.getLast?_replicate, if_neg (by omega)]
      rfl
    rw [hlast]
    simp only [List.length_append, List.length_replicate]
    rw [if_neg (by omega)]
    have h2 : (((src.length + (b - src.length % b) : Nat) : Int) -
        ((b - src.length % b : Nat) : Int)).toNat = src.length := by omega
    rw [h2, List.take_left]

/-- C28, on three bytes and a block size of 4. -/
theorem C28_unpadding_undoes_padding_witness :
    PKCS7Padding [7, 8, 9] 4 = some [7, 8, 9, 1] ∧ PKCS7UnPadding [7, 8, 9, 1] = some [7, 8, 9] ∧
      ∃ padded, PKCS7Padding [7, 8, 9] 4 = some padded ∧
        (padded.length : Int) % 4 = 0 ∧ 0 < padded.length ∧
        [7, 8, 9].length < padded.length ∧
        (padded.length : Int) ≤ (([7, 8, 9] : List Nat).length : Int) + 4 ∧
        padded.take [7, 8, 9].length = [7, 8, 9] ∧
        PKCS7UnPadding padded = some [7, 8, 9] :=
  ⟨by decide, by decide, C28_unpadding_undoes_padding [7, 8, 9] 4 (by decide) (by decide)⟩

/-- A character of a joined text is the separator or a character of one of
the elements. -/
theorem mem_Join (sep c : Char) :
    ∀ elems : List (List Char), c ∈ Join elems sep → c = sep ∨ ∃ l ∈ elems, c ∈ l := by
  intro elems
  induction elems with
  | nil =>
    intro h
    simp [Join, List.intercalate] at h
  | cons x rest ih =>
    intro h
    cases rest with
    | nil =>
      simp [Join, List.intercalate] at h
      exact Or.inr ⟨x, List.mem_cons_self _ _, h⟩
    | cons y ys =>
      have hstep : Join (x :: y :: ys) sep = x ++ sep :: Join (y :: ys) sep := by
        simp [Join, List.intercalate]
      rw [hstep] at h
      rcases List.mem_append.mp h with h | h
      · exact Or.inr ⟨x, List.mem_cons_self _ _, h⟩
      · rcases List.mem_cons.mp h with h | h
        · exact Or.inl h
        · rcases ih h with h | ⟨l, hl, hc⟩
          · exact Or.inl h
          · exact Or.inr ⟨l, List.mem_cons_of_mem _ hl, hc⟩

/-- Trimming a character that does not occur changes nothing. -/
theorem Trim_of_not_mem (s : List Char) (cut : Char) (h : cut ∉ s) : Trim s cut = s := by
  have hdrop : ∀ l : List Char, cut ∉ l → l.dropWhile (fun c => decide (c = cut)) = l := by
    intro l hl
    cases l with
    | nil => rfl
    | cons x xs =>
      have : x ≠ cut := fun hx => hl (hx ▸ List.mem_cons_self _ _)
      simp [List.dropWhile, this]
  unfold Trim
  rw [hdrop s h, hdrop s.reverse (by simpa using h), List.reverse_reverse]

/-- Splitting at a separator that does not occur gives the text itself. -/
theorem Split_single (s : List Char) (sep : Char) (h : sep ∉ s) : Split s sep = [s] := by
  unfold Split List.splitOn
  exact List.splitOnP_eq_single _ _ (fun x hx hp => h (by
    have : x = sep := by simpa using hp
    exact this ▸ hx))

/-- Splitting a text whose first separator comes after `a`. -/
theorem Split_first (a b : List Char) (sep : Char) (h : sep ∉ a) :
    Split (a ++ sep :: b) sep = a :: Split b sep := by
  unfold Split List.splitOn
  exact List.splitOnP_first _ _ (fun x hx hp => h (by
    have : x = sep := by simpa using hp
    exact this ▸ hx)) sep (by simp) b

/-- The word before the first space, when there is a space, is what
`GetAuthHeader` compares with the algorithm. -/
theorem take_Index (s : List Char) (sep : Char) (h : sep ∈ s) :
    s.take (Index s sep).toNat = s.takeWhile (fun c => c ≠ sep) := by
  unfold Index
  rw [if_pos h]
  have : ∀ l : List Char, l.take (l.takeWhile (fun c => decide (c ≠ sep))).length =
      l.takeWhile (fun c => decide (c ≠ sep)) := by
    intro l
    induction l with
    | nil => rfl
    | cons x xs ih =>
      by_cases hx : x = sep
      · simp [List.takeWhile, hx]
      · simp [List.takeWhile, hx]
        simpa using ih
  simpa using this s

/-- C29: `GetAuthHeader` returns the access key, the signed header names and
the signature from which `AuthHeaderValue` built the header, when the key and
the signature hold no space, comma or `=` and the names (at least one) hold no
space, comma, `=` or `;`; and every header whose text before the first space
is not `SDK-HMAC-SHA256` (a header without a space included) is rejected with
an error. -/
theorem C29_get_parses_auth_header_value (signature accessKey : List Char)
    (signedHeaders : List (List Char))
    (hkey : ' ' ∉ accessKey ∧ ',' ∉ accessKey ∧ '=' ∉ accessKey)
    (hsig : ' ' ∉ signature ∧ ',' ∉ signature ∧ '=' ∉ signature)
    (hne : signedHeaders ≠ [])
    (hnames : ∀ h ∈ signedHeaders, ' ' ∉ h ∧ ',' ∉ h ∧ '=' ∉ h ∧ ';' ∉ h) :
    GetAuthHeader (AuthHeaderValue signature accessKey signedHeaders) =
        .ok (accessKey, signedHeaders, signature) ∧
      ∀ header : List Char, header.takeWhile (fun c => c ≠ ' ') ≠ Algorithm →
        ∃ e, GetAuthHeader header = .error e := by
  constructor
  · have hJ : ∀ c : Char, c ≠ ';' → (∀ h ∈ signedHeaders, c ∉ h) → c ∉ Join signedHeaders ';' := by
      intro c hc hall hmem
      rcases mem_Join ';' c signedHeaders hmem with h | ⟨l, hl, hcl⟩
      · exact hc h
      · exact hall l hl hcl
    have hJs : ' ' ∉ Join signedHeaders ';' := hJ ' ' (by decide) (fun h hh => (hnames h hh).1)
    have hJc : ',' ∉ Join signedHeaders ';' := hJ ',' (by decide) (fun h hh => (hnames h hh).2.1)
    have hJe : '=' ∉ Join signedHeaders ';' := hJ '=' (by decide) (fun h hh => (hnames h hh).2.2.1)
    have hsplitJ : Split (Join signedHeaders ';') ';' = signedHeaders := by
      unfold Split Join
      exact List.splitOn_intercalate _ ';' (fun l hl => (hnames l hl).2.2.2) hne
    have hval : AuthHeaderValue signature accessKey signedHeaders =
        Algorithm ++ ' ' :: ((['A', 'c', 'c', 'e', 's', 's', '='] ++ accessKey) ++ ',' ::
          (([' ', 'S', 'i', 'g', 'n', 'e', 'd', 'H', 'e', 'a', 'd', 'e', 'r', 's', '='] ++
            Join signedHeaders ';') ++ ',' ::
          ([' ', 'S', 'i', 'g', 'n', 'a', 't', 'u', 'r', 'e', '='] ++ signature))) := by
      simp [AuthHeaderValue]
    have hmem : ' ' ∈ AuthHeaderValue signature accessKey signedHeaders := by
      rw [hval]
      simp
    have htw : (AuthHeaderValue signature accessKey signedHeaders).takeWhile (fun c => c ≠ ' ')
        = Algorithm := by
      rw [hval, List.takeWhile_append_of_pos (by decide)]
      simp
    have hidx : Index (AuthHeaderValue signature accessKey signedHeaders) ' ' = 15 := by
      unfold Index
      rw [if_pos hmem, htw]
      rfl
    have htake : (AuthHeaderValue signature accessKey signedHeaders).take 15 = Algorithm := by
      rw [hval]
      exact List.take_left' rfl
    have hdrop : (AuthHeaderValue signature accessKey signedHeaders).drop 16 =
        (['A', 'c', 'c', 'e', 's', 's', '='] ++ accessKey) ++ ',' ::
          (([' ', 'S', 'i', 'g', 'n', 'e', 'd', 'H', 'e', 'a', 'd', 'e', 'r', 's', '='] ++
            Join signedHeaders ';') ++ ',' ::
          ([' ', 'S', 'i', 'g', 'n', 'a', 't', 'u', 'r', 'e', '='] ++ signature)) := by
      rw [hval]
      rfl
    have hparts : Split ((['A', 'c', 'c', 'e', 's', 's', '='] ++ accessKey) ++ ',' ::
          (([' ', 'S', 'i', 'g', 'n', 'e', 'd', 'H', 'e', 'a', 'd', 'e', 'r', 's', '='] ++
            Join signedHeaders ';') ++ ',' ::
          ([' ', 'S', 'i', 'g', 'n', 'a', 't', 'u', 'r', 'e', '='] ++ signature))) ',' =
        [['A', 'c', 'c', 'e', 's', 's', '='] ++ accessKey,
          [' ', 'S', 'i', 'g', 'n', 'e', 'd', 'H', 'e', 'a', 'd', 'e', 'r', 's', '='] ++
            Join signedHeaders ';',
          [' ', 'S', 'i', 'g', 'n', 'a', 't', 'u', 'r', 'e', '='] ++ signature] := by
      rw [Split_first _ _ _ (by simpa using hkey.2.1), Split_first _ _ _ (by simpa using hJc),
        Split_single _ _ (by simpa using hsig.2.1)]
    have hp0 : Split (['A', 'c', 'c', 'e', 's', 's', '='] ++ accessKey) '=' =
        [['A', 'c', 'c', 'e', 's', 's'], accessKey] := by
      have := Split_first ['A', 'c', 'c', 'e', 's', 's'] accessKey '=' (by decide)
      rw [Split_single _ _ hkey.2.2] at this
      simpa using this
    have hp1 : Split ([' ', 'S', 'i', 'g', 'n', 'e', 'd', 'H', 'e', 'a', 'd', 'e', 'r', 's', '='] ++
          Join signedHeaders ';') '=' =
        [[' ', 'S', 'i', 'g', 'n', 'e', 'd', 'H', 'e', 'a', 'd', 'e', 'r', 's'],
          Join signedHeaders ';'] := by
      have := Split_first [' ', 'S', 'i', 'g', 'n', 'e', 'd', 'H', 'e', 'a', 'd', 'e', 'r', 's']
        (Join signedHeaders ';') '=' (by decide)
      rw [Split_single _ _ hJe] at this
      simpa using this
    have hp2 : Split ([' ', 'S', 'i', 'g', 'n', 'a', 't', 'u', 'r', 'e', '='] ++ signature) '=' =
        [[' ', 'S', 'i', 'g', 'n', 'a', 't', 'u', 'r', 'e'], signature] := by
      have := Split_first [' ', 'S', 'i', 'g', 'n', 'a', 't', 'u', 'r', 'e'] signature '='
        (by decide)
      rw [Split_single _ _ hsig.2.2] at this
      simpa using this
    have hnil : AuthHeaderValue signature accessKey signedHeaders ≠ [] := by
      rw [hval]
      simp [Algorithm]
    unfold GetAuthHeader
    rw [if_neg hnil]
    simp only [hidx]
    rw [if_neg (by decide)]
    have h15 : (15 : Int).toNat = 15 := rfl
    have h16 : ((15 : Int) + 1).toNat = 16 := rfl
    rw [h15, h16, htake, hdrop, hparts]
    simp only [ne_eq, not_true_eq_false, if_false, List.length_cons, List.length_nil,
      List.getD_cons_zero, List.getD_cons_succ, hp0, hp1, hp2, or_self,
      Trim_of_not_mem _ _ hkey.1, Trim_of_not_mem _ _ hJs, Trim_of_not_mem _ _ hsig.1, hsplitJ]
  · intro header hword
    unfold GetAuthHeader
    by_cases h0 : header = []
    · exact ⟨_, by rw [if_pos h0]⟩
    · rw [if_neg h0]
      by_cases hmem : ' ' ∈ header
      · have hidx : Index header ' ' ≠ -1 := by
          unfold Index
          rw [if_pos hmem]
          omega
        simp only []
        rw [if_neg hidx, take_Index header ' ' hmem, if_pos hword]
        exact ⟨_, rfl⟩
      · have hidx : Index header ' ' = -1 := by
          unfold Index
          rw [if_neg hmem]
        simp only []
        rw [if_pos hidx]
        exact ⟨_, rfl⟩

/-- C29, on the key `key1`, the signature `ab09` and the names `host` and
`x-d`. -/
theorem C29_get_parses_auth_header_value_witness :
    String.mk (AuthHeaderValue sampleSignature sampleKey sampleHeaders) =
        "SDK-HMAC-SHA256 Access=key1, SignedHeaders=host;x-d, Signature=ab09" ∧
      GetAuthHeader (AuthHeaderValue sampleSignature sampleKey sampleHeaders) =
        .ok (sampleKey, sampleHeaders, sampleSignature) :=
  ⟨by decide,
    (C29_get_parses_auth_header_value sampleSignature sampleKey sampleHeaders
      (by decide) (by decide) (by decide) (by decide)).1⟩

end auth

end Golanglib

